import Mathlib

/-!
# Vector and HashMap of `raz-perry/C-implement-vector-map`

A shallow embedding of `Vector.c` and `HashMap.c` and the properties of the
resizing hash table proved (or refuted) over it.

Modelling conventions.

* A C object reached through a pointer is a value that the function takes and
  returns (explicit state passing).  A `NULL` argument is `none`.
* `size_t` is `Nat`; the one subtraction that can wrap, `x - 1`, is
  `sizeSubOne`, which wraps at `0` as in arithmetic modulo `2 ^ 64`.
  Products `capacity * 2` are not reduced: a table of `2 ^ 63` buckets does
  not fit in memory.  The cast of a bucket position to `int` is exact for
  buckets of fewer than `2 ^ 31` pairs.
* The comparisons with the load factors `0.75` and `0.25` are between a
  `double` and a small dyadic constant; for sizes and capacities below
  `2 ^ 53` they are exact and are written cross-multiplied by four.
* `malloc`, `calloc` and `realloc` may fail.  The outcomes of the successive
  requests are an explicit `Alloc` argument, threaded through every function
  that allocates; the empty list stands for "every request succeeds".
* A read of a slot that holds no stored element (outside the bucket array,
  or past the `size` of a vector) is undefined behaviour; a function that
  performs one returns the outer `none`.  Releasing storage (`free`,
  `pair_free`, `FreeBuckets`) has no effect on the values and is not shown.
* The capability functions (`hash_func`, `pair_cpy`, and the `key_cmp` and
  `value_cmp` bundled in every pair by its adapter, see `PairCharInt.h`) are
  collected in `Caps`; every pair of one map is built by the same adapter.
-/

namespace CVectorMap

/-! ## Allocation and machine arithmetic -/

/-- Outcomes of the coming allocation requests, in order (`true`: the request
succeeds).  When the list is used up every further request succeeds. -/
abbrev Alloc := List Bool

/-- One call of `malloc`, `calloc` or `realloc`: its outcome and the outcomes
left for the later requests. -/
def Alloc.request : Alloc → Bool × Alloc
  | [] => (true, [])
  | ok :: rest => (ok, rest)

/-- The `size_t` expression `n - 1`: it wraps to `2 ^ 64 - 1` at `n = 0`.
A `size_t` is below `2 ^ 64`, and for such `n` this is
`(n + (2 ^ 64 - 1)) % 2 ^ 64`. -/
def sizeSubOne (n : Nat) : Nat := if n = 0 then 2 ^ 64 - 1 else n - 1

/-! ## Vector.h / Vector.c -/

/-- The macro `VECTOR_INITIAL_CAP`. -/
def VECTOR_INITIAL_CAP : Nat := 16

/-- The macro `VECTOR_GROWTH_FACTOR`. -/
def VECTOR_GROWTH_FACTOR : Nat := 2

/-- The struct `Vector`: the `capacity` field and the stored elements
`data[0 .. size-1]`; the field `size` is the number of stored elements. -/
structure Vector (α : Type) where
  capacity : Nat
  data : List α
deriving DecidableEq

/-- The field `size` of a vector. -/
def Vector.size {α : Type} (v : Vector α) : Nat := v.data.length

/-- The test `capacity * VECTOR_MAX_LOAD_FACTOR < (double) size + 1`, with
`VECTOR_MAX_LOAD_FACTOR = 0.75` (the same test with the `HASH_MAP_` constant
is used by the map). -/
def exceedsMaxLoad (capacity size : Nat) : Bool :=
  decide (capacity * 3 < (size + 1) * 4)

/-- The test `VectorGetLoadFactor(vector) < VECTOR_MIN_LOAD_FACTOR`:
`VectorGetLoadFactor` is `-1` for capacity `0` and `size / capacity`
otherwise, and `VECTOR_MIN_LOAD_FACTOR = 0.25`. -/
def VectorLoadBelowMin {α : Type} (v : Vector α) : Bool :=
  if v.capacity = 0 then true else decide (v.size * 4 < v.capacity)

/-- The function `VectorAlloc`: fails when a function pointer is missing or when one of its
two `malloc` calls fails; otherwise an empty vector of capacity 16. -/
def VectorAlloc {α : Type} (elem_copy_func : Option (α → α))
    (elem_cmp_func : Option (α → α → Int)) (elem_free_func : Option (α → Unit))
    (al : Alloc) : Option (Vector α) × Alloc :=
  if elem_copy_func.isNone || elem_cmp_func.isNone || elem_free_func.isNone then (none, al)
  else
    let r1 := al.request
    if r1.1 = false then (none, r1.2)
    else
      let r2 := r1.2.request
      if r2.1 = false then (none, r2.2)
      else (some ⟨VECTOR_INITIAL_CAP, []⟩, r2.2)

/-- The function `VectorAt`: `some none` is the `NULL` result, `some (some x)` the stored
element; the outer `none` is a read of `data[ind]` past the stored elements
(the guard `ind > size - 1` is computed in `size_t`). -/
def VectorAt {α : Type} (vector : Vector α) (ind : Nat) : Option (Option α) :=
  if ind > sizeSubOne vector.size then some none
  else
    match vector.data[ind]? with
    | some x => some (some x)
    | none => none

/-- The function `VectorPushBack`: the return code, the vector afterwards and the
allocation outcomes left.  The capacity is doubled before `realloc` is
called, and stays doubled when `realloc` fails. -/
def VectorPushBack {α : Type} (elem_copy_func : α → α) (vector : Vector α)
    (value : Option α) (al : Alloc) : Int × Vector α × Alloc :=
  match value with
  | none => (0, vector, al)
  | some x =>
    if exceedsMaxLoad vector.capacity vector.size then
      let r := al.request
      if r.1 = false then (0, ⟨vector.capacity * VECTOR_GROWTH_FACTOR, vector.data⟩, r.2)
      else (1, ⟨vector.capacity * VECTOR_GROWTH_FACTOR, vector.data ++ [elem_copy_func x]⟩, r.2)
    else (1, ⟨vector.capacity, vector.data ++ [elem_copy_func x]⟩, al)

/-- The function `VectorErase`: the return code, the vector afterwards and the allocation
outcomes left.  On an empty vector the guard `ind > size - 1` never holds
(`size - 1` wraps), and the function goes on to free and shift slots that
hold no element: the outer `none`. -/
def VectorErase {α : Type} (vector : Vector α) (ind : Nat) (al : Alloc) :
    Option (Int × Vector α × Alloc) :=
  if ind > sizeSubOne vector.size then some (0, vector, al)
  else if ind < vector.size then
    let v1 : Vector α := ⟨vector.capacity, vector.data.eraseIdx ind⟩
    if VectorLoadBelowMin v1 then
      let r := al.request
      if r.1 = false then some (0, ⟨v1.capacity / VECTOR_GROWTH_FACTOR, v1.data⟩, r.2)
      else some (1, ⟨v1.capacity / VECTOR_GROWTH_FACTOR, v1.data⟩, r.2)
    else some (1, v1, al)
  else none

/-! ## Pair.h -/

/-- The struct `Pair`: a key and a value, both non-null.  The copy, compare
and free functions it also carries are in `Caps`. -/
structure Pair (K V : Type) where
  key : K
  value : V
deriving DecidableEq

/-! ## HashMap.h / HashMap.c -/

/-- The macro `HASH_MAP_INITIAL_CAP`. -/
def HASH_MAP_INITIAL_CAP : Nat := 16

/-- The macro `HASH_MAP_GROWTH_FACTOR`. -/
def HASH_MAP_GROWTH_FACTOR : Nat := 2

/-- The struct `HashMap`: the bucket array and the fields `size` and
`capacity`.  Its function pointers are in `Caps`. -/
structure HashMap (K V : Type) where
  buckets : List (Vector (Pair K V))
  size : Nat
  capacity : Nat
deriving DecidableEq

/-- The capability functions: the four function pointers of the struct
`HashMap` and the two comparators carried by the pairs.  A comparator returns
a C `int`; the code tests it against `1`. -/
structure Caps (K V : Type) where
  hash_func : K → Nat
  pair_cpy : Pair K V → Pair K V
  pair_cmp : Pair K V → Pair K V → Int
  pair_free : Pair K V → Unit
  key_cmp : K → K → Int
  value_cmp : V → V → Int

/-- The macro `HASH(func, key, capacity)`, that is
`func(key) & (capacity-1)` in `size_t`. -/
def HASH {K : Type} (func : K → Nat) (key : K) (capacity : Nat) : Nat :=
  func key &&& sizeSubOne capacity

/-- The test `HashMapGetLoadFactor(hash_map) >= HASH_MAP_MIN_LOAD_FACTOR` of
`DecreaseTable`, with `HASH_MAP_MIN_LOAD_FACTOR = 0.25`.  For capacity `0`
the quotient is `+inf` when `size > 0` and NaN when `size = 0`, and a
comparison with NaN is false. -/
def HashMapLoadAtLeastMin {K V : Type} (m : HashMap K V) : Bool :=
  if m.capacity = 0 then decide (0 < m.size) else decide (m.capacity ≤ m.size * 4)

/-- The loop of `InitBuckets`: `n` calls of `VectorAlloc`, stopping at the
first that fails. -/
def InitBuckets.loop {α : Type} (cpy_func : Option (α → α))
    (cmp_func : Option (α → α → Int)) (free_func : Option (α → Unit)) :
    Nat → Alloc → Option (List (Vector α)) × Alloc
  | 0, al => (some [], al)
  | n + 1, al =>
    match VectorAlloc cpy_func cmp_func free_func al with
    | (none, al1) => (none, al1)
    | (some v, al1) =>
      match InitBuckets.loop cpy_func cmp_func free_func n al1 with
      | (none, al2) => (none, al2)
      | (some vs, al2) => (some (v :: vs), al2)

/-- The function `InitBuckets`: one `calloc` for the array, then one `VectorAlloc` per
bucket; `none` is the `NULL` result. -/
def InitBuckets {α : Type} (size : Nat) (cpy_func : Option (α → α))
    (cmp_func : Option (α → α → Int)) (free_func : Option (α → Unit))
    (al : Alloc) : Option (List (Vector α)) × Alloc :=
  let r := al.request
  if r.1 = false then (none, r.2)
  else InitBuckets.loop cpy_func cmp_func free_func size r.2

/-- The function `HashMapAlloc`: `none` is the `NULL` result. -/
def HashMapAlloc {K V : Type} (hash_func : Option (K → Nat))
    (pair_cpy : Option (Pair K V → Pair K V))
    (pair_cmp : Option (Pair K V → Pair K V → Int))
    (pair_free : Option (Pair K V → Unit)) (al : Alloc) :
    Option (HashMap K V) × Alloc :=
  if hash_func.isNone || pair_cpy.isNone || pair_cmp.isNone || pair_free.isNone then (none, al)
  else
    let r := al.request
    if r.1 = false then (none, r.2)
    else
      match InitBuckets HASH_MAP_INITIAL_CAP pair_cpy pair_cmp pair_free r.2 with
      | (none, al1) => (none, al1)
      | (some bs, al1) => (some ⟨bs, 0, HASH_MAP_INITIAL_CAP⟩, al1)

/-- The loop of `GetPairIndexByKey` from position `i` on. -/
def GetPairIndexByKey.loop {K V : Type} (c : Caps K V) (key : K) :
    List (Pair K V) → Nat → Int
  | [], _ => -1
  | p :: ps, i =>
    if c.key_cmp p.key key = 1 then (i : Int)
    else GetPairIndexByKey.loop c key ps (i + 1)

/-- The function `GetPairIndexByKey`: the first position whose key compares equal to
`key`, or `-1`. -/
def GetPairIndexByKey {K V : Type} (c : Caps K V) (vec : Vector (Pair K V))
    (key : Option K) : Int :=
  match key with
  | none => -1
  | some k => GetPairIndexByKey.loop c k vec.data 0

/-- The inner loop of `ReHashing` over the pairs of one old bucket.  The
outer `none` is an index outside `temp`; `some (none, _)` is the `NULL`
result after a failed `VectorPushBack`. -/
def ReHashing.inner {K V : Type} (c : Caps K V) (new_cap : Nat) :
    List (Pair K V) → List (Vector (Pair K V)) → Alloc →
    Option (Option (List (Vector (Pair K V))) × Alloc)
  | [], temp, al => some (some temp, al)
  | exist_pair :: rest, temp, al =>
    let new_ind := HASH c.hash_func exist_pair.key new_cap
    match temp[new_ind]? with
    | none => none
    | some t =>
      let r := VectorPushBack c.pair_cpy t (some exist_pair) al
      if r.1 = 0 then some (none, r.2.2)
      else ReHashing.inner c new_cap rest (temp.set new_ind r.2.1) r.2.2

/-- The outer loop of `ReHashing`: `n` more old buckets, from index `i`. -/
def ReHashing.outer {K V : Type} (c : Caps K V) (hash_map : HashMap K V)
    (new_cap : Nat) :
    Nat → Nat → List (Vector (Pair K V)) → Alloc →
    Option (Option (List (Vector (Pair K V))) × Alloc)
  | 0, _, temp, al => some (some temp, al)
  | n + 1, i, temp, al =>
    match hash_map.buckets[i]? with
    | none => none
    | some b =>
      match ReHashing.inner c new_cap b.data temp al with
      | none => none
      | some (none, al1) => some (none, al1)
      | some (some temp1, al1) => ReHashing.outer c hash_map new_cap n (i + 1) temp1 al1

/-- The function `ReHashing`: a new bucket array of `new_cap` buckets holding a copy of
every pair of the map, or `NULL` (`some (none, _)`). -/
def ReHashing {K V : Type} (c : Caps K V) (hash_map : HashMap K V) (new_cap : Nat)
    (al : Alloc) : Option (Option (List (Vector (Pair K V))) × Alloc) :=
  match InitBuckets new_cap (some c.pair_cpy) (some c.pair_cmp) (some c.pair_free) al with
  | (none, al1) => some (none, al1)
  | (some temp, al1) => ReHashing.outer c hash_map new_cap hash_map.capacity 0 temp al1

/-- The function `IncreaseTable`. -/
def IncreaseTable {K V : Type} (c : Caps K V) (hash_map : HashMap K V) (new_cap : Nat)
    (pair : Pair K V) (al : Alloc) : Option (Int × HashMap K V × Alloc) :=
  match ReHashing c hash_map new_cap al with
  | none => none
  | some (none, al1) => some (0, hash_map, al1)
  | some (some temp, al1) =>
    let ind := HASH c.hash_func pair.key new_cap
    match temp[ind]? with
    | none => none
    | some t =>
      let r := VectorPushBack c.pair_cpy t (some pair) al1
      if r.1 = 0 then some (0, hash_map, r.2.2)
      else some (1, ⟨temp.set ind r.2.1, hash_map.size, new_cap⟩, r.2.2)

/-- The function `DecreaseTable`. -/
def DecreaseTable {K V : Type} (c : Caps K V) (hash_map : HashMap K V) (new_cap : Nat)
    (al : Alloc) : Option (Int × HashMap K V × Alloc) :=
  if HashMapLoadAtLeastMin hash_map then some (1, hash_map, al)
  else
    match ReHashing c hash_map new_cap al with
    | none => none
    | some (none, al1) => some (0, hash_map, al1)
    | some (some temp, al1) => some (1, ⟨temp, hash_map.size, new_cap⟩, al1)

/-- The function `HashMapInsert`: the return code, the map afterwards and the allocation
outcomes left. -/
def HashMapInsert {K V : Type} (c : Caps K V) (hash_map : HashMap K V)
    (pair : Option (Pair K V)) (al : Alloc) : Option (Int × HashMap K V × Alloc) :=
  match pair with
  | none => some (0, hash_map, al)
  | some p =>
    let vector_index := HASH c.hash_func p.key hash_map.capacity
    match hash_map.buckets[vector_index]? with
    | none => none
    | some b =>
      let pair_index := GetPairIndexByKey c b (some p.key)
      if pair_index ≠ -1 then
        some (1, ⟨hash_map.buckets.set vector_index
                    ⟨b.capacity, b.data.set pair_index.toNat (c.pair_cpy p)⟩,
                  hash_map.size, hash_map.capacity⟩, al)
      else if exceedsMaxLoad hash_map.capacity hash_map.size then
        match IncreaseTable c hash_map (hash_map.capacity * HASH_MAP_GROWTH_FACTOR) p al with
        | none => none
        | some r =>
          if r.1 = 0 then some (0, r.2.1, r.2.2)
          else some (1, ⟨r.2.1.buckets, r.2.1.size + 1, r.2.1.capacity⟩, r.2.2)
      else
        let r := VectorPushBack c.pair_cpy b (some p) al
        if r.1 = 0 then
          some (0, ⟨hash_map.buckets.set vector_index r.2.1, hash_map.size,
                    hash_map.capacity⟩, r.2.2)
        else
          some (1, ⟨hash_map.buckets.set vector_index r.2.1, hash_map.size + 1,
                    hash_map.capacity⟩, r.2.2)

/-- The function `HashMapContainsKey`. -/
def HashMapContainsKey {K V : Type} (c : Caps K V) (hash_map : HashMap K V)
    (key : Option K) : Option Int :=
  match key with
  | none => some 0
  | some k =>
    let vector_index := HASH c.hash_func k hash_map.capacity
    match hash_map.buckets[vector_index]? with
    | none => none
    | some b => if GetPairIndexByKey c b (some k) ≠ -1 then some 1 else some 0

/-- The function `HashMapAt`: `some none` is the `NULL` result, `some (some v)` the value
stored with the key. -/
def HashMapAt {K V : Type} (c : Caps K V) (hash_map : HashMap K V) (key : Option K) :
    Option (Option V) :=
  match key with
  | none => some none
  | some k =>
    let vector_index := HASH c.hash_func k hash_map.capacity
    match hash_map.buckets[vector_index]? with
    | none => none
    | some b =>
      let pair_index := GetPairIndexByKey c b (some k)
      if pair_index < 0 then some none
      else
        match VectorAt b pair_index.toNat with
        | none => none
        | some none => some none
        | some (some pair) => some (some pair.value)

/-- The inner loop of `HashMapContainsValue` over the pairs of one bucket. -/
def HashMapContainsValue.inner {K V : Type} (c : Caps K V) (value : V) :
    List (Pair K V) → Bool
  | [] => false
  | pair :: rest =>
    if c.value_cmp pair.value value = 1 then true
    else HashMapContainsValue.inner c value rest

/-- The outer loop of `HashMapContainsValue`: `n` more buckets from index `i`. -/
def HashMapContainsValue.outer {K V : Type} (c : Caps K V) (hash_map : HashMap K V)
    (value : V) : Nat → Nat → Option Int
  | 0, _ => some 0
  | n + 1, i =>
    match hash_map.buckets[i]? with
    | none => none
    | some b =>
      if HashMapContainsValue.inner c value b.data then some 1
      else HashMapContainsValue.outer c hash_map value n (i + 1)

/-- The function `HashMapContainsValue`. -/
def HashMapContainsValue {K V : Type} (c : Caps K V) (hash_map : HashMap K V)
    (value : Option V) : Option Int :=
  match value with
  | none => some 0
  | some v =>
    if hash_map.size = 0 then some 0
    else HashMapContainsValue.outer c hash_map v hash_map.capacity 0

/-- The function `HashMapErase`: the return code, the map afterwards and the allocation
outcomes left. -/
def HashMapErase {K V : Type} (c : Caps K V) (hash_map : HashMap K V) (key : Option K)
    (al : Alloc) : Option (Int × HashMap K V × Alloc) :=
  match key with
  | none => some (0, hash_map, al)
  | some k =>
    match HashMapContainsKey c hash_map (some k) with
    | none => none
    | some found =>
      if found = 0 then some (0, hash_map, al)
      else
        let vector_index := HASH c.hash_func k hash_map.capacity
        match hash_map.buckets[vector_index]? with
        | none => none
        | some b =>
          let pair_index := GetPairIndexByKey c b (some k)
          if pair_index = -1 then some (0, hash_map, al)
          else
            match VectorErase b pair_index.toNat al with
            | none => none
            | some r =>
              if r.1 = 0 then
                some (0, ⟨hash_map.buckets.set vector_index r.2.1, hash_map.size,
                          hash_map.capacity⟩, r.2.2)
              else
                DecreaseTable c
                  ⟨hash_map.buckets.set vector_index r.2.1, sizeSubOne hash_map.size,
                   hash_map.capacity⟩
                  (hash_map.capacity / HASH_MAP_GROWTH_FACTOR) r.2.2

/-- The inner loop of `HashMapClear` at bucket index `i`: the positions
`j = jn - 1, ..., 0`.  Each round reads `hash_map->buckets[i]->data[j]` in
the map as it is then and erases that key.  The flag is `false` when an erase
failed (the function returns); the outer `none` is a read of a slot that
holds no bucket or no pair. -/
def HashMapClear.inner {K V : Type} (c : Caps K V) (i : Nat) :
    Nat → HashMap K V → Alloc → Option (Bool × HashMap K V × Alloc)
  | 0, hash_map, al => some (true, hash_map, al)
  | j + 1, hash_map, al =>
    match hash_map.buckets[i]? with
    | none => none
    | some b =>
      match b.data[j]? with
      | none => none
      | some pair =>
        match HashMapErase c hash_map (some pair.key) al with
        | none => none
        | some r =>
          if r.1 = 0 then some (false, r.2.1, r.2.2)
          else HashMapClear.inner c i j r.2.1 r.2.2

/-- The outer loop of `HashMapClear`: the bucket indices
`i = n - 1, ..., 0`; the start of the inner loop reads
`hash_map->buckets[i]->size`. -/
def HashMapClear.outer {K V : Type} (c : Caps K V) :
    Nat → HashMap K V → Alloc → Option (HashMap K V × Alloc)
  | 0, hash_map, al => some (hash_map, al)
  | i + 1, hash_map, al =>
    match hash_map.buckets[i]? with
    | none => none
    | some b =>
      match HashMapClear.inner c i b.size hash_map al with
      | none => none
      | some r =>
        if r.1 = false then some (r.2.1, r.2.2)
        else HashMapClear.outer c i r.2.1 r.2.2

/-- The function `HashMapClear`: the map afterwards and the allocation outcomes left. -/
def HashMapClear {K V : Type} (c : Caps K V) (hash_map : HashMap K V) (al : Alloc) :
    Option (HashMap K V × Alloc) :=
  if hash_map.size = 0 then some (hash_map, al)
  else HashMapClear.outer c hash_map.capacity hash_map al

/-! ## Hash.h and PairCharInt.h: the adapter for `char` keys and `int` values -/

/-- The function `HashChar` of `Hash.h`: the `char` converted to `size_t`. -/
def HashChar (elem : Int) : Nat := (elem % 2 ^ 64).toNat

/-- The function `CharKeyCmp` of `PairCharInt.h`. -/
def CharKeyCmp (val_1 val_2 : Int) : Int := if val_1 = val_2 then 1 else 0

/-- The function `IntValueCmp` of `PairCharInt.h`. -/
def IntValueCmp (val_1 val_2 : Int) : Int := if val_1 = val_2 then 1 else 0

/-- The function `PairCharIntCpy` of `PairCharInt.h`, through `PairCopy` and `PairAlloc`:
a pair of a copy of the key and a copy of the value. -/
def PairCharIntCpy (p : Pair Int Int) : Pair Int Int := ⟨p.key, p.value⟩

/-- The function `PairCharIntCmp` of `PairCharInt.h`. -/
def PairCharIntCmp (p_1 p_2 : Pair Int Int) : Int :=
  if CharKeyCmp p_1.key p_2.key ≠ 0 ∧ IntValueCmp p_1.value p_2.value ≠ 0 then 1 else 0

/-- The function `PairCharIntFree` of `PairCharInt.h` (releases storage only). -/
def PairCharIntFree (_p : Pair Int Int) : Unit := ()

/-- The capability set of a map from `char` to `int`. -/
def charIntCaps : Caps Int Int :=
  ⟨HashChar, PairCharIntCpy, PairCharIntCmp, PairCharIntFree, CharKeyCmp, IntValueCmp⟩

/-! ## Specification vocabulary -/

/-- The assumptions on the capability functions: the key comparator is an
equivalence relation, keys that compare equal have equal hashes, and the copy
of a pair has the key and the value of the original. -/
structure Caps.Lawful {K V : Type} (c : Caps K V) : Prop where
  cmp_refl : ∀ a, c.key_cmp a a = 1
  cmp_symm : ∀ a b, c.key_cmp a b = 1 → c.key_cmp b a = 1
  cmp_trans : ∀ a b d, c.key_cmp a b = 1 → c.key_cmp b d = 1 → c.key_cmp a d = 1
  cmp_hash : ∀ a b, c.key_cmp a b = 1 → c.hash_func a = c.hash_func b
  cpy_eq : ∀ p, c.pair_cpy p = p

/-- The maps reachable from `HashMapAlloc` by calls of `HashMapInsert` and
`HashMapErase` with any arguments, no allocation request failing on the
way. -/
inductive Reachable {K V : Type} (c : Caps K V) : HashMap K V → Prop
  | alloc (m : HashMap K V) (al : Alloc) :
      HashMapAlloc (some c.hash_func) (some c.pair_cpy) (some c.pair_cmp)
        (some c.pair_free) [] = (some m, al) → Reachable c m
  | insert (m : HashMap K V) (pair : Option (Pair K V)) (r : Int) (m1 : HashMap K V)
      (al : Alloc) :
      Reachable c m → HashMapInsert c m pair [] = some (r, m1, al) → Reachable c m1
  | erase (m : HashMap K V) (key : Option K) (r : Int) (m1 : HashMap K V) (al : Alloc) :
      Reachable c m → HashMapErase c m key [] = some (r, m1, al) → Reachable c m1

/-- Some pair stored in some bucket has a key that compares equal to `k`. -/
def StoredKey {K V : Type} (c : Caps K V) (m : HashMap K V) (k : K) : Prop :=
  ∃ b ∈ m.buckets, ∃ p ∈ b.data, c.key_cmp p.key k = 1

/-- Some pair stored in some bucket has a value that compares equal to `v`. -/
def StoredValue {K V : Type} (c : Caps K V) (m : HashMap K V) (v : V) : Prop :=
  ∃ b ∈ m.buckets, ∃ p ∈ b.data, c.value_cmp p.value v = 1

/-- All the pairs of the map, bucket after bucket. -/
def entries {K V : Type} (m : HashMap K V) : List (Pair K V) :=
  (m.buckets.map Vector.data).flatten

/-- The test of the key scans: `p->key_cmp(p->key, key) == 1`. -/
def keyTest {K V : Type} (c : Caps K V) (k : K) (p : Pair K V) : Bool :=
  decide (c.key_cmp p.key k = 1)

/-- The first pair of a list whose key compares equal to `k`. -/
def findKey {K V : Type} (c : Caps K V) (k : K) (l : List (Pair K V)) : Option (Pair K V) :=
  l.find? (keyTest c k)

/-- The value found for `k` by the scan of the bucket of `k`. -/
def lookup {K V : Type} (c : Caps K V) (m : HashMap K V) (k : K) : Option V :=
  match m.buckets[HASH c.hash_func k m.capacity]? with
  | none => none
  | some b => (findKey c k b.data).map Pair.value

/-- The structural invariant of a map: as many buckets as `capacity`, a power
of two; every pair sits in the bucket of its key; no two pairs of a bucket
have keys that compare equal; `size` counts the stored pairs. -/
structure WF {K V : Type} (c : Caps K V) (m : HashMap K V) : Prop where
  len : m.buckets.length = m.capacity
  pow : ∃ e : Nat, m.capacity = 2 ^ e
  place : ∀ i b, m.buckets[i]? = some b →
    ∀ p ∈ b.data, HASH c.hash_func p.key m.capacity = i
  nodup : ∀ b ∈ m.buckets, b.data.Pairwise (fun p q => c.key_cmp p.key q.key ≠ 1)
  size_eq : m.size = (m.buckets.map Vector.size).sum

/-- The invariant of the reachable maps: the structural invariant and the
upper bound on the load factor. -/
def Inv {K V : Type} (c : Caps K V) (m : HashMap K V) : Prop :=
  WF c m ∧ m.size * 4 ≤ m.capacity * 3

/-- A run of `HashMapInsert` over a list of pairs, no allocation request
failing: the return codes and the final map. -/
def insertAll {K V : Type} (c : Caps K V) :
    HashMap K V → List (Pair K V) → Option (List Int × HashMap K V)
  | m, [] => some ([], m)
  | m, p :: ps =>
    match HashMapInsert c m (some p) [] with
    | none => none
    | some r =>
      match insertAll c r.2.1 ps with
      | none => none
      | some q => some (r.1 :: q.1, q.2)

/-- A run of `HashMapErase` over a list of keys, no allocation request
failing: the return codes and the final map. -/
def eraseAll {K V : Type} (c : Caps K V) :
    HashMap K V → List K → Option (List Int × HashMap K V)
  | m, [] => some ([], m)
  | m, k :: ks =>
    match HashMapErase c m (some k) [] with
    | none => none
    | some r =>
      match eraseAll c r.2.1 ks with
      | none => none
      | some q => some (r.1 :: q.1, q.2)

/-- The number of keys of a list that compare equal to no key before them
(`seen` holds the keys before the list). -/
def distinctKeys.count {K V : Type} (c : Caps K V) : List K → List K → Nat
  | _, [] => 0
  | seen, k :: ks =>
    (if seen.any (fun s => decide (c.key_cmp s k = 1)) then 0 else 1)
      + distinctKeys.count c (k :: seen) ks

/-- The number of distinct keys of a list, up to the key comparator. -/
def distinctKeys {K V : Type} (c : Caps K V) (ks : List K) : Nat :=
  distinctKeys.count c [] ks

/-- The capacity after `n` successful erases from a table of capacity `cap`
holding `size` pairs: after each erase the table is halved when the new load
factor is below `0.25`. -/
def eraseCapacity : Nat → Nat → Nat → Nat
  | cap, _, 0 => cap
  | cap, size, n + 1 =>
    eraseCapacity (if (size - 1) * 4 < cap then cap / 2 else cap) (size - 1) n

/-- One call of the interface: an insert or an erase. -/
inductive Op (K V : Type) where
  | insert (p : Pair K V)
  | erase (k : K)

/-- A run of calls of `HashMapInsert` and `HashMapErase`, no allocation
request failing: the return codes and the final map. -/
def runOps {K V : Type} (c : Caps K V) :
    HashMap K V → List (Op K V) → Option (List Int × HashMap K V)
  | m, [] => some ([], m)
  | m, Op.insert p :: ops =>
    match HashMapInsert c m (some p) [] with
    | none => none
    | some r =>
      match runOps c r.2.1 ops with
      | none => none
      | some q => some (r.1 :: q.1, q.2)
  | m, Op.erase k :: ops =>
    match HashMapErase c m (some k) [] with
    | none => none
    | some r =>
      match runOps c r.2.1 ops with
      | none => none
      | some q => some (r.1 :: q.1, q.2)

/-- The map a run ends in (the given map when the run is undefined). -/
def mapOf {K V : Type} (r : Option (List Int × HashMap K V)) (d : HashMap K V) :
    HashMap K V :=
  match r with
  | some q => q.2
  | none => d

instance {K V : Type} (c : Caps K V) (m : HashMap K V) (k : K) :
    Decidable (StoredKey c m k) := by
  unfold StoredKey; infer_instance

instance {K V : Type} (c : Caps K V) (m : HashMap K V) (v : V) :
    Decidable (StoredValue c m v) := by
  unfold StoredValue; infer_instance

/-! ## Concrete maps from `char` to `int` -/

/-- The map `HashMapAlloc` returns: 16 empty buckets of capacity 16. -/
def freshMap : HashMap Int Int := ⟨List.replicate 16 ⟨16, []⟩, 0, 16⟩

/-- The pairs `(0,0), (1,10), ..., (12,120)`. -/
def thirteenPairs : List (Pair Int Int) :=
  (List.range 13).map (fun i => ⟨(i : Int), 10 * (i : Int)⟩)

/-- Twelve inserts: capacity 16, twelve pairs (keys 0..11), one more pair
would exceed the load factor `0.75`. -/
def twelveOf16 : HashMap Int Int :=
  mapOf (insertAll charIntCaps freshMap (thirteenPairs.take 12)) freshMap

/-- Thirteen inserts and five erases: capacity 32, eight pairs (keys 5..12). -/
def eightOf32 : HashMap Int Int :=
  mapOf (eraseAll charIntCaps (mapOf (insertAll charIntCaps freshMap thirteenPairs) freshMap)
    [0, 1, 2, 3, 4]) freshMap

/-- Four inserts: capacity 16, four pairs, in the buckets 12 to 15. -/
def topFour : HashMap Int Int :=
  mapOf (insertAll charIntCaps freshMap [⟨12, 120⟩, ⟨13, 130⟩, ⟨14, 140⟩, ⟨15, 150⟩])
    freshMap

/-- Four inserts in the buckets 1 to 4, then bucket 0 filled and emptied four
times. -/
def shrunkBucketOps : List (Op Int Int) :=
  [Op.insert ⟨1, 10⟩, Op.insert ⟨2, 20⟩, Op.insert ⟨3, 30⟩, Op.insert ⟨4, 40⟩,
   Op.insert ⟨0, 5⟩, Op.erase 0, Op.insert ⟨0, 5⟩, Op.erase 0,
   Op.insert ⟨0, 5⟩, Op.erase 0, Op.insert ⟨0, 5⟩, Op.erase 0]

/-- The map after `shrunkBucketOps`: the vector of bucket 0 has shrunk to
capacity 1 while the table kept capacity 16 and four pairs. -/
def shrunkBucket : HashMap Int Int :=
  mapOf (runOps charIntCaps freshMap shrunkBucketOps) freshMap

/-! ## Reachability under any allocator, and reachable vectors -/

/-- The maps reachable from `HashMapAlloc` by calls of `HashMapInsert` and
`HashMapErase` with any arguments, whatever the allocator does and whatever
the calls return (a call whose behaviour is undefined ends the run). -/
inductive ReachableAny {K V : Type} (c : Caps K V) : HashMap K V → Prop
  | alloc (m : HashMap K V) (al0 al : Alloc) :
      HashMapAlloc (some c.hash_func) (some c.pair_cpy) (some c.pair_cmp)
        (some c.pair_free) al0 = (some m, al) → ReachableAny c m
  | insert (m : HashMap K V) (pair : Option (Pair K V)) (al0 : Alloc) (r : Int)
      (m1 : HashMap K V) (al : Alloc) :
      ReachableAny c m → HashMapInsert c m pair al0 = some (r, m1, al) → ReachableAny c m1
  | erase (m : HashMap K V) (key : Option K) (al0 : Alloc) (r : Int)
      (m1 : HashMap K V) (al : Alloc) :
      ReachableAny c m → HashMapErase c m key al0 = some (r, m1, al) → ReachableAny c m1

/-- The maps reachable from `HashMapAlloc` by successful calls of
`HashMapInsert` and `HashMapErase` (calls that return a non-zero code),
whatever the allocator does. -/
inductive ReachableOk {K V : Type} (c : Caps K V) : HashMap K V → Prop
  | alloc (m : HashMap K V) (al0 al : Alloc) :
      HashMapAlloc (some c.hash_func) (some c.pair_cpy) (some c.pair_cmp)
        (some c.pair_free) al0 = (some m, al) → ReachableOk c m
  | insert (m : HashMap K V) (pair : Option (Pair K V)) (al0 : Alloc) (r : Int)
      (m1 : HashMap K V) (al : Alloc) :
      ReachableOk c m → HashMapInsert c m pair al0 = some (r, m1, al) → r ≠ 0 →
      ReachableOk c m1
  | erase (m : HashMap K V) (key : Option K) (al0 : Alloc) (r : Int)
      (m1 : HashMap K V) (al : Alloc) :
      ReachableOk c m → HashMapErase c m key al0 = some (r, m1, al) → r ≠ 0 →
      ReachableOk c m1

/-- The invariant of the maps reachable under any allocator, for any
capability functions: as many buckets as `capacity`, a power of two; `size`
is at least the number of stored pairs; the load factor is at most `0.75`. -/
structure Shape {K V : Type} (m : HashMap K V) : Prop where
  len : m.buckets.length = m.capacity
  pow : ∃ e : Nat, m.capacity = 2 ^ e
  sum_le : (m.buckets.map Vector.size).sum ≤ m.size
  load : m.size * 4 ≤ m.capacity * 3

/-- The vectors reachable from `VectorAlloc` by successful calls of
`VectorPushBack` and `VectorErase` (calls that return a non-zero code),
whatever the allocator does. -/
inductive VectorReachable {α : Type} (cpy : α → α) : Vector α → Prop
  | alloc (cmp : α → α → Int) (free : α → Unit) (al0 : Alloc) (v : Vector α) (al : Alloc) :
      VectorAlloc (some cpy) (some cmp) (some free) al0 = (some v, al) →
      VectorReachable cpy v
  | push (v : Vector α) (value : Option α) (al0 : Alloc) (r : Int) (v1 : Vector α)
      (al : Alloc) :
      VectorReachable cpy v → VectorPushBack cpy v value al0 = (r, v1, al) → r ≠ 0 →
      VectorReachable cpy v1
  | erase (v : Vector α) (ind : Nat) (al0 : Alloc) (r : Int) (v1 : Vector α)
      (al : Alloc) :
      VectorReachable cpy v → VectorErase v ind al0 = some (r, v1, al) → r ≠ 0 →
      VectorReachable cpy v1

/-- A run of `VectorPushBack` over a list of values, no allocation request
failing: the return codes and the final vector. -/
def pushAll {α : Type} (cpy : α → α) : Vector α → List α → List Int × Vector α
  | v, [] => ([], v)
  | v, x :: xs =>
    ((VectorPushBack cpy v (some x) []).1 ::
        (pushAll cpy (VectorPushBack cpy v (some x) []).2.1 xs).1,
      (pushAll cpy (VectorPushBack cpy v (some x) []).2.1 xs).2)

/-- The vector `VectorAlloc` returns: no element, capacity 16. -/
def freshVector : Vector Int := ⟨16, []⟩

/-- The map `topFour` after `HashMapErase` of key 12 when the `realloc` of
`VectorErase` fails (the map the call returns with code 0). -/
def topFourFailedErase : HashMap Int Int :=
  mapOf ((HashMapErase charIntCaps topFour (some 12) [false]).map
    (fun r => ([r.1], r.2.1))) freshMap

/-- One insert and one erase on a fresh map: no pair, capacity 8. -/
def emptiedMap : HashMap Int Int :=
  mapOf (runOps charIntCaps freshMap [Op.insert ⟨1, 10⟩, Op.erase 1]) freshMap

/-- One push and one erase on a fresh vector of `int`: no element,
capacity 8. -/
def emptiedVector : Vector Int :=
  match VectorErase (VectorPushBack (fun x => x) freshVector (some 7) []).2.1 0 [] with
  | some r => r.2.1
  | none => freshVector

/-- Thirteen pushes on a fresh vector of `int`: 13 elements, capacity 32. -/
def thirteenPushed : Vector Int :=
  (pushAll (fun x => x) freshVector [0, 1, 2, 3, 4, 5, 6, 7, 8, 9, 10, 11, 12]).2

/-! ## Placement, the reads of `HashMapClear`, and further reachable states -/

/-- Every pair of the bucket array `bs` sits in the bucket whose index is
`hash(key) & (n-1)`, for a table of `n` buckets. -/
def Placed {K V : Type} (c : Caps K V) (n : Nat) (bs : List (Vector (Pair K V))) : Prop :=
  ∀ i b, bs[i]? = some b → ∀ p ∈ b.data, HASH c.hash_func p.key n = i

/-- The vectors reachable from `VectorAlloc` by calls of `VectorPushBack`
that return a non-zero code and calls of `VectorErase` with an index below
`size`, whatever those return and whatever the allocator does. -/
inductive VectorReachableIn {α : Type} (cpy : α → α) : Vector α → Prop
  | alloc (cmp : α → α → Int) (free : α → Unit) (al0 : Alloc) (v : Vector α) (al : Alloc) :
      VectorAlloc (some cpy) (some cmp) (some free) al0 = (some v, al) →
      VectorReachableIn cpy v
  | push (v : Vector α) (value : Option α) (al0 : Alloc) (r : Int) (v1 : Vector α)
      (al : Alloc) :
      VectorReachableIn cpy v → VectorPushBack cpy v value al0 = (r, v1, al) → r ≠ 0 →
      VectorReachableIn cpy v1
  | erase (v : Vector α) (ind : Nat) (al0 : Alloc) (r : Int) (v1 : Vector α)
      (al : Alloc) :
      VectorReachableIn cpy v → ind < v.size → VectorErase v ind al0 = some (r, v1, al) →
      VectorReachableIn cpy v1

/-- Three pushes on a fresh vector of `int`, then `VectorErase` of index 1
with the `realloc` of the shrink failing: the call returns 0 and leaves two
elements and capacity 8. -/
def failedShrinkVector : Vector Int :=
  match VectorErase (pushAll (fun x => x) freshVector [7, 8, 9]).2 1 [false] with
  | some r => r.2.1
  | none => freshVector

/-- A read made by the loops of `HashMapClear`: `bucket i capacity` is a read
of `hash_map->buckets[i]` made when the map has that capacity, and
`slot i j size` is a read of `hash_map->buckets[i]->data[j]` made when that
bucket holds `size` pairs. -/
inductive ClearRead where
  | bucket (i capacity : Nat)
  | slot (i j size : Nat)
deriving DecidableEq

/-- The read is inside the bucket array, or inside the stored pairs of the
bucket. -/
def ClearRead.valid : ClearRead → Bool
  | ClearRead.bucket i capacity => decide (i < capacity)
  | ClearRead.slot _ j size => decide (j < size)

/-- The inner loop of `HashMapClear` (see `HashMapClear.inner`) together with
the reads it makes, in order: each round reads `hash_map->buckets[i]` and
then its `data[j]`. -/
def HashMapClear.innerReads {K V : Type} (c : Caps K V) (i : Nat) :
    Nat → HashMap K V → Alloc → List ClearRead × Option (Bool × HashMap K V × Alloc)
  | 0, hash_map, al => ([], some (true, hash_map, al))
  | j + 1, hash_map, al =>
    match hash_map.buckets[i]? with
    | none => ([ClearRead.bucket i hash_map.capacity], none)
    | some b =>
      match b.data[j]? with
      | none => ([ClearRead.bucket i hash_map.capacity, ClearRead.slot i j b.size], none)
      | some pair =>
        match HashMapErase c hash_map (some pair.key) al with
        | none => ([ClearRead.bucket i hash_map.capacity, ClearRead.slot i j b.size], none)
        | some r =>
          if r.1 = 0 then
            ([ClearRead.bucket i hash_map.capacity, ClearRead.slot i j b.size],
              some (false, r.2.1, r.2.2))
          else
            (ClearRead.bucket i hash_map.capacity :: ClearRead.slot i j b.size ::
                (HashMapClear.innerReads c i j r.2.1 r.2.2).1,
              (HashMapClear.innerReads c i j r.2.1 r.2.2).2)

/-- The outer loop of `HashMapClear` (see `HashMapClear.outer`) together with
the reads it makes: the start of the inner loop reads `hash_map->buckets[i]`
for its `size`. -/
def HashMapClear.outerReads {K V : Type} (c : Caps K V) :
    Nat → HashMap K V → Alloc → List ClearRead × Option (HashMap K V × Alloc)
  | 0, hash_map, al => ([], some (hash_map, al))
  | i + 1, hash_map, al =>
    match hash_map.buckets[i]? with
    | none => ([ClearRead.bucket i hash_map.capacity], none)
    | some b =>
      match (HashMapClear.innerReads c i b.size hash_map al).2 with
      | none =>
        (ClearRead.bucket i hash_map.capacity ::
          (HashMapClear.innerReads c i b.size hash_map al).1, none)
      | some r =>
        if r.1 = false then
          (ClearRead.bucket i hash_map.capacity ::
            (HashMapClear.innerReads c i b.size hash_map al).1, some (r.2.1, r.2.2))
        else
          (ClearRead.bucket i hash_map.capacity ::
              ((HashMapClear.innerReads c i b.size hash_map al).1 ++
                (HashMapClear.outerReads c i r.2.1 r.2.2).1),
            (HashMapClear.outerReads c i r.2.1 r.2.2).2)

/-- The function `HashMapClear` together with the reads its loops make. -/
def HashMapClear.reads {K V : Type} (c : Caps K V) (hash_map : HashMap K V) (al : Alloc) :
    List ClearRead × Option (HashMap K V × Alloc) :=
  if hash_map.size = 0 then ([], some (hash_map, al))
  else HashMapClear.outerReads c hash_map.capacity hash_map al

/-- One insert: capacity 16, the single pair `(15, 150)` in bucket 15. -/
def onlyFifteen : HashMap Int Int :=
  mapOf (insertAll charIntCaps freshMap [⟨15, 150⟩]) freshMap

/-- Four times the insert and the erase of key 1: each erase empties the map
and halves the table. -/
def capacityOneOps : List (Op Int Int) :=
  [Op.insert ⟨1, 10⟩, Op.erase 1, Op.insert ⟨1, 10⟩, Op.erase 1,
   Op.insert ⟨1, 10⟩, Op.erase 1, Op.insert ⟨1, 10⟩, Op.erase 1]

/-- The map after `capacityOneOps`: no pair, capacity 1. -/
def capacityOne : HashMap Int Int :=
  mapOf (runOps charIntCaps freshMap capacityOneOps) freshMap

/-! ## Lemmas: the operations when no allocation fails -/

theorem request_nil : Alloc.request [] = (true, []) := rfl

theorem sizeSubOne_pos {n : Nat} (h : 0 < n) : sizeSubOne n = n - 1 := by
  unfold sizeSubOne
  rw [if_neg (by omega)]

theorem HASH_lt {K : Type} (f : K → Nat) (k : K) {cap : Nat} (h : 0 < cap) :
    HASH f k cap < cap := by
  unfold HASH
  rw [sizeSubOne_pos h]
  have := @Nat.and_le_right (f k) (cap - 1)
  omega

theorem VectorPushBack_nil {α : Type} (cpy : α → α) (v : Vector α) (x : α) :
    VectorPushBack cpy v (some x) [] =
      (1, ⟨if exceedsMaxLoad v.capacity v.size then v.capacity * 2 else v.capacity,
            v.data ++ [cpy x]⟩, []) := by
  unfold VectorPushBack
  by_cases h : exceedsMaxLoad v.capacity v.size = true
  · simp [h, request_nil, VECTOR_GROWTH_FACTOR]
  · simp [h]

theorem VectorErase_nil {α : Type} (v : Vector α) (i : Nat) (h : i < v.size) :
    VectorErase v i [] =
      some (1, ⟨if VectorLoadBelowMin (⟨v.capacity, v.data.eraseIdx i⟩ : Vector α)
                  then v.capacity / 2 else v.capacity,
                v.data.eraseIdx i⟩, []) := by
  unfold VectorErase
  have h1 : ¬ i > sizeSubOne v.size := by
    rw [sizeSubOne_pos (by omega)]; omega
  rw [if_neg h1, if_pos h]
  by_cases h2 : VectorLoadBelowMin (⟨v.capacity, v.data.eraseIdx i⟩ : Vector α) = true
  · simp [h2, request_nil, VECTOR_GROWTH_FACTOR]
  · simp [h2]

theorem VectorAt_lt {α : Type} (v : Vector α) (i : Nat) (h : i < v.data.length) :
    VectorAt v i = some (some v.data[i]) := by
  unfold VectorAt
  have h1 : ¬ i > sizeSubOne v.size := by
    unfold Vector.size
    rw [sizeSubOne_pos (by omega)]; omega
  rw [if_neg h1]
  have : v.data[i]? = some v.data[i] := List.getElem?_eq_getElem h
  rw [this]

theorem VectorAlloc_nil {α : Type} (f : α → α) (g : α → α → Int) (u : α → Unit) :
    VectorAlloc (some f) (some g) (some u) [] = (some ⟨16, []⟩, []) := by
  simp [VectorAlloc, request_nil, VECTOR_INITIAL_CAP]

theorem InitBuckets_loop_nil {α : Type} (f : α → α) (g : α → α → Int) (u : α → Unit)
    (n : Nat) :
    InitBuckets.loop (some f) (some g) (some u) n [] =
      (some (List.replicate n ⟨16, []⟩), []) := by
  induction n with
  | zero => rfl
  | succ n ih => simp [InitBuckets.loop, VectorAlloc_nil, ih, List.replicate_succ]

theorem InitBuckets_nil {α : Type} (f : α → α) (g : α → α → Int) (u : α → Unit)
    (n : Nat) :
    InitBuckets n (some f) (some g) (some u) [] =
      (some (List.replicate n ⟨16, []⟩), []) := by
  simp [InitBuckets, request_nil, InitBuckets_loop_nil]

theorem HashMapAlloc_nil {K V : Type} (c : Caps K V) :
    HashMapAlloc (some c.hash_func) (some c.pair_cpy) (some c.pair_cmp)
        (some c.pair_free) [] =
      (some ⟨List.replicate 16 ⟨16, []⟩, 0, 16⟩, []) := by
  simp [HashMapAlloc, request_nil, InitBuckets_nil, HASH_MAP_INITIAL_CAP]

/-- The key test of the scans, as a boolean predicate on pairs. -/
theorem loop_eq {K V : Type} (c : Caps K V) (k : K) (l : List (Pair K V)) (i : Nat) :
    GetPairIndexByKey.loop c k l i =
      if l.findIdx (keyTest c k) < l.length
      then ((i + l.findIdx (keyTest c k) : Nat) : Int)
      else -1 := by
  induction l generalizing i with
  | nil => simp [GetPairIndexByKey.loop]
  | cons p ps ih =>
    unfold GetPairIndexByKey.loop
    by_cases h : c.key_cmp p.key k = 1
    · simp [h, List.findIdx_cons, keyTest]
    · rw [if_neg h, ih, List.findIdx_cons]
      simp only [keyTest, h, decide_False, cond_false, List.length_cons, Nat.add_lt_add_iff_right]
      split
      · congr 1; omega
      · rfl

theorem GetPairIndexByKey_eq {K V : Type} (c : Caps K V) (b : Vector (Pair K V)) (k : K) :
    GetPairIndexByKey c b (some k) =
      if b.data.findIdx (keyTest c k) < b.data.length
      then ((b.data.findIdx (keyTest c k) : Nat) : Int)
      else -1 := by
  simp [GetPairIndexByKey, loop_eq]

theorem set_sum {α : Type} (f : α → Nat) (l : List α) (j : Nat) (x : α)
    (h : j < l.length) :
    ((l.set j x).map f).sum + f l[j] = (l.map f).sum + f x := by
  induction l generalizing j with
  | nil => simp at h
  | cons a as ih =>
    cases j with
    | zero => simp; omega
    | succ j =>
      simp only [List.length_cons, Nat.add_lt_add_iff_right] at h
      have := ih j h
      simp only [List.set_cons_succ, List.map_cons, List.sum_cons, List.getElem_cons_succ]
      omega

/-! ## Lemmas: the key scan of a bucket -/

theorem find_eq_getElem_findIdx {α : Type} (p : α → Bool) (l : List α) :
    l.find? p = l[l.findIdx p]? := by
  induction l with
  | nil => simp
  | cons a as ih =>
    by_cases h : p a = true
    · simp [List.find?_cons, List.findIdx_cons, h]
    · simp [List.find?_cons, List.findIdx_cons, h, ih]

theorem findIdx_lt_iff {α : Type} (p : α → Bool) (l : List α) :
    l.findIdx p < l.length ↔ (l.find? p).isSome = true := by
  rw [find_eq_getElem_findIdx]
  constructor
  · intro h
    rw [List.getElem?_eq_getElem h]; rfl
  · intro h
    by_contra hn
    rw [List.getElem?_eq_none (by omega)] at h
    simp at h

theorem WF.pos {K V : Type} {c : Caps K V} {m : HashMap K V} (h : WF c m) :
    0 < m.capacity := by
  obtain ⟨e, he⟩ := h.pow
  rw [he]; exact Nat.pos_pow_of_pos e (by decide)

theorem WF.bucket {K V : Type} {c : Caps K V} {m : HashMap K V} (h : WF c m) (k : K) :
    ∃ b, m.buckets[HASH c.hash_func k m.capacity]? = some b := by
  have hlt : HASH c.hash_func k m.capacity < m.buckets.length := by
    rw [h.len]; exact HASH_lt _ _ h.pos
  exact ⟨_, List.getElem?_eq_getElem hlt⟩

theorem GetPairIndexByKey_of_find_none {K V : Type} (c : Caps K V)
    (b : Vector (Pair K V)) (k : K) (h : findKey c k b.data = none) :
    GetPairIndexByKey c b (some k) = -1 := by
  rw [GetPairIndexByKey_eq]
  have : ¬ b.data.findIdx (keyTest c k) < b.data.length := by
    rw [findIdx_lt_iff]
    unfold findKey at h
    simp [h]
  rw [if_neg this]

theorem GetPairIndexByKey_of_find_some {K V : Type} (c : Caps K V)
    (b : Vector (Pair K V)) (k : K) (p : Pair K V) (h : findKey c k b.data = some p) :
    GetPairIndexByKey c b (some k) = ((b.data.findIdx (keyTest c k) : Nat) : Int)
      ∧ b.data.findIdx (keyTest c k) < b.data.length
      ∧ b.data[b.data.findIdx (keyTest c k)]? = some p := by
  have hlt : b.data.findIdx (keyTest c k) < b.data.length := by
    rw [findIdx_lt_iff]
    unfold findKey at h
    simp [h]
  refine ⟨?_, hlt, ?_⟩
  · rw [GetPairIndexByKey_eq, if_pos hlt]
  · rw [← find_eq_getElem_findIdx]; exact h

theorem HashMapAt_eq_lookup {K V : Type} {c : Caps K V} {m : HashMap K V} (h : WF c m)
    (k : K) : HashMapAt c m (some k) = some (lookup c m k) := by
  obtain ⟨b, hb⟩ := h.bucket k
  unfold HashMapAt lookup
  simp only [hb]
  cases hf : findKey c k b.data with
  | none =>
    rw [GetPairIndexByKey_of_find_none c b k hf]
    simp
  | some p =>
    obtain ⟨h1, h2, h3⟩ := GetPairIndexByKey_of_find_some c b k p hf
    rw [h1]
    have : ¬ ((b.data.findIdx (keyTest c k) : Nat) : Int) < 0 := by omega
    rw [if_neg this, Int.toNat_ofNat, VectorAt_lt b _ h2]
    have h4 : b.data[b.data.findIdx (keyTest c k)] = p := by
      rw [List.getElem?_eq_getElem h2] at h3
      exact Option.some.inj h3
    simp [h4]

theorem HashMapContainsKey_eq_lookup {K V : Type} {c : Caps K V} {m : HashMap K V}
    (h : WF c m) (k : K) :
    HashMapContainsKey c m (some k) = some (if (lookup c m k).isSome then 1 else 0) := by
  obtain ⟨b, hb⟩ := h.bucket k
  unfold HashMapContainsKey lookup
  simp only [hb]
  cases hf : findKey c k b.data with
  | none =>
    rw [GetPairIndexByKey_of_find_none c b k hf]
    simp
  | some p =>
    obtain ⟨h1, _, _⟩ := GetPairIndexByKey_of_find_some c b k p hf
    rw [h1]
    have : ((b.data.findIdx (keyTest c k) : Nat) : Int) ≠ -1 := by omega
    simp [this]

theorem find_flatten_single {α : Type} (p : α → Bool) (ls : List (List α)) (j : Nat)
    (h : ∀ i l, ls[i]? = some l → i ≠ j → ∀ x ∈ l, p x = false) :
    ls.flatten.find? p = (match ls[j]? with | none => none | some l => l.find? p) := by
  induction ls generalizing j with
  | nil => simp
  | cons l0 rest ih =>
    rw [List.flatten_cons, List.find?_append]
    cases j with
    | zero =>
      have hrest : rest.flatten.find? p = none := by
        rw [List.find?_eq_none]
        intro x hx
        obtain ⟨l, hl, hxl⟩ := List.mem_flatten.mp hx
        obtain ⟨n, hn⟩ := List.mem_iff_getElem?.mp hl
        have := h (n + 1) l (by simpa using hn) (by omega) x hxl
        simp [this]
      simp [hrest]
    | succ j =>
      have h0 : l0.find? p = none := by
        rw [List.find?_eq_none]
        intro x hx
        have := h 0 l0 (by simp) (by omega) x hx
        simp [this]
      rw [h0, Option.none_or, ih j]
      · simp
      · intro i l hi hij x hx
        exact h (i + 1) l (by simpa using hi) (by omega) x hx

theorem keyTest_hash {K V : Type} {c : Caps K V} (hc : c.Lawful) {k : K} {p : Pair K V}
    (n : Nat) (h : keyTest c k p = true) :
    HASH c.hash_func p.key n = HASH c.hash_func k n := by
  unfold keyTest at h
  unfold HASH
  rw [hc.cmp_hash _ _ (of_decide_eq_true h)]

theorem lookup_eq_entries {K V : Type} {c : Caps K V} (hc : c.Lawful) {m : HashMap K V}
    (h : WF c m) (k : K) :
    lookup c m k = (findKey c k (entries m)).map Pair.value := by
  obtain ⟨b, hb⟩ := h.bucket k
  unfold lookup entries findKey
  rw [find_flatten_single (keyTest c k) (m.buckets.map Vector.data)
        (HASH c.hash_func k m.capacity)]
  · simp only [List.getElem?_map, hb, Option.map_some']
  · intro i l hi hij x hx
    rw [List.getElem?_map] at hi
    cases hbi : m.buckets[i]? with
    | none => rw [hbi] at hi; simp at hi
    | some bi =>
      rw [hbi] at hi
      simp only [Option.map_some', Option.some.injEq] at hi
      subst hi
      have hp := h.place i bi hbi x hx
      by_contra hne
      have ht : keyTest c k x = true := by simpa using hne
      have := keyTest_hash hc m.capacity ht
      omega

theorem storedKey_iff_entries {K V : Type} (c : Caps K V) (m : HashMap K V) (k : K) :
    StoredKey c m k ↔ ∃ p ∈ entries m, c.key_cmp p.key k = 1 := by
  unfold StoredKey entries
  constructor
  · rintro ⟨b, hb, p, hp, hk⟩
    exact ⟨p, List.mem_flatten.mpr ⟨b.data, List.mem_map.mpr ⟨b, hb, rfl⟩, hp⟩, hk⟩
  · rintro ⟨p, hp, hk⟩
    obtain ⟨l, hl, hpl⟩ := List.mem_flatten.mp hp
    obtain ⟨b, hb, rfl⟩ := List.mem_map.mp hl
    exact ⟨b, hb, p, hpl, hk⟩

theorem lookup_isSome_iff {K V : Type} {c : Caps K V} (hc : c.Lawful) {m : HashMap K V}
    (h : WF c m) (k : K) : (lookup c m k).isSome = true ↔ StoredKey c m k := by
  rw [lookup_eq_entries hc h, storedKey_iff_entries]
  unfold findKey
  constructor
  · intro hs
    cases hf : (entries m).find? (keyTest c k) with
    | none => rw [hf] at hs; simp at hs
    | some p =>
      have hp : keyTest c k p = true := List.find?_some hf
      exact ⟨p, List.mem_of_find?_eq_some hf, of_decide_eq_true hp⟩
  · rintro ⟨p, hp, hk⟩
    cases hf : (entries m).find? (keyTest c k) with
    | none =>
      rw [List.find?_eq_none] at hf
      exact absurd (by simp [keyTest, hk]) (hf p hp)
    | some q => simp

theorem lookup_eq_none_iff {K V : Type} {c : Caps K V} (hc : c.Lawful) {m : HashMap K V}
    (h : WF c m) (k : K) : lookup c m k = none ↔ ¬ StoredKey c m k := by
  rw [← lookup_isSome_iff hc h]
  cases lookup c m k <;> simp

/-! ## Lemmas: rehashing -/

theorem ReHashing_inner_nil {K V : Type} {c : Caps K V} (hc : c.Lawful) (n : Nat)
    (hn : 0 < n) (ps : List (Pair K V)) (temp : List (Vector (Pair K V)))
    (hlen : temp.length = n) :
    ∃ temp1, ReHashing.inner c n ps temp [] = some (some temp1, [])
      ∧ temp1.length = n
      ∧ (temp1.map Vector.size).sum = (temp.map Vector.size).sum + ps.length
      ∧ ∀ i, (temp1[i]?).map Vector.data =
          ((temp[i]?).map Vector.data).map (fun d => d ++
            ps.filter (fun p => decide (HASH c.hash_func p.key n = i))) := by
  induction ps generalizing temp with
  | nil =>
    refine ⟨temp, rfl, hlen, by simp, ?_⟩
    intro i
    cases temp[i]? <;> simp
  | cons p rest ih =>
    have hlt : HASH c.hash_func p.key n < temp.length := by
      rw [hlen]; exact HASH_lt _ _ hn
    have hget : temp[HASH c.hash_func p.key n]? = some temp[HASH c.hash_func p.key n] :=
      List.getElem?_eq_getElem hlt
    obtain ⟨temp1, h1, h2, h3, h4⟩ :=
      ih (temp.set (HASH c.hash_func p.key n)
            ⟨if exceedsMaxLoad temp[HASH c.hash_func p.key n].capacity
                  temp[HASH c.hash_func p.key n].size
              then temp[HASH c.hash_func p.key n].capacity * 2
              else temp[HASH c.hash_func p.key n].capacity,
             temp[HASH c.hash_func p.key n].data ++ [c.pair_cpy p]⟩)
         (by simp [hlen])
    refine ⟨temp1, ?_, h2, ?_, ?_⟩
    · unfold ReHashing.inner
      simp only [hget, VectorPushBack_nil]
      simpa using h1
    · rw [h3]
      have key := set_sum Vector.size temp (HASH c.hash_func p.key n)
        ⟨if exceedsMaxLoad temp[HASH c.hash_func p.key n].capacity
                  temp[HASH c.hash_func p.key n].size
              then temp[HASH c.hash_func p.key n].capacity * 2
              else temp[HASH c.hash_func p.key n].capacity,
             temp[HASH c.hash_func p.key n].data ++ [c.pair_cpy p]⟩ hlt
      have e1 : ∀ (a : Nat) (d : List (Pair K V)) (x : Pair K V),
          Vector.size (⟨a, d ++ [x]⟩ : Vector (Pair K V)) = d.length + 1 := by
        intro a d x; simp [Vector.size]
      rw [e1] at key
      have e2 : temp[HASH c.hash_func p.key n].size
          = temp[HASH c.hash_func p.key n].data.length := rfl
      rw [List.length_cons]
      omega
    · intro i
      rw [h4 i]
      by_cases hi : HASH c.hash_func p.key n = i
      · subst hi
        rw [List.getElem?_set_self hlt, hget]
        simp [hc.cpy_eq]
      · rw [List.getElem?_set_ne hi]
        cases temp[i]? with
        | none => rfl
        | some b => simp [hi]

theorem ReHashing_outer_nil {K V : Type} {c : Caps K V} (hc : c.Lawful)
    (m : HashMap K V) (n : Nat) (hn : 0 < n) (cnt : Nat) :
    ∀ (i : Nat) (temp : List (Vector (Pair K V))), i + cnt ≤ m.buckets.length →
      temp.length = n →
      ∃ temp1, ReHashing.outer c m n cnt i temp [] = some (some temp1, [])
        ∧ temp1.length = n
        ∧ (temp1.map Vector.size).sum = (temp.map Vector.size).sum
            + ((((m.buckets.drop i).take cnt).map Vector.data).flatten).length
        ∧ ∀ j, (temp1[j]?).map Vector.data =
            ((temp[j]?).map Vector.data).map (fun d => d ++
              ((((m.buckets.drop i).take cnt).map Vector.data).flatten).filter
                (fun p => decide (HASH c.hash_func p.key n = j))) := by
  induction cnt with
  | zero =>
    intro i temp _ hlen
    refine ⟨temp, rfl, hlen, by simp, ?_⟩
    intro j
    cases temp[j]? <;> simp
  | succ cnt ih =>
    intro i temp hi hlen
    have hlt : i < m.buckets.length := by omega
    have hget : m.buckets[i]? = some m.buckets[i] := List.getElem?_eq_getElem hlt
    obtain ⟨t1, a1, a2, a3, a4⟩ := ReHashing_inner_nil hc n hn m.buckets[i].data temp hlen
    obtain ⟨t2, b1, b2, b3, b4⟩ := ih (i + 1) t1 (by omega) a2
    have hdrop : (m.buckets.drop i).take (cnt + 1)
        = m.buckets[i] :: (m.buckets.drop (i + 1)).take cnt := by
      rw [List.drop_eq_getElem_cons hlt, List.take_succ_cons]
    refine ⟨t2, ?_, b2, ?_, ?_⟩
    · unfold ReHashing.outer
      simp only [hget, a1]
      exact b1
    · rw [b3, a3, hdrop]
      simp only [List.map_cons, List.flatten_cons, List.length_append]
      omega
    · intro j
      rw [b4 j, a4 j, hdrop]
      cases temp[j]? with
      | none => rfl
      | some b => simp

theorem length_entries {K V : Type} (m : HashMap K V) :
    (entries m).length = (m.buckets.map Vector.size).sum := by
  unfold entries
  rw [List.length_flatten, List.map_map]
  rfl

theorem ReHashing_nil {K V : Type} {c : Caps K V} (hc : c.Lawful) (m : HashMap K V)
    (hlen : m.buckets.length = m.capacity) (n : Nat) (hn : 0 < n) :
    ∃ temp, ReHashing c m n [] = some (some temp, [])
      ∧ temp.length = n
      ∧ (temp.map Vector.size).sum = (m.buckets.map Vector.size).sum
      ∧ ∀ j, j < n → ∃ b, temp[j]? = some b ∧
          b.data = (entries m).filter (fun p => decide (HASH c.hash_func p.key n = j)) := by
  obtain ⟨temp, h1, h2, h3, h4⟩ :=
    ReHashing_outer_nil hc m n hn m.capacity 0 (List.replicate n ⟨16, []⟩)
      (by omega) (by simp)
  have hall : (m.buckets.drop 0).take m.capacity = m.buckets := by
    rw [List.drop_zero, ← hlen, List.take_length]
  rw [hall] at h3 h4
  refine ⟨temp, ?_, h2, ?_, ?_⟩
  · unfold ReHashing
    simp only [InitBuckets_nil]
    exact h1
  · rw [h3, ← length_entries]
    have : ((List.replicate n (⟨16, []⟩ : Vector (Pair K V))).map Vector.size).sum = 0 := by
      simp [Vector.size]
    rw [this]
    unfold entries
    omega
  · intro j hj
    have hjl : j < temp.length := by omega
    refine ⟨temp[j], List.getElem?_eq_getElem hjl, ?_⟩
    have := h4 j
    rw [List.getElem?_eq_getElem hjl, List.getElem?_replicate_of_lt hj] at this
    simpa [entries] using this

/-! ## Lemmas: the key scan after a change of one bucket -/

theorem keyTest_congr {K V : Type} {c : Caps K V} (hc : c.Lawful) {k k1 : K}
    (h : c.key_cmp k k1 = 1) (p : Pair K V) : keyTest c k p = keyTest c k1 p := by
  unfold keyTest
  by_cases h1 : c.key_cmp p.key k = 1
  · have := hc.cmp_trans _ _ _ h1 h
    simp [h1, this]
  · have h2 : ¬ c.key_cmp p.key k1 = 1 := fun h2 =>
      h1 (hc.cmp_trans _ _ _ h2 (hc.cmp_symm _ _ h))
    simp [h1, h2]

theorem keyTest_self {K V : Type} {c : Caps K V} (hc : c.Lawful) (p : Pair K V) :
    keyTest c p.key p = true := by
  simp [keyTest, hc.cmp_refl]

theorem findIdx_append_cons {α : Type} (p : α → Bool) (as bs : List α) (b : α)
    (has : ∀ a ∈ as, p a = false) (hb : p b = true) :
    (as ++ b :: bs).findIdx p = as.length := by
  induction as with
  | nil => simp [List.findIdx_cons, hb]
  | cons a as ih =>
    have ha : p a = false := has a (by simp)
    rw [List.cons_append, List.findIdx_cons, ha, cond_false,
      ih (fun x hx => has x (by simp [hx]))]
    simp

theorem find_split {α : Type} (p : α → Bool) (l : List α) (q : α)
    (h : l.find? p = some q) :
    p q = true ∧ ∃ as bs, l = as ++ q :: bs ∧ (∀ a ∈ as, p a = false)
      ∧ l.findIdx p = as.length := by
  obtain ⟨hq, as, bs, hl, has⟩ := List.find?_eq_some.mp h
  have has1 : ∀ a ∈ as, p a = false := by
    intro a ha
    have := has a ha
    simpa using this
  refine ⟨hq, as, bs, hl, has1, ?_⟩
  rw [hl]
  exact findIdx_append_cons p as bs q has1 hq

theorem find_push {K V : Type} {c : Caps K V} (hc : c.Lawful) (d : List (Pair K V))
    (p : Pair K V) (hnone : findKey c p.key d = none) (k : K) :
    findKey c k (d ++ [p]) = if c.key_cmp p.key k = 1 then some p else findKey c k d := by
  unfold findKey at *
  rw [List.find?_append]
  by_cases h : c.key_cmp p.key k = 1
  · rw [if_pos h]
    have hd : d.find? (keyTest c k) = none := by
      rw [← hnone]
      congr 1
      funext x
      exact (keyTest_congr hc h x).symm
    rw [hd]
    simp [List.find?_cons, keyTest, h]
  · rw [if_neg h]
    simp [List.find?_cons, keyTest, h]

theorem find_replace {K V : Type} {c : Caps K V} (hc : c.Lawful)
    (as bs : List (Pair K V)) (p q : Pair K V)
    (has : ∀ a ∈ as, keyTest c p.key a = false) (hq : keyTest c p.key q = true) (k : K) :
    findKey c k (as ++ p :: bs) =
      if c.key_cmp p.key k = 1 then some p else findKey c k (as ++ q :: bs) := by
  unfold findKey
  rw [List.find?_append, List.find?_append, List.find?_cons, List.find?_cons]
  by_cases h : c.key_cmp p.key k = 1
  · rw [if_pos h]
    have hA : as.find? (keyTest c k) = none := by
      rw [List.find?_eq_none]
      intro a ha
      rw [← keyTest_congr hc h a, has a ha]
      simp
    have hp : keyTest c k p = true := by simp [keyTest, h]
    rw [hA, hp]
    rfl
  · rw [if_neg h]
    have hp : keyTest c k p = false := by simp [keyTest, h]
    have hq1 : keyTest c k q = false := by
      unfold keyTest at hq ⊢
      have hq2 := of_decide_eq_true hq
      have : ¬ c.key_cmp q.key k = 1 := fun h3 =>
        h (hc.cmp_trans _ _ _ (hc.cmp_symm _ _ hq2) h3)
      simp [this]
    rw [hp, hq1]

theorem find_erase {K V : Type} {c : Caps K V} (hc : c.Lawful)
    (as bs : List (Pair K V)) (q : Pair K V) (k : K)
    (hpw : (as ++ q :: bs).Pairwise (fun x y => c.key_cmp x.key y.key ≠ 1))
    (has : ∀ a ∈ as, keyTest c k a = false) (hq : keyTest c k q = true) (k1 : K) :
    findKey c k1 (as ++ bs) =
      if c.key_cmp k k1 = 1 then none else findKey c k1 (as ++ q :: bs) := by
  unfold findKey
  have hqk : c.key_cmp q.key k = 1 := of_decide_eq_true hq
  by_cases h : c.key_cmp k k1 = 1
  · rw [if_pos h, List.find?_eq_none]
    intro x hx
    rcases List.mem_append.mp hx with hxa | hxb
    · rw [← keyTest_congr hc h x, has x hxa]
      simp
    · have hqx : c.key_cmp q.key x.key ≠ 1 := by
        have h1 := (List.pairwise_append.mp hpw).2.1
        exact (List.pairwise_cons.mp h1).1 x hxb
      intro hx1
      have hx2 : c.key_cmp x.key k1 = 1 := of_decide_eq_true hx1
      have hk1x : c.key_cmp k1 x.key = 1 := hc.cmp_symm _ _ hx2
      exact hqx (hc.cmp_trans _ _ _ hqk (hc.cmp_trans _ _ _ h hk1x))
  · rw [if_neg h, List.find?_append, List.find?_append, List.find?_cons]
    have hq1 : keyTest c k1 q = false := by
      unfold keyTest
      have : ¬ c.key_cmp q.key k1 = 1 := fun h3 =>
        h (hc.cmp_trans _ _ _ (hc.cmp_symm _ _ hqk) h3)
      simp [this]
    rw [hq1]

theorem pairwise_push {K V : Type} {c : Caps K V} (d : List (Pair K V)) (p : Pair K V)
    (hpw : d.Pairwise (fun x y => c.key_cmp x.key y.key ≠ 1))
    (hnone : findKey c p.key d = none) :
    (d ++ [p]).Pairwise (fun x y => c.key_cmp x.key y.key ≠ 1) := by
  rw [List.pairwise_append]
  refine ⟨hpw, by simp, ?_⟩
  intro x hx y hy
  rw [List.mem_singleton] at hy
  subst hy
  unfold findKey at hnone
  have := (List.find?_eq_none.mp hnone) x hx
  simpa [keyTest] using this

theorem pairwise_replace {K V : Type} {c : Caps K V} (hc : c.Lawful)
    (as bs : List (Pair K V)) (p q : Pair K V)
    (hpw : (as ++ q :: bs).Pairwise (fun x y => c.key_cmp x.key y.key ≠ 1))
    (hq : keyTest c p.key q = true) :
    (as ++ p :: bs).Pairwise (fun x y => c.key_cmp x.key y.key ≠ 1) := by
  have hqp : c.key_cmp q.key p.key = 1 := of_decide_eq_true hq
  obtain ⟨h1, h2, h3⟩ := List.pairwise_append.mp hpw
  obtain ⟨h4, h5⟩ := List.pairwise_cons.mp h2
  rw [List.pairwise_append]
  refine ⟨h1, List.pairwise_cons.mpr ⟨?_, h5⟩, ?_⟩
  · intro x hx hpx
    exact h4 x hx (hc.cmp_trans _ _ _ hqp hpx)
  · intro a ha x hx
    rcases List.mem_cons.mp hx with rfl | hxb
    · intro hax
      exact h3 a ha q (by simp) (hc.cmp_trans _ _ _ hax (hc.cmp_symm _ _ hqp))
    · exact h3 a ha x (by simp [hxb])

theorem pairwise_erase {K V : Type} {c : Caps K V}
    (as bs : List (Pair K V)) (q : Pair K V)
    (hpw : (as ++ q :: bs).Pairwise (fun x y => c.key_cmp x.key y.key ≠ 1)) :
    (as ++ bs).Pairwise (fun x y => c.key_cmp x.key y.key ≠ 1) := by
  refine List.Pairwise.sublist ?_ hpw
  exact List.Sublist.append_left (List.sublist_cons_self q bs) as

/-! ## Lemmas: the invariant under a change of one bucket and under rehashing -/

theorem WF_set {K V : Type} {c : Caps K V} {m : HashMap K V} (h : WF c m)
    (idx : Nat) (b0 b1 : Vector (Pair K V)) (s1 : Nat)
    (hb0 : m.buckets[idx]? = some b0)
    (hplace : ∀ p ∈ b1.data, HASH c.hash_func p.key m.capacity = idx)
    (hnodup : b1.data.Pairwise (fun x y => c.key_cmp x.key y.key ≠ 1))
    (hsize : s1 + b0.size = m.size + b1.size) :
    WF c ⟨m.buckets.set idx b1, s1, m.capacity⟩ := by
  obtain ⟨hidx, hb0e⟩ := List.getElem?_eq_some.mp hb0
  refine ⟨by simp [h.len], h.pow, ?_, ?_, ?_⟩
  · intro i b hi p hp
    simp only at hi ⊢
    by_cases hii : idx = i
    · subst hii
      rw [List.getElem?_set_self hidx] at hi
      have : b1 = b := Option.some.inj hi
      subst this
      exact hplace p hp
    · rw [List.getElem?_set_ne hii] at hi
      exact h.place i b hi p hp
  · intro b hb
    simp only at hb
    rcases List.mem_or_eq_of_mem_set hb with hb1 | hb1
    · exact h.nodup b hb1
    · subst hb1; exact hnodup
  · simp only
    have := set_sum Vector.size m.buckets idx b1 hidx
    rw [hb0e] at this
    have := h.size_eq
    omega

theorem lookup_set {K V : Type} (c : Caps K V) (m : HashMap K V)
    (idx : Nat) (b1 : Vector (Pair K V)) (s1 : Nat) (hidx : idx < m.buckets.length)
    (k : K) :
    lookup c ⟨m.buckets.set idx b1, s1, m.capacity⟩ k =
      if HASH c.hash_func k m.capacity = idx then (findKey c k b1.data).map Pair.value
      else lookup c m k := by
  unfold lookup
  simp only
  by_cases hk : HASH c.hash_func k m.capacity = idx
  · rw [if_pos hk, hk, List.getElem?_set_self hidx]
  · rw [if_neg hk, List.getElem?_set_ne (Ne.symm hk)]

theorem entries_pairwise {K V : Type} {c : Caps K V} (hc : c.Lawful) {m : HashMap K V}
    (h : WF c m) : (entries m).Pairwise (fun x y => c.key_cmp x.key y.key ≠ 1) := by
  unfold entries
  rw [List.pairwise_flatten]
  constructor
  · intro l hl
    obtain ⟨b, hb, rfl⟩ := List.mem_map.mp hl
    exact h.nodup b hb
  · rw [List.pairwise_iff_getElem]
    intro i j hi hj hij x hx y hy hxy
    simp only [List.getElem_map] at hx hy
    simp only [List.length_map] at hi hj
    have h1 := h.place i m.buckets[i] (List.getElem?_eq_getElem hi) x hx
    have h2 := h.place j m.buckets[j] (List.getElem?_eq_getElem hj) y hy
    have h3 : HASH c.hash_func x.key m.capacity = HASH c.hash_func y.key m.capacity := by
      unfold HASH
      rw [hc.cmp_hash _ _ hxy]
    omega

theorem find_filter_hash {K V : Type} {c : Caps K V} (hc : c.Lawful) (n : Nat) (k : K)
    (l : List (Pair K V)) :
    findKey c k (l.filter (fun p => decide (HASH c.hash_func p.key n = HASH c.hash_func k n)))
      = findKey c k l := by
  unfold findKey
  induction l with
  | nil => rfl
  | cons a as ih =>
    by_cases ha : keyTest c k a = true
    · have := keyTest_hash hc n ha
      simp [List.filter_cons, this, List.find?_cons, ha]
    · have ha1 : keyTest c k a = false := by simpa using ha
      by_cases hh : HASH c.hash_func a.key n = HASH c.hash_func k n
      · simp [List.filter_cons, hh, List.find?_cons, ha1, ih]
      · simp [List.filter_cons, hh, List.find?_cons, ha1, ih]

theorem rehash_WF {K V : Type} {c : Caps K V} (hc : c.Lawful) {m : HashMap K V}
    (h : WF c m) (n e : Nat) (hn : n = 2 ^ e) (temp : List (Vector (Pair K V)))
    (hlen : temp.length = n)
    (hsum : (temp.map Vector.size).sum = (m.buckets.map Vector.size).sum)
    (hdata : ∀ j, j < n → ∃ b, temp[j]? = some b ∧
        b.data = (entries m).filter (fun p => decide (HASH c.hash_func p.key n = j))) :
    WF c ⟨temp, m.size, n⟩ ∧ ∀ k, lookup c ⟨temp, m.size, n⟩ k = lookup c m k := by
  have hpos : 0 < n := by rw [hn]; exact Nat.pos_pow_of_pos e (by decide)
  have hwf : WF c ⟨temp, m.size, n⟩ := by
    refine ⟨hlen, ⟨e, hn⟩, ?_, ?_, ?_⟩
    · intro i b hi p hp
      simp only at hi ⊢
      have hil : i < n := by
        rw [← hlen]
        exact (List.getElem?_eq_some.mp hi).1
      obtain ⟨b1, hb1, hd⟩ := hdata i hil
      rw [hb1] at hi
      have : b1 = b := Option.some.inj hi
      subst this
      rw [hd] at hp
      have := (List.mem_filter.mp hp).2
      simpa using this
    · intro b hb
      simp only at hb
      obtain ⟨i, hi⟩ := List.mem_iff_getElem?.mp hb
      have hil : i < n := by
        rw [← hlen]
        exact (List.getElem?_eq_some.mp hi).1
      obtain ⟨b1, hb1, hd⟩ := hdata i hil
      rw [hb1] at hi
      have : b1 = b := Option.some.inj hi
      subst this
      rw [hd]
      exact List.Pairwise.filter _ (entries_pairwise hc h)
    · simp only
      rw [hsum]
      exact h.size_eq
  refine ⟨hwf, ?_⟩
  intro k
  rw [lookup_eq_entries hc h]
  obtain ⟨b1, hb1, hd⟩ := hdata (HASH c.hash_func k n) (HASH_lt _ _ hpos)
  unfold lookup
  simp only [hb1, hd]
  rw [find_filter_hash hc]

/-! ## Lemmas: the three changes of a bucket -/

theorem set_append_cons {α : Type} (as bs : List α) (q p : α) :
    (as ++ q :: bs).set as.length p = as ++ p :: bs := by
  induction as with
  | nil => rfl
  | cons a as ih => simp [ih]

theorem eraseIdx_append_cons {α : Type} (as bs : List α) (q : α) :
    (as ++ q :: bs).eraseIdx as.length = as ++ bs := by
  induction as with
  | nil => rfl
  | cons a as ih => simp [ih]

theorem bucket_size_le {K V : Type} {c : Caps K V} {m : HashMap K V} (h : WF c m)
    (idx : Nat) (b : Vector (Pair K V)) (hb : m.buckets[idx]? = some b) :
    b.size ≤ m.size := by
  obtain ⟨hidx, hbe⟩ := List.getElem?_eq_some.mp hb
  have := set_sum Vector.size m.buckets idx ⟨0, []⟩ hidx
  rw [hbe] at this
  have h2 := h.size_eq
  have h3 : Vector.size (⟨0, []⟩ : Vector (Pair K V)) = 0 := rfl
  omega

theorem lookup_of_bucket {K V : Type} (c : Caps K V) (m : HashMap K V) (k : K)
    (b : Vector (Pair K V)) (hb : m.buckets[HASH c.hash_func k m.capacity]? = some b) :
    lookup c m k = (findKey c k b.data).map Pair.value := by
  unfold lookup
  rw [hb]

theorem push_spec {K V : Type} {c : Caps K V} (hc : c.Lawful) {m : HashMap K V}
    (h : WF c m) (p : Pair K V) (b : Vector (Pair K V))
    (hb : m.buckets[HASH c.hash_func p.key m.capacity]? = some b)
    (hf : findKey c p.key b.data = none) (capx : Nat) :
    WF c ⟨m.buckets.set (HASH c.hash_func p.key m.capacity) ⟨capx, b.data ++ [p]⟩,
          m.size + 1, m.capacity⟩
    ∧ ∀ k, lookup c ⟨m.buckets.set (HASH c.hash_func p.key m.capacity)
                      ⟨capx, b.data ++ [p]⟩, m.size + 1, m.capacity⟩ k
        = if c.key_cmp p.key k = 1 then some p.value else lookup c m k := by
  obtain ⟨hidx, hbe⟩ := List.getElem?_eq_some.mp hb
  constructor
  · apply WF_set h _ b _ _ hb
    · intro x hx
      simp only at hx
      rcases List.mem_append.mp hx with hx1 | hx1
      · exact h.place _ b hb x hx1
      · rw [List.mem_singleton] at hx1
        rw [hx1]
    · exact pairwise_push b.data p (h.nodup b (List.mem_iff_getElem?.mpr ⟨_, hb⟩)) hf
    · simp only [Vector.size, List.length_append, List.length_singleton]
      omega
  · intro k
    rw [lookup_set c m _ _ _ hidx]
    simp only
    rw [find_push hc b.data p hf k]
    by_cases hk : c.key_cmp p.key k = 1
    · have hh : HASH c.hash_func k m.capacity = HASH c.hash_func p.key m.capacity := by
        unfold HASH; rw [hc.cmp_hash _ _ hk]
      simp [hk, hh]
    · simp only [hk, if_false]
      split
      · next hh =>
        rw [← hh] at hb
        rw [lookup_of_bucket c m k b hb]
      · rfl

theorem replace_spec {K V : Type} {c : Caps K V} (hc : c.Lawful) {m : HashMap K V}
    (h : WF c m) (p q : Pair K V) (b : Vector (Pair K V)) (as bs : List (Pair K V))
    (hb : m.buckets[HASH c.hash_func p.key m.capacity]? = some b)
    (hd : b.data = as ++ q :: bs)
    (has : ∀ a ∈ as, keyTest c p.key a = false) (hq : keyTest c p.key q = true)
    (capx : Nat) :
    WF c ⟨m.buckets.set (HASH c.hash_func p.key m.capacity) ⟨capx, as ++ p :: bs⟩,
          m.size, m.capacity⟩
    ∧ ∀ k, lookup c ⟨m.buckets.set (HASH c.hash_func p.key m.capacity)
                      ⟨capx, as ++ p :: bs⟩, m.size, m.capacity⟩ k
        = if c.key_cmp p.key k = 1 then some p.value else lookup c m k := by
  obtain ⟨hidx, hbe⟩ := List.getElem?_eq_some.mp hb
  constructor
  · apply WF_set h _ b _ _ hb
    · intro x hx
      simp only at hx
      have : x ∈ b.data ∨ x = p := by
        rw [hd]
        rcases List.mem_append.mp hx with hx1 | hx1
        · exact Or.inl (List.mem_append_left _ hx1)
        · rcases List.mem_cons.mp hx1 with hx2 | hx2
          · exact Or.inr hx2
          · exact Or.inl (List.mem_append_right _ (List.mem_cons_of_mem _ hx2))
      rcases this with hx1 | hx1
      · exact h.place _ b hb x hx1
      · rw [hx1]
    · have := h.nodup b (List.mem_iff_getElem?.mpr ⟨_, hb⟩)
      rw [hd] at this
      exact pairwise_replace hc as bs p q this hq
    · simp only [Vector.size, hd, List.length_append, List.length_cons]
  · intro k
    rw [lookup_set c m _ _ _ hidx]
    simp only
    rw [find_replace hc as bs p q has hq k]
    by_cases hk : c.key_cmp p.key k = 1
    · have hh : HASH c.hash_func k m.capacity = HASH c.hash_func p.key m.capacity := by
        unfold HASH; rw [hc.cmp_hash _ _ hk]
      simp [hk, hh]
    · simp only [hk, if_false]
      split
      · next hh =>
        rw [← hh] at hb
        rw [lookup_of_bucket c m k b hb, hd]
      · rfl

theorem erase_spec {K V : Type} {c : Caps K V} (hc : c.Lawful) {m : HashMap K V}
    (h : WF c m) (k : K) (q : Pair K V) (b : Vector (Pair K V)) (as bs : List (Pair K V))
    (hb : m.buckets[HASH c.hash_func k m.capacity]? = some b)
    (hd : b.data = as ++ q :: bs)
    (has : ∀ a ∈ as, keyTest c k a = false) (hq : keyTest c k q = true)
    (capx : Nat) :
    1 ≤ m.size
    ∧ WF c ⟨m.buckets.set (HASH c.hash_func k m.capacity) ⟨capx, as ++ bs⟩,
          m.size - 1, m.capacity⟩
    ∧ ∀ k1, lookup c ⟨m.buckets.set (HASH c.hash_func k m.capacity)
                      ⟨capx, as ++ bs⟩, m.size - 1, m.capacity⟩ k1
        = if c.key_cmp k k1 = 1 then none else lookup c m k1 := by
  obtain ⟨hidx, hbe⟩ := List.getElem?_eq_some.mp hb
  have hsz : b.size = as.length + bs.length + 1 := by
    simp only [Vector.size, hd, List.length_append, List.length_cons]
    omega
  have hle := bucket_size_le h _ b hb
  have hpw := h.nodup b (List.mem_iff_getElem?.mpr ⟨_, hb⟩)
  rw [hd] at hpw
  refine ⟨by omega, ?_, ?_⟩
  · apply WF_set h _ b _ _ hb
    · intro x hx
      simp only at hx
      have : x ∈ b.data := by
        rw [hd]
        rcases List.mem_append.mp hx with hx1 | hx1
        · exact List.mem_append_left _ hx1
        · exact List.mem_append_right _ (List.mem_cons_of_mem _ hx1)
      exact h.place _ b hb x this
    · exact pairwise_erase as bs q hpw
    · have e1 : Vector.size (⟨capx, as ++ bs⟩ : Vector (Pair K V))
          = as.length + bs.length := by simp [Vector.size]
      rw [e1]
      omega
  · intro k1
    rw [lookup_set c m _ _ _ hidx]
    simp only
    rw [find_erase hc as bs q k hpw has hq k1]
    by_cases hk : c.key_cmp k k1 = 1
    · have hh : HASH c.hash_func k1 m.capacity = HASH c.hash_func k m.capacity := by
        unfold HASH; rw [hc.cmp_hash _ _ hk]
      simp [hk, hh]
    · simp only [hk, if_false]
      split
      · next hh =>
        rw [← hh] at hb
        rw [lookup_of_bucket c m k1 b hb, hd]
      · rfl

/-! ## Lemmas: `HashMapInsert` and `HashMapErase` when no allocation fails -/

theorem HashMapInsert_spec {K V : Type} {c : Caps K V} (hc : c.Lawful) {m : HashMap K V}
    (hinv : Inv c m) (p : Pair K V) :
    ∃ m1, HashMapInsert c m (some p) [] = some (1, m1, [])
      ∧ Inv c m1
      ∧ (∀ k, lookup c m1 k = if c.key_cmp p.key k = 1 then some p.value else lookup c m k)
      ∧ m1.size = (if (lookup c m p.key).isSome then m.size else m.size + 1)
      ∧ m1.capacity = (if (lookup c m p.key).isSome then m.capacity
          else if exceedsMaxLoad m.capacity m.size then m.capacity * 2 else m.capacity) := by
  obtain ⟨hwf, hload⟩ := hinv
  obtain ⟨b, hb⟩ := hwf.bucket p.key
  have hl := lookup_of_bucket c m p.key b hb
  cases hf : findKey c p.key b.data with
  | some q =>
    obtain ⟨hq, as, bs, hd, has, hidx⟩ := find_split _ _ _ hf
    obtain ⟨g1, g2, g3⟩ := GetPairIndexByKey_of_find_some c b p.key q hf
    have rs := replace_spec hc hwf p q b as bs hb hd has hq b.capacity
    refine ⟨_, ?_, ⟨rs.1, hload⟩, rs.2, ?_, ?_⟩
    · unfold HashMapInsert
      simp only [hb, g1]
      have hne : ((b.data.findIdx (keyTest c p.key) : Nat) : Int) ≠ -1 := by omega
      rw [if_pos hne, Int.toNat_ofNat, hidx, hd, set_append_cons, hc.cpy_eq]
    · rw [hl, hf]; simp
    · rw [hl, hf]; simp
  | none =>
    have g := GetPairIndexByKey_of_find_none c b p.key hf
    have hlnone : lookup c m p.key = none := by rw [hl, hf]; rfl
    by_cases hex : exceedsMaxLoad m.capacity m.size = true
    · obtain ⟨e, he⟩ := hwf.pow
      have hpos := hwf.pos
      have hn : m.capacity * 2 = 2 ^ (e + 1) := by rw [he, pow_succ]
      obtain ⟨temp, r1, r2, r3, r4⟩ :=
        ReHashing_nil hc m hwf.len (m.capacity * 2) (by omega)
      obtain ⟨w1, w2⟩ := rehash_WF hc hwf (m.capacity * 2) (e + 1) hn temp r2 r3 r4
      obtain ⟨b2, hb2⟩ := w1.bucket p.key
      simp only at hb2
      have hf2 : findKey c p.key b2.data = none := by
        have h1 := w2 p.key
        rw [hlnone, lookup_of_bucket c _ p.key b2 hb2] at h1
        simpa using h1
      have ps := push_spec hc w1 p b2 hb2 hf2
        (if exceedsMaxLoad b2.capacity b2.size then b2.capacity * 2 else b2.capacity)
      refine ⟨_, ?_, ⟨ps.1, ?_⟩, ?_, ?_, ?_⟩
      · unfold HashMapInsert
        simp only [hb, g, hex, IncreaseTable, r1, HASH_MAP_GROWTH_FACTOR, hb2,
          VectorPushBack_nil, hc.cpy_eq]
        simp
      · simp only
        omega
      · intro k
        rw [ps.2 k, w2 k]
      · rw [hlnone]; simp
      · rw [hlnone]; simp [hex]
    · have ps := push_spec hc hwf p b hb hf
        (if exceedsMaxLoad b.capacity b.size then b.capacity * 2 else b.capacity)
      refine ⟨_, ?_, ⟨ps.1, ?_⟩, ps.2, ?_, ?_⟩
      · unfold HashMapInsert
        simp only [hb, g, hex, VectorPushBack_nil, hc.cpy_eq]
        simp
      · simp only
        unfold exceedsMaxLoad at hex
        simp only [decide_eq_true_eq] at hex
        omega
      · rw [hlnone]; simp
      · rw [hlnone]; simp [hex]

theorem HashMapErase_absent {K V : Type} {c : Caps K V} {m : HashMap K V}
    (hwf : WF c m) (k : K) (h : lookup c m k = none) (al : Alloc) :
    HashMapErase c m (some k) al = some (0, m, al) := by
  unfold HashMapErase
  simp only [HashMapContainsKey_eq_lookup hwf k, h]
  simp

theorem HashMapErase_spec {K V : Type} {c : Caps K V} (hc : c.Lawful) {m : HashMap K V}
    (hinv : Inv c m) (k : K) (h : (lookup c m k).isSome = true) :
    ∃ m1, HashMapErase c m (some k) [] = some (1, m1, [])
      ∧ Inv c m1
      ∧ 1 ≤ m.size
      ∧ (∀ k1, lookup c m1 k1 = if c.key_cmp k k1 = 1 then none else lookup c m k1)
      ∧ m1.size = m.size - 1
      ∧ m1.capacity = (if (m.size - 1) * 4 < m.capacity then m.capacity / 2
          else m.capacity) := by
  obtain ⟨hwf, hload⟩ := hinv
  obtain ⟨b, hb⟩ := hwf.bucket k
  have hl := lookup_of_bucket c m k b hb
  have hpos := hwf.pos
  cases hf : findKey c k b.data with
  | none => rw [hl, hf] at h; simp at h
  | some q =>
    obtain ⟨hq, as, bs, hd, has, hidx⟩ := find_split _ _ _ hf
    obtain ⟨g1, g2, g3⟩ := GetPairIndexByKey_of_find_some c b k q hf
    have hne : ((b.data.findIdx (keyTest c k) : Nat) : Int) ≠ -1 := by omega
    have hve := VectorErase_nil b (b.data.findIdx (keyTest c k)) g2
    have hdel : b.data.eraseIdx (b.data.findIdx (keyTest c k)) = as ++ bs := by
      rw [hidx, hd, eraseIdx_append_cons]
    rw [hdel] at hve
    obtain ⟨s1, w1, w2⟩ := erase_spec hc hwf k q b as bs hb hd has hq
      (if VectorLoadBelowMin (⟨b.capacity, as ++ bs⟩ : Vector (Pair K V))
        then b.capacity / 2 else b.capacity)
    have hstep : HashMapErase c m (some k) [] =
        DecreaseTable c
          ⟨m.buckets.set (HASH c.hash_func k m.capacity)
            ⟨if VectorLoadBelowMin (⟨b.capacity, as ++ bs⟩ : Vector (Pair K V))
              then b.capacity / 2 else b.capacity, as ++ bs⟩,
           m.size - 1, m.capacity⟩ (m.capacity / 2) [] := by
      unfold HashMapErase
      simp only [HashMapContainsKey_eq_lookup hwf k, h, hb, g1, Int.toNat_ofNat, hve,
        HASH_MAP_GROWTH_FACTOR, sizeSubOne_pos s1]
      simp [hne]
    rw [hstep]
    by_cases hmin : m.capacity ≤ (m.size - 1) * 4
    · refine ⟨_, ?_, ⟨w1, ?_⟩, s1, w2, rfl, ?_⟩
      · unfold DecreaseTable HashMapLoadAtLeastMin
        have hc0 : ¬ m.capacity = 0 := by omega
        simp only [hc0, if_false, hmin, decide_True, if_true]
      · simp only; omega
      · simp only
        rw [if_neg (not_lt.mpr hmin)]
    · obtain ⟨e, he⟩ := hwf.pow
      have he1 : 1 ≤ e := by
        rcases Nat.eq_zero_or_pos e with h0 | h0
        · rw [h0] at he
          simp only [pow_zero] at he
          omega
        · exact h0
      have hn : m.capacity / 2 = 2 ^ (e - 1) := by
        rw [he]
        obtain ⟨e1, rfl⟩ : ∃ e1, e = e1 + 1 := ⟨e - 1, by omega⟩
        rw [pow_succ]
        simp
      have hlen1 : (⟨m.buckets.set (HASH c.hash_func k m.capacity)
            ⟨if VectorLoadBelowMin (⟨b.capacity, as ++ bs⟩ : Vector (Pair K V))
              then b.capacity / 2 else b.capacity, as ++ bs⟩,
           m.size - 1, m.capacity⟩ : HashMap K V).buckets.length = m.capacity := w1.len
      have hhalf : 0 < m.capacity / 2 := by
        rw [hn]; exact Nat.pos_pow_of_pos _ (by decide)
      obtain ⟨temp, r1, r2, r3, r4⟩ := ReHashing_nil hc _ hlen1 (m.capacity / 2) hhalf
      obtain ⟨u1, u2⟩ := rehash_WF hc w1 (m.capacity / 2) (e - 1) hn temp r2 r3 r4
      refine ⟨_, ?_, ⟨u1, ?_⟩, s1, ?_, rfl, ?_⟩
      · unfold DecreaseTable HashMapLoadAtLeastMin
        have hc0 : ¬ m.capacity = 0 := by omega
        simp only [hc0, if_false, hmin, decide_False, Bool.false_eq_true, r1]
      · simp only
        omega
      · intro k1
        rw [u2 k1, w2 k1]
      · simp only
        rw [if_pos (not_le.mp hmin)]

theorem Inv_alloc {K V : Type} (c : Caps K V) :
    Inv c ⟨List.replicate 16 ⟨16, []⟩, 0, 16⟩ := by
  refine ⟨⟨by simp, ⟨4, by norm_num⟩, ?_, ?_, ?_⟩, by norm_num⟩
  · intro i b hi p hp
    simp only at hi
    rw [List.getElem?_replicate] at hi
    split at hi
    · have : (⟨16, []⟩ : Vector (Pair K V)) = b := Option.some.inj hi
      subst this
      simp at hp
    · simp at hi
  · intro b hb
    simp only at hb
    rw [List.eq_of_mem_replicate hb]
    exact List.Pairwise.nil
  · simp [Vector.size]

theorem Reachable.inv {K V : Type} {c : Caps K V} (hc : c.Lawful) {m : HashMap K V}
    (h : Reachable c m) : Inv c m := by
  induction h with
  | alloc m al h =>
    rw [HashMapAlloc_nil] at h
    simp only [Prod.mk.injEq, Option.some.injEq] at h
    rw [← h.1]
    exact Inv_alloc c
  | insert m pair r m1 al _ hstep ih =>
    cases pair with
    | none =>
      simp only [HashMapInsert, Option.some.injEq, Prod.mk.injEq] at hstep
      rw [← hstep.2.1]; exact ih
    | some p =>
      obtain ⟨m2, h1, h2, _⟩ := HashMapInsert_spec hc ih p
      rw [h1] at hstep
      simp only [Option.some.injEq, Prod.mk.injEq] at hstep
      rw [← hstep.2.1]; exact h2
  | erase m key r m1 al _ hstep ih =>
    cases key with
    | none =>
      simp only [HashMapErase, Option.some.injEq, Prod.mk.injEq] at hstep
      rw [← hstep.2.1]; exact ih
    | some k =>
      cases hl : lookup c m k with
      | none =>
        rw [HashMapErase_absent ih.1 k hl] at hstep
        simp only [Option.some.injEq, Prod.mk.injEq] at hstep
        rw [← hstep.2.1]; exact ih
      | some v =>
        obtain ⟨m2, h1, h2, _⟩ := HashMapErase_spec hc ih k (by rw [hl]; rfl)
        rw [h1] at hstep
        simp only [Option.some.injEq, Prod.mk.injEq] at hstep
        rw [← hstep.2.1]; exact h2

/-! ## Lemmas: runs of inserts and erases -/

theorem charIntCaps_lawful : charIntCaps.Lawful := by
  refine ⟨?_, ?_, ?_, ?_, ?_⟩
  · intro a; simp [charIntCaps, CharKeyCmp]
  · intro a b h
    simp only [charIntCaps, CharKeyCmp] at h ⊢
    split at h
    · next hab => simp [hab]
    · simp at h
  · intro a b d h1 h2
    simp only [charIntCaps, CharKeyCmp] at h1 h2 ⊢
    split at h1
    · next hab =>
      split at h2
      · next hbd => simp [hab, hbd]
      · simp at h2
    · simp at h1
  · intro a b h
    simp only [charIntCaps, CharKeyCmp] at h ⊢
    split at h
    · next hab => rw [hab]
    · simp at h
  · intro p; rfl

theorem Reachable.fresh {K V : Type} (c : Caps K V) :
    Reachable c ⟨List.replicate 16 ⟨16, []⟩, 0, 16⟩ :=
  Reachable.alloc _ [] (HashMapAlloc_nil c)

theorem lookup_fresh {K V : Type} (c : Caps K V) (k : K) :
    lookup c ⟨List.replicate 16 ⟨16, []⟩, 0, 16⟩ k = none := by
  unfold lookup
  simp only
  rw [List.getElem?_replicate]
  by_cases h : HASH c.hash_func k 16 < 16
  · simp [h, findKey]
  · simp [h]

theorem distinctKeys_count_cons {K V : Type} (c : Caps K V) (seen : List K) (k : K)
    (ks : List K) :
    distinctKeys.count c seen (k :: ks) =
      (if seen.any (fun s => decide (c.key_cmp s k = 1)) then 0 else 1)
        + distinctKeys.count c (k :: seen) ks := rfl

theorem Reachable.of_insertAll {K V : Type} {c : Caps K V} (ps : List (Pair K V)) :
    ∀ (m m1 : HashMap K V) (rs : List Int), Reachable c m →
      insertAll c m ps = some (rs, m1) → Reachable c m1 := by
  induction ps with
  | nil =>
    intro m m1 rs hr h
    simp only [insertAll, Option.some.injEq, Prod.mk.injEq] at h
    rw [← h.2]; exact hr
  | cons p ps ih =>
    intro m m1 rs hr h
    unfold insertAll at h
    cases h1 : HashMapInsert c m (some p) [] with
    | none => rw [h1] at h; simp at h
    | some r =>
      rw [h1] at h
      simp only at h
      cases h2 : insertAll c r.2.1 ps with
      | none => rw [h2] at h; simp at h
      | some q =>
        rw [h2] at h
        simp only [Option.some.injEq, Prod.mk.injEq] at h
        have hr1 : Reachable c r.2.1 := Reachable.insert m (some p) r.1 r.2.1 r.2.2 hr h1
        rw [← h.2]
        exact ih r.2.1 q.2 q.1 hr1 h2

theorem Reachable.of_eraseAll {K V : Type} {c : Caps K V} (ks : List K) :
    ∀ (m m1 : HashMap K V) (rs : List Int), Reachable c m →
      eraseAll c m ks = some (rs, m1) → Reachable c m1 := by
  induction ks with
  | nil =>
    intro m m1 rs hr h
    simp only [eraseAll, Option.some.injEq, Prod.mk.injEq] at h
    rw [← h.2]; exact hr
  | cons k ks ih =>
    intro m m1 rs hr h
    unfold eraseAll at h
    cases h1 : HashMapErase c m (some k) [] with
    | none => rw [h1] at h; simp at h
    | some r =>
      rw [h1] at h
      simp only at h
      cases h2 : eraseAll c r.2.1 ks with
      | none => rw [h2] at h; simp at h
      | some q =>
        rw [h2] at h
        simp only [Option.some.injEq, Prod.mk.injEq] at h
        have hr1 : Reachable c r.2.1 := Reachable.erase m (some k) r.1 r.2.1 r.2.2 hr h1
        rw [← h.2]
        exact ih r.2.1 q.2 q.1 hr1 h2

theorem insertAll_cons_of {K V : Type} {c : Caps K V} {m m1 m2 : HashMap K V}
    {p : Pair K V} {ps : List (Pair K V)} {rs : List Int}
    (h1 : HashMapInsert c m (some p) [] = some (1, m1, []))
    (h2 : insertAll c m1 ps = some (rs, m2)) :
    insertAll c m (p :: ps) = some (1 :: rs, m2) := by
  unfold insertAll
  simp only [h1, h2]

theorem eraseAll_cons_of {K V : Type} {c : Caps K V} {m m1 m2 : HashMap K V}
    {k : K} {ks : List K} {rs : List Int}
    (h1 : HashMapErase c m (some k) [] = some (1, m1, []))
    (h2 : eraseAll c m1 ks = some (rs, m2)) :
    eraseAll c m (k :: ks) = some (1 :: rs, m2) := by
  unfold eraseAll
  simp only [h1, h2]

theorem insertAll_spec {K V : Type} {c : Caps K V} (hc : c.Lawful)
    (ps : List (Pair K V)) :
    ∀ (m : HashMap K V) (seen : List K), Inv c m →
      (∀ k, (lookup c m k).isSome = true ↔ ∃ s ∈ seen, c.key_cmp s k = 1) →
      ∃ m1, insertAll c m ps = some (List.replicate ps.length 1, m1)
        ∧ Inv c m1
        ∧ m1.size = m.size + distinctKeys.count c seen (ps.map Pair.key)
        ∧ (∀ (pre post : List (Pair K V)) (q : Pair K V) (k : K),
            ps = pre ++ q :: post → c.key_cmp q.key k = 1 →
            (∀ r ∈ post, c.key_cmp r.key k ≠ 1) → lookup c m1 k = some q.value)
        ∧ (∀ k, (∀ r ∈ ps, c.key_cmp r.key k ≠ 1) → lookup c m1 k = lookup c m k) := by
  induction ps with
  | nil =>
    intro m seen hinv _
    refine ⟨m, rfl, hinv, by simp [distinctKeys.count], ?_, ?_⟩
    · intro pre post q k h
      simp at h
    · intro k _; rfl
  | cons p ps ih =>
    intro m seen hinv hseen
    obtain ⟨m1, a1, a2, a3, a4, a5⟩ := HashMapInsert_spec hc hinv p
    have hseen1 : ∀ k, (lookup c m1 k).isSome = true ↔
        ∃ s ∈ p.key :: seen, c.key_cmp s k = 1 := by
      intro k
      rw [a3 k]
      by_cases hk : c.key_cmp p.key k = 1
      · simp [hk]
      · simp only [hk, if_false, List.mem_cons, exists_eq_or_imp, false_or]
        exact hseen k
    obtain ⟨m2, b1, b2, b3, b4, b5⟩ := ih m1 (p.key :: seen) a2 hseen1
    refine ⟨m2, ?_, b2, ?_, ?_, ?_⟩
    · rw [List.length_cons, List.replicate_succ]
      exact insertAll_cons_of a1 b1
    · rw [b3, a4, List.map_cons, distinctKeys_count_cons]
      have hany : (seen.any fun s => decide (c.key_cmp s p.key = 1)) = true ↔
          (lookup c m p.key).isSome = true := by
        rw [hseen p.key, List.any_eq_true]
        simp
      by_cases hs : (lookup c m p.key).isSome = true
      · rw [if_pos hs, if_pos (hany.mpr hs)]
        omega
      · rw [if_neg hs, if_neg (fun h => hs (hany.mp h))]
        omega
    · intro pre post q k hsplit hq hpost
      cases pre with
      | nil =>
        simp only [List.nil_append, List.cons.injEq] at hsplit
        obtain ⟨hpq, hrest⟩ := hsplit
        subst hpq
        rw [b5 k (by rw [hrest]; exact hpost), a3 k, if_pos hq]
      | cons x pre1 =>
        simp only [List.cons_append, List.cons.injEq] at hsplit
        exact b4 pre1 post q k hsplit.2 hq hpost
    · intro k hk
      rw [b5 k (fun r hr => hk r (List.mem_cons_of_mem _ hr)), a3 k,
        if_neg (hk p (List.mem_cons_self _ _))]

/-! ## Lemmas: a successful call does not depend on the allocator -/

theorem VectorPushBack_success {α : Type} (cpy : α → α) (v v1 : Vector α) (x : Option α)
    (al al1 : Alloc) (r : Int) (h : VectorPushBack cpy v x al = (r, v1, al1))
    (hr : r ≠ 0) : VectorPushBack cpy v x [] = (r, v1, []) := by
  cases x with
  | none =>
    simp only [VectorPushBack, Prod.mk.injEq] at h
    exact absurd h.1.symm hr
  | some a =>
    unfold VectorPushBack at h ⊢
    by_cases hex : exceedsMaxLoad v.capacity v.size = true
    · simp only [hex, if_true] at h ⊢
      cases al with
      | nil =>
        simp only [Alloc.request, Bool.true_eq_false, if_false, Prod.mk.injEq] at h
        obtain ⟨e1, e2, _⟩ := h
        subst e1 e2
        rfl
      | cons ok rest =>
        cases ok with
        | false =>
          simp only [Alloc.request, if_true, Prod.mk.injEq] at h
          exact absurd h.1.symm hr
        | true =>
          simp only [Alloc.request, Bool.true_eq_false, if_false, Prod.mk.injEq] at h
          obtain ⟨e1, e2, _⟩ := h
          subst e1 e2
          rfl
    · simp only [hex, Bool.false_eq_true, if_false, Prod.mk.injEq] at h
      obtain ⟨e1, e2, _⟩ := h
      subst e1 e2
      simp [hex]

theorem VectorErase_success {α : Type} (v v1 : Vector α) (i : Nat)
    (al al1 : Alloc) (r : Int) (h : VectorErase v i al = some (r, v1, al1))
    (hr : r ≠ 0) : VectorErase v i [] = some (r, v1, []) := by
  unfold VectorErase at h ⊢
  by_cases h1 : i > sizeSubOne v.size
  · simp only [h1, if_true, Option.some.injEq, Prod.mk.injEq] at h
    exact absurd h.1.symm hr
  · simp only [h1, if_false] at h ⊢
    by_cases h2 : i < v.size
    · simp only [h2, if_true] at h ⊢
      by_cases h3 : VectorLoadBelowMin (⟨v.capacity, v.data.eraseIdx i⟩ : Vector α) = true
      · simp only [h3, if_true] at h ⊢
        cases al with
        | nil =>
          simp only [Alloc.request, Bool.true_eq_false, if_false, Option.some.injEq,
            Prod.mk.injEq] at h
          obtain ⟨e1, e2, _⟩ := h
          subst e1 e2
          rfl
        | cons ok rest =>
          cases ok with
          | false =>
            simp only [Alloc.request, if_true, Option.some.injEq, Prod.mk.injEq] at h
            exact absurd h.1.symm hr
          | true =>
            simp only [Alloc.request, Bool.true_eq_false, if_false, Option.some.injEq,
              Prod.mk.injEq] at h
            obtain ⟨e1, e2, _⟩ := h
            subst e1 e2
            rfl
      · simp only [h3, Bool.false_eq_true, if_false, Option.some.injEq, Prod.mk.injEq] at h
        obtain ⟨e1, e2, _⟩ := h
        subst e1 e2
        simp [h3]
    · simp only [h2, if_false] at h
      exact absurd h (by simp)

theorem VectorAlloc_success {α : Type} (f : Option (α → α)) (g : Option (α → α → Int))
    (u : Option (α → Unit)) (al al1 : Alloc) (v : Vector α)
    (h : VectorAlloc f g u al = (some v, al1)) : VectorAlloc f g u [] = (some v, []) := by
  unfold VectorAlloc at h ⊢
  by_cases h0 : (f.isNone || g.isNone || u.isNone) = true
  · rw [if_pos h0] at h
    simp at h
  · rw [if_neg h0] at h ⊢
    have hv : (⟨VECTOR_INITIAL_CAP, []⟩ : Vector α) = v := by
      cases al with
      | nil =>
        simp only [Alloc.request, Bool.true_eq_false, if_false, Prod.mk.injEq,
          Option.some.injEq] at h
        exact h.1
      | cons ok rest =>
        cases ok with
        | false => simp [Alloc.request] at h
        | true =>
          cases rest with
          | nil =>
            simp only [Alloc.request, Bool.true_eq_false, if_false, Prod.mk.injEq,
              Option.some.injEq] at h
            exact h.1
          | cons ok2 rest2 =>
            cases ok2 with
            | false => simp [Alloc.request] at h
            | true =>
              simp only [Alloc.request, Bool.true_eq_false, if_false, Prod.mk.injEq,
                Option.some.injEq] at h
              exact h.1
    subst hv
    rfl

theorem InitBuckets_loop_success {α : Type} (f : Option (α → α))
    (g : Option (α → α → Int)) (u : Option (α → Unit)) (n : Nat) :
    ∀ (al al1 : Alloc) (t : List (Vector α)),
      InitBuckets.loop f g u n al = (some t, al1) →
      InitBuckets.loop f g u n [] = (some t, []) := by
  induction n with
  | zero =>
    intro al al1 t h
    simp only [InitBuckets.loop, Prod.mk.injEq, Option.some.injEq] at h
    obtain ⟨e1, _⟩ := h
    subst e1
    rfl
  | succ n ih =>
    intro al al1 t h
    unfold InitBuckets.loop at h ⊢
    cases hv : VectorAlloc f g u al with
    | mk ov al2 =>
      rw [hv] at h
      cases ov with
      | none => simp at h
      | some v =>
        rw [VectorAlloc_success f g u al al2 v hv]
        simp only at h ⊢
        cases hl : InitBuckets.loop f g u n al2 with
        | mk ot al3 =>
          rw [hl] at h
          cases ot with
          | none => simp at h
          | some t1 =>
            rw [ih al2 al3 t1 hl]
            simp only [Prod.mk.injEq, Option.some.injEq] at h
            obtain ⟨e1, _⟩ := h
            subst e1
            rfl

theorem InitBuckets_success {α : Type} (f : Option (α → α))
    (g : Option (α → α → Int)) (u : Option (α → Unit)) (n : Nat)
    (al al1 : Alloc) (t : List (Vector α))
    (h : InitBuckets n f g u al = (some t, al1)) :
    InitBuckets n f g u [] = (some t, []) := by
  unfold InitBuckets at h ⊢
  simp only [request_nil, Bool.true_eq_false, if_false]
  cases al with
  | nil =>
    simp only [Alloc.request, Bool.true_eq_false, if_false] at h
    exact InitBuckets_loop_success f g u n [] al1 t h
  | cons ok rest =>
    cases ok with
    | false => simp [Alloc.request] at h
    | true =>
      simp only [Alloc.request, Bool.true_eq_false, if_false] at h
      exact InitBuckets_loop_success f g u n rest al1 t h

theorem ReHashing_inner_success {K V : Type} (c : Caps K V) (n : Nat)
    (ps : List (Pair K V)) :
    ∀ (temp t : List (Vector (Pair K V))) (al al1 : Alloc),
      ReHashing.inner c n ps temp al = some (some t, al1) →
      ReHashing.inner c n ps temp [] = some (some t, []) := by
  induction ps with
  | nil =>
    intro temp t al al1 h
    simp only [ReHashing.inner, Option.some.injEq, Prod.mk.injEq] at h
    obtain ⟨e1, _⟩ := h
    subst e1
    rfl
  | cons p ps ih =>
    intro temp t al al1 h
    unfold ReHashing.inner at h ⊢
    simp only at h ⊢
    cases hb : temp[HASH c.hash_func p.key n]? with
    | none => rw [hb] at h; simp at h
    | some b =>
      rw [hb] at h
      simp only at h ⊢
      cases hp : VectorPushBack c.pair_cpy b (some p) al with
      | mk r rest =>
        cases rest with
        | mk b1 al2 =>
          rw [hp] at h
          simp only at h
          by_cases hr : r = 0
          · rw [if_pos hr] at h
            simp at h
          · rw [if_neg hr] at h
            rw [VectorPushBack_success c.pair_cpy b b1 (some p) al al2 r hp hr]
            simp only [hr, if_false]
            exact ih _ t al2 al1 h

theorem ReHashing_outer_success {K V : Type} (c : Caps K V) (m : HashMap K V) (n : Nat)
    (cnt : Nat) :
    ∀ (i : Nat) (temp t : List (Vector (Pair K V))) (al al1 : Alloc),
      ReHashing.outer c m n cnt i temp al = some (some t, al1) →
      ReHashing.outer c m n cnt i temp [] = some (some t, []) := by
  induction cnt with
  | zero =>
    intro i temp t al al1 h
    simp only [ReHashing.outer, Option.some.injEq, Prod.mk.injEq] at h
    obtain ⟨e1, _⟩ := h
    subst e1
    rfl
  | succ cnt ih =>
    intro i temp t al al1 h
    unfold ReHashing.outer at h ⊢
    cases hb : m.buckets[i]? with
    | none => rw [hb] at h; simp at h
    | some b =>
      rw [hb] at h
      simp only at h ⊢
      cases hin : ReHashing.inner c n b.data temp al with
      | none => rw [hin] at h; simp at h
      | some res =>
        cases res with
        | mk ot al2 =>
          rw [hin] at h
          cases ot with
          | none => simp at h
          | some t1 =>
            rw [ReHashing_inner_success c n b.data temp t1 al al2 hin]
            simp only at h ⊢
            exact ih (i + 1) t1 t al2 al1 h

theorem ReHashing_success {K V : Type} (c : Caps K V) (m : HashMap K V) (n : Nat)
    (t : List (Vector (Pair K V))) (al al1 : Alloc)
    (h : ReHashing c m n al = some (some t, al1)) :
    ReHashing c m n [] = some (some t, []) := by
  unfold ReHashing at h ⊢
  cases hi : InitBuckets n (some c.pair_cpy) (some c.pair_cmp) (some c.pair_free) al with
  | mk ot al2 =>
    rw [hi] at h
    cases ot with
    | none => simp at h
    | some temp =>
      rw [InitBuckets_success _ _ _ n al al2 temp hi]
      simp only at h ⊢
      exact ReHashing_outer_success c m n m.capacity 0 temp t al2 al1 h

theorem DecreaseTable_success {K V : Type} (c : Caps K V) (m m1 : HashMap K V) (n : Nat)
    (al al1 : Alloc) (r : Int) (h : DecreaseTable c m n al = some (r, m1, al1))
    (hr : r ≠ 0) : DecreaseTable c m n [] = some (r, m1, []) := by
  unfold DecreaseTable at h ⊢
  by_cases hl : HashMapLoadAtLeastMin m = true
  · simp only [hl, if_true, Option.some.injEq, Prod.mk.injEq] at h
    obtain ⟨e1, e2, _⟩ := h
    subst e1 e2
    simp [hl]
  · simp only [hl, Bool.false_eq_true, if_false] at h ⊢
    cases hre : ReHashing c m n al with
    | none => rw [hre] at h; simp at h
    | some res =>
      cases res with
      | mk ot al2 =>
        rw [hre] at h
        cases ot with
        | none =>
          simp only [Option.some.injEq, Prod.mk.injEq] at h
          exact absurd h.1.symm hr
        | some t =>
          rw [ReHashing_success c m n t al al2 hre]
          simp only [Option.some.injEq, Prod.mk.injEq] at h
          obtain ⟨e1, e2, _⟩ := h
          subst e1 e2
          rfl

theorem IncreaseTable_success {K V : Type} (c : Caps K V) (m m1 : HashMap K V) (n : Nat)
    (p : Pair K V) (al al1 : Alloc) (r : Int)
    (h : IncreaseTable c m n p al = some (r, m1, al1)) (hr : r ≠ 0) :
    IncreaseTable c m n p [] = some (r, m1, []) := by
  unfold IncreaseTable at h ⊢
  cases hre : ReHashing c m n al with
  | none => rw [hre] at h; simp at h
  | some res =>
    cases res with
    | mk ot al2 =>
      rw [hre] at h
      cases ot with
      | none =>
        simp only [Option.some.injEq, Prod.mk.injEq] at h
        exact absurd h.1.symm hr
      | some t =>
        rw [ReHashing_success c m n t al al2 hre]
        simp only at h ⊢
        cases hb : t[HASH c.hash_func p.key n]? with
        | none => rw [hb] at h; simp at h
        | some b =>
          rw [hb] at h
          simp only at h ⊢
          cases hp : VectorPushBack c.pair_cpy b (some p) al2 with
          | mk r1 rest =>
            cases rest with
            | mk b1 al3 =>
              rw [hp] at h
              simp only at h
              by_cases hr1 : r1 = 0
              · rw [if_pos hr1] at h
                simp only [Option.some.injEq, Prod.mk.injEq] at h
                exact absurd h.1.symm hr
              · rw [if_neg hr1] at h
                rw [VectorPushBack_success c.pair_cpy b b1 (some p) al2 al3 r1 hp hr1]
                simp only [Option.some.injEq, Prod.mk.injEq] at h
                obtain ⟨e1, e2, _⟩ := h
                subst e1 e2
                simp [hr1]

theorem HashMapErase_success {K V : Type} (c : Caps K V) (m m1 : HashMap K V)
    (key : Option K) (al al1 : Alloc) (r : Int)
    (h : HashMapErase c m key al = some (r, m1, al1)) (hr : r ≠ 0) :
    HashMapErase c m key [] = some (r, m1, []) := by
  cases key with
  | none =>
    simp only [HashMapErase, Option.some.injEq, Prod.mk.injEq] at h
    exact absurd h.1.symm hr
  | some k =>
    unfold HashMapErase at h ⊢
    simp only at h ⊢
    cases hck : HashMapContainsKey c m (some k) with
    | none => rw [hck] at h; simp at h
    | some found =>
      rw [hck] at h
      simp only at h ⊢
      by_cases hf : found = 0
      · rw [if_pos hf] at h
        simp only [Option.some.injEq, Prod.mk.injEq] at h
        exact absurd h.1.symm hr
      · rw [if_neg hf] at h ⊢
        cases hb : m.buckets[HASH c.hash_func k m.capacity]? with
        | none => rw [hb] at h; simp at h
        | some b =>
          rw [hb] at h
          simp only at h ⊢
          by_cases hi : GetPairIndexByKey c b (some k) = -1
          · rw [if_pos hi] at h
            simp only [Option.some.injEq, Prod.mk.injEq] at h
            exact absurd h.1.symm hr
          · rw [if_neg hi] at h ⊢
            cases hve : VectorErase b (GetPairIndexByKey c b (some k)).toNat al with
            | none => rw [hve] at h; simp at h
            | some res =>
              cases res with
              | mk r1 rest =>
                cases rest with
                | mk b1 al2 =>
                  rw [hve] at h
                  simp only at h
                  by_cases hr1 : r1 = 0
                  · rw [if_pos hr1] at h
                    simp only [Option.some.injEq, Prod.mk.injEq] at h
                    exact absurd h.1.symm hr
                  · rw [if_neg hr1] at h
                    rw [VectorErase_success b b1 _ al al2 r1 hve hr1]
                    simp only [hr1, if_false]
                    exact DecreaseTable_success c _ m1 _ al2 al1 r h hr

theorem HashMapInsert_success {K V : Type} (c : Caps K V) (m m1 : HashMap K V)
    (pair : Option (Pair K V)) (al al1 : Alloc) (r : Int)
    (h : HashMapInsert c m pair al = some (r, m1, al1)) (hr : r ≠ 0) :
    HashMapInsert c m pair [] = some (r, m1, []) := by
  cases pair with
  | none =>
    simp only [HashMapInsert, Option.some.injEq, Prod.mk.injEq] at h
    exact absurd h.1.symm hr
  | some p =>
    unfold HashMapInsert at h ⊢
    simp only at h ⊢
    cases hb : m.buckets[HASH c.hash_func p.key m.capacity]? with
    | none => rw [hb] at h; simp at h
    | some b =>
      rw [hb] at h
      simp only at h ⊢
      by_cases hi : GetPairIndexByKey c b (some p.key) ≠ -1
      · rw [if_pos hi] at h ⊢
        simp only [Option.some.injEq, Prod.mk.injEq] at h
        obtain ⟨e1, e2, _⟩ := h
        subst e1 e2
        rfl
      · rw [if_neg hi] at h ⊢
        by_cases hex : exceedsMaxLoad m.capacity m.size = true
        · rw [if_pos hex] at h ⊢
          cases hinc : IncreaseTable c m (m.capacity * HASH_MAP_GROWTH_FACTOR) p al with
          | none => rw [hinc] at h; simp at h
          | some res =>
            cases res with
            | mk r1 rest =>
              cases rest with
              | mk m2 al2 =>
                rw [hinc] at h
                simp only at h
                by_cases hr1 : r1 = 0
                · rw [if_pos hr1] at h
                  simp only [Option.some.injEq, Prod.mk.injEq] at h
                  exact absurd h.1.symm hr
                · rw [if_neg hr1] at h
                  rw [IncreaseTable_success c m m2 _ p al al2 r1 hinc hr1]
                  simp only [Option.some.injEq, Prod.mk.injEq] at h
                  obtain ⟨e1, e2, _⟩ := h
                  subst e1 e2
                  simp [hr1]
        · rw [if_neg hex] at h ⊢
          cases hp : VectorPushBack c.pair_cpy b (some p) al with
          | mk r1 rest =>
            cases rest with
            | mk b1 al2 =>
              rw [hp] at h
              simp only at h
              by_cases hr1 : r1 = 0
              · rw [if_pos hr1] at h
                simp only [Option.some.injEq, Prod.mk.injEq] at h
                exact absurd h.1.symm hr
              · rw [if_neg hr1] at h
                rw [VectorPushBack_success c.pair_cpy b b1 (some p) al al2 r1 hp hr1]
                simp only [Option.some.injEq, Prod.mk.injEq] at h
                obtain ⟨e1, e2, _⟩ := h
                subst e1 e2
                simp [hr1]

/-! ## Lemmas: the key count, and a call that returns 0 -/

theorem distinctKeys_count_eq_card {K V : Type} [DecidableEq K] (c : Caps K V)
    (heq : ∀ a b, c.key_cmp a b = 1 ↔ a = b) (ks : List K) :
    ∀ seen : List K,
      distinctKeys.count c seen ks = (ks.toFinset \ seen.toFinset).card := by
  induction ks with
  | nil => intro seen; simp [distinctKeys.count]
  | cons k ks ih =>
    intro seen
    rw [distinctKeys_count_cons, ih (k :: seen)]
    have hany : (seen.any fun s => decide (c.key_cmp s k = 1)) = true ↔ k ∈ seen := by
      rw [List.any_eq_true]
      constructor
      · rintro ⟨s, hs, h⟩
        have := (heq s k).mp (of_decide_eq_true h)
        rw [← this]; exact hs
      · intro h
        exact ⟨k, h, decide_eq_true ((heq k k).mpr rfl)⟩
    simp only [List.toFinset_cons]
    by_cases hk : k ∈ seen
    · rw [if_pos (hany.mpr hk)]
      have hk1 : k ∈ seen.toFinset := List.mem_toFinset.mpr hk
      rw [Finset.insert_eq_of_mem hk1, Finset.insert_sdiff_of_mem _ hk1]
      omega
    · rw [if_neg (fun h => hk (hany.mp h))]
      have hk1 : k ∉ seen.toFinset := fun h => hk (List.mem_toFinset.mp h)
      rw [Finset.insert_sdiff_of_not_mem _ hk1, Finset.sdiff_insert]
      by_cases hin : k ∈ ks.toFinset \ seen.toFinset
      · rw [Finset.insert_eq_of_mem hin, Finset.card_erase_of_mem hin]
        have := Finset.card_pos.mpr ⟨k, hin⟩
        omega
      · rw [Finset.card_insert_of_not_mem hin, Finset.erase_eq_of_not_mem hin]
        omega

/-- When the key comparator is equality, `distinctKeys` is the number of
distinct elements of the list. -/
theorem distinctKeys_eq_card {K V : Type} [DecidableEq K] (c : Caps K V)
    (heq : ∀ a b, c.key_cmp a b = 1 ↔ a = b) (ks : List K) :
    distinctKeys c ks = ks.toFinset.card := by
  unfold distinctKeys
  rw [distinctKeys_count_eq_card c heq ks []]
  simp

theorem set_same_data {α : Type} (l : List (Vector α)) (i : Nat) (b b1 : Vector α)
    (hb : l[i]? = some b) (hd : b1.data = b.data) :
    (l.set i b1).map Vector.data = l.map Vector.data := by
  apply List.ext_getElem?
  intro j
  rw [List.getElem?_map, List.getElem?_map]
  by_cases hij : i = j
  · subst hij
    have hi : i < l.length := (List.getElem?_eq_some.mp hb).1
    rw [List.getElem?_set_self hi, hb]
    simp [hd]
  · rw [List.getElem?_set_ne hij]

theorem VectorPushBack_failure {α : Type} (cpy : α → α) (v v1 : Vector α) (x : Option α)
    (al al1 : Alloc) (h : VectorPushBack cpy v x al = (0, v1, al1)) :
    v1.data = v.data := by
  cases x with
  | none =>
    simp only [VectorPushBack, Prod.mk.injEq, true_and] at h
    rw [← h.1]
  | some a =>
    unfold VectorPushBack at h
    by_cases hex : exceedsMaxLoad v.capacity v.size = true
    · simp only [hex, if_true] at h
      by_cases hreq : (Alloc.request al).1 = false
      · simp only [hreq, if_true, Prod.mk.injEq, true_and] at h
        rw [← h.1]
      · have ht : (Alloc.request al).1 = true := by simpa using hreq
        simp only [ht, Bool.true_eq_false, if_false, Prod.mk.injEq] at h
        exact absurd h.1 (by decide)
    · simp only [hex, Bool.false_eq_true, if_false, Prod.mk.injEq] at h
      exact absurd h.1 (by decide)

theorem IncreaseTable_failure {K V : Type} (c : Caps K V) (m m1 : HashMap K V) (n : Nat)
    (p : Pair K V) (al al1 : Alloc)
    (h : IncreaseTable c m n p al = some (0, m1, al1)) : m1 = m := by
  unfold IncreaseTable at h
  cases hre : ReHashing c m n al with
  | none => rw [hre] at h; simp at h
  | some res =>
    cases res with
    | mk ot al2 =>
      rw [hre] at h
      cases ot with
      | none =>
        simp only [Option.some.injEq, Prod.mk.injEq, true_and] at h
        exact h.1.symm
      | some t =>
        simp only at h
        cases hb : t[HASH c.hash_func p.key n]? with
        | none => rw [hb] at h; simp at h
        | some b =>
          rw [hb] at h
          simp only at h
          by_cases hr1 : (VectorPushBack c.pair_cpy b (some p) al2).1 = 0
          · rw [if_pos hr1] at h
            simp only [Option.some.injEq, Prod.mk.injEq, true_and] at h
            exact h.1.symm
          · rw [if_neg hr1] at h
            simp only [Option.some.injEq, Prod.mk.injEq] at h
            exact absurd h.1 (by decide)

/-- What does hold when `HashMapInsert` returns 0: `size`, `capacity` and
the elements of every bucket are as before the call, and the whole map is as
before when the argument is null or the growth path was taken.  Only the
capacity field of the bucket of the direct append can differ. -/
theorem HashMapInsert_failure {K V : Type} (c : Caps K V) (m m1 : HashMap K V)
    (pair : Option (Pair K V)) (al al1 : Alloc)
    (h : HashMapInsert c m pair al = some (0, m1, al1)) :
    m1.size = m.size ∧ m1.capacity = m.capacity
      ∧ m1.buckets.map Vector.data = m.buckets.map Vector.data
      ∧ (pair = none ∨ exceedsMaxLoad m.capacity m.size = true → m1 = m) := by
  cases pair with
  | none =>
    simp only [HashMapInsert, Option.some.injEq, Prod.mk.injEq, true_and] at h
    rw [← h.1]
    exact ⟨rfl, rfl, rfl, fun _ => rfl⟩
  | some p =>
    unfold HashMapInsert at h
    simp only at h
    cases hb : m.buckets[HASH c.hash_func p.key m.capacity]? with
    | none => rw [hb] at h; simp at h
    | some b =>
      rw [hb] at h
      simp only at h
      by_cases hi : GetPairIndexByKey c b (some p.key) ≠ -1
      · rw [if_pos hi] at h
        simp only [Option.some.injEq, Prod.mk.injEq] at h
        exact absurd h.1 (by decide)
      · rw [if_neg hi] at h
        by_cases hex : exceedsMaxLoad m.capacity m.size = true
        · rw [if_pos hex] at h
          cases hinc : IncreaseTable c m (m.capacity * HASH_MAP_GROWTH_FACTOR) p al with
          | none => rw [hinc] at h; simp at h
          | some res =>
            cases res with
            | mk r1 rest =>
              cases rest with
              | mk m2 al2 =>
                rw [hinc] at h
                simp only at h
                by_cases hr1 : r1 = 0
                · rw [if_pos hr1] at h
                  simp only [Option.some.injEq, Prod.mk.injEq, true_and] at h
                  subst hr1
                  have := IncreaseTable_failure c m m2 _ p al al2 hinc
                  rw [← h.1, this]
                  exact ⟨rfl, rfl, rfl, fun _ => rfl⟩
                · rw [if_neg hr1] at h
                  simp only [Option.some.injEq, Prod.mk.injEq] at h
                  exact absurd h.1 (by decide)
        · rw [if_neg hex] at h
          cases hp : VectorPushBack c.pair_cpy b (some p) al with
          | mk r1 rest =>
            cases rest with
            | mk b1 al2 =>
              rw [hp] at h
              simp only at h
              by_cases hr1 : r1 = 0
              · rw [if_pos hr1] at h
                simp only [Option.some.injEq, Prod.mk.injEq, true_and] at h
                subst hr1
                have hd := VectorPushBack_failure c.pair_cpy b b1 (some p) al al2 hp
                rw [← h.1]
                refine ⟨rfl, rfl, set_same_data _ _ b b1 hb hd, ?_⟩
                rintro (h0 | h0)
                · simp at h0
                · exact absurd h0 hex
              · rw [if_neg hr1] at h
                simp only [Option.some.injEq, Prod.mk.injEq] at h
                exact absurd h.1 (by decide)

/-! ## The claims -/

/-- C1: from a freshly allocated map, a run of `HashMapInsert` over any list
of pairs (lawful capability functions, no allocation failure) returns 1 at
every call; the final size is the number of distinct keys of the list; and
`HashMapAt` on a key returns the value of the last pair of the list whose key
compares equal to it. -/
theorem C1_insert_run {K V : Type} (c : Caps K V) (hc : c.Lawful) (m0 : HashMap K V)
    (al0 : Alloc)
    (halloc : HashMapAlloc (some c.hash_func) (some c.pair_cpy) (some c.pair_cmp)
      (some c.pair_free) [] = (some m0, al0))
    (ps : List (Pair K V)) :
    ∃ m, insertAll c m0 ps = some (List.replicate ps.length 1, m)
      ∧ m.size = distinctKeys c (ps.map Pair.key)
      ∧ ∀ (pre post : List (Pair K V)) (q : Pair K V) (k : K),
          ps = pre ++ q :: post → c.key_cmp q.key k = 1 →
          (∀ r ∈ post, c.key_cmp r.key k ≠ 1) →
          HashMapAt c m (some k) = some (some q.value) := by
  rw [HashMapAlloc_nil] at halloc
  simp only [Prod.mk.injEq, Option.some.injEq] at halloc
  rw [← halloc.1]
  obtain ⟨m, h1, h2, h3, h4, _⟩ :=
    insertAll_spec hc ps ⟨List.replicate 16 ⟨16, []⟩, 0, 16⟩ [] (Inv_alloc c)
      (by intro k; rw [lookup_fresh]; simp)
  refine ⟨m, h1, ?_, ?_⟩
  · rw [h3]
    simp [distinctKeys]
  · intro pre post q k hsplit hq hpost
    rw [HashMapAt_eq_lookup h2.1, h4 pre post q k hsplit hq hpost]

/-- Witness of C1: the pairs `(1,10)`, `(2,20)`, `(1,30)` inserted in a fresh
`char`-to-`int` map. -/
theorem C1_insert_run_witness :
    ∃ m, insertAll charIntCaps ⟨List.replicate 16 ⟨16, []⟩, 0, 16⟩
          [⟨1, 10⟩, ⟨2, 20⟩, ⟨1, 30⟩] = some ([1, 1, 1], m)
      ∧ m.size = 2
      ∧ HashMapAt charIntCaps m (some 1) = some (some 30)
      ∧ HashMapAt charIntCaps m (some 2) = some (some 20) := by
  obtain ⟨m, h1, h2, h3⟩ := C1_insert_run charIntCaps charIntCaps_lawful
    ⟨List.replicate 16 ⟨16, []⟩, 0, 16⟩ [] (HashMapAlloc_nil charIntCaps)
    [⟨1, 10⟩, ⟨2, 20⟩, ⟨1, 30⟩]
  refine ⟨m, h1, ?_, ?_, ?_⟩
  · rw [h2]; decide
  · exact h3 [⟨1, 10⟩, ⟨2, 20⟩] [] ⟨1, 30⟩ 1 rfl (by decide) (by simp)
  · exact h3 [⟨1, 10⟩] [⟨1, 30⟩] ⟨2, 20⟩ 2 rfl (by decide) (by decide)

theorem HashMapInsert_stored {K V : Type} {c : Caps K V}
    {m : HashMap K V} (hwf : WF c m) (p : Pair K V)
    (h : (lookup c m p.key).isSome = true) (al : Alloc) :
    ∃ m1, HashMapInsert c m (some p) al = some (1, m1, al)
      ∧ HashMapInsert c m (some p) [] = some (1, m1, []) := by
  obtain ⟨b, hb⟩ := hwf.bucket p.key
  have hl := lookup_of_bucket c m p.key b hb
  cases hf : findKey c p.key b.data with
  | none => rw [hl, hf] at h; simp at h
  | some q =>
    obtain ⟨g1, g2, g3⟩ := GetPairIndexByKey_of_find_some c b p.key q hf
    have hne : ((b.data.findIdx (keyTest c p.key) : Nat) : Int) ≠ -1 := by omega
    refine ⟨⟨m.buckets.set (HASH c.hash_func p.key m.capacity)
        ⟨b.capacity, b.data.set (b.data.findIdx (keyTest c p.key)) (c.pair_cpy p)⟩,
        m.size, m.capacity⟩, ?_, ?_⟩
    · unfold HashMapInsert
      simp only [hb, g1]
      rw [if_pos hne, Int.toNat_ofNat]
    · unfold HashMapInsert
      simp only [hb, g1]
      rw [if_pos hne, Int.toNat_ofNat]

/-- C2: on a reachable map, `HashMapInsert` of a pair whose key is already
stored returns 1 whatever the allocator does, leaves `size` and `capacity`
unchanged, and afterwards `HashMapAt` on that key returns the value of the
new pair. -/
theorem C2_insert_existing {K V : Type} (c : Caps K V) (hc : c.Lawful) (m : HashMap K V)
    (hr : Reachable c m) (p : Pair K V) (hs : StoredKey c m p.key) (al : Alloc) :
    ∃ m1, HashMapInsert c m (some p) al = some (1, m1, al)
      ∧ m1.size = m.size ∧ m1.capacity = m.capacity
      ∧ HashMapAt c m1 (some p.key) = some (some p.value) := by
  have hinv := hr.inv hc
  have hsome := (lookup_isSome_iff hc hinv.1 p.key).mpr hs
  obtain ⟨m1, h1, h2⟩ := HashMapInsert_stored hinv.1 p hsome al
  obtain ⟨m2, a1, a2, a3, a4, a5⟩ := HashMapInsert_spec hc hinv p
  rw [h2] at a1
  simp only [Option.some.injEq, Prod.mk.injEq, and_true, true_and] at a1
  subst a1
  refine ⟨m1, h1, ?_, ?_, ?_⟩
  · rw [a4, if_pos hsome]
  · rw [a5, if_pos hsome]
  · rw [HashMapAt_eq_lookup a2.1, a3 p.key, if_pos (hc.cmp_refl _)]

/-- Witness of C2: `twelveOf16` holds 12 pairs in 16 buckets, so that a
thirteenth pair would trigger the growth; the stored key 3 is inserted again
with the value 99 while the allocator refuses every request. -/
theorem C2_insert_existing_witness :
    StoredKey charIntCaps twelveOf16 3
      ∧ exceedsMaxLoad twelveOf16.capacity twelveOf16.size = true
      ∧ ∃ m1, HashMapInsert charIntCaps twelveOf16 (some ⟨3, 99⟩) [false, false]
            = some (1, m1, [false, false])
          ∧ m1.size = twelveOf16.size ∧ m1.capacity = twelveOf16.capacity
          ∧ HashMapAt charIntCaps m1 (some 3) = some (some 99) :=
  ⟨by decide, by decide,
   C2_insert_existing charIntCaps charIntCaps_lawful twelveOf16
    (Reachable.of_insertAll (thirteenPairs.take 12) freshMap _ (List.replicate 12 1)
      (Reachable.fresh charIntCaps) (by decide))
    ⟨3, 99⟩ (by decide) [false, false]⟩

/-- C3: on a reachable map, `HashMapErase` of a stored key returns 1 when no
allocation fails, and every call that returns a non-zero code, whatever the
allocator does, returns 1 and the same map; that map has `size` decremented
by one, `HashMapContainsKey` on the erased key returns 0 on it, and
`HashMapAt` on every key that does not compare equal to the erased key
returns what it returned before, whether or not the table was shrunk. -/
theorem C3_erase_stored {K V : Type} (c : Caps K V) (hc : c.Lawful) (m : HashMap K V)
    (hr : Reachable c m) (k : K) (hs : StoredKey c m k) :
    ∃ m1, HashMapErase c m (some k) [] = some (1, m1, [])
      ∧ (∀ al r m2 al2, HashMapErase c m (some k) al = some (r, m2, al2) → r ≠ 0 →
          r = 1 ∧ m2 = m1)
      ∧ m1.size + 1 = m.size
      ∧ HashMapContainsKey c m1 (some k) = some 0
      ∧ ∀ k1, c.key_cmp k k1 ≠ 1 → HashMapAt c m1 (some k1) = HashMapAt c m (some k1) := by
  have hinv := hr.inv hc
  have hsome := (lookup_isSome_iff hc hinv.1 k).mpr hs
  obtain ⟨m1, a1, a2, a3, a4, a5, _⟩ := HashMapErase_spec hc hinv k hsome
  refine ⟨m1, a1, ?_, by omega, ?_, ?_⟩
  · intro al r m2 al2 h hr0
    have h1 := HashMapErase_success c m m2 (some k) al al2 r h hr0
    rw [a1] at h1
    simp only [Option.some.injEq, Prod.mk.injEq, and_true] at h1
    exact ⟨h1.1.symm, h1.2.symm⟩
  · rw [HashMapContainsKey_eq_lookup a2.1, a4 k, if_pos (hc.cmp_refl _)]
    rfl
  · intro k1 hk1
    rw [HashMapAt_eq_lookup a2.1, HashMapAt_eq_lookup hinv.1, a4 k1, if_neg hk1]

/-- Witness of C3: the keys `1` and `2` are stored and `1` is erased. -/
theorem C3_erase_stored_witness :
    StoredKey charIntCaps
        ⟨((List.replicate 16 (⟨16, []⟩ : Vector (Pair Int Int))).set 1
            ⟨16, [⟨1, 10⟩]⟩).set 2 ⟨16, [⟨2, 20⟩]⟩, 2, 16⟩ 1
      ∧ ∃ m1, HashMapErase charIntCaps
            ⟨((List.replicate 16 (⟨16, []⟩ : Vector (Pair Int Int))).set 1
              ⟨16, [⟨1, 10⟩]⟩).set 2 ⟨16, [⟨2, 20⟩]⟩, 2, 16⟩ (some 1) [] = some (1, m1, [])
          ∧ m1.size + 1 = 2
          ∧ HashMapContainsKey charIntCaps m1 (some 1) = some 0
          ∧ HashMapAt charIntCaps m1 (some 2) = some (some 20) := by
  have hs : StoredKey charIntCaps
        ⟨((List.replicate 16 (⟨16, []⟩ : Vector (Pair Int Int))).set 1
            ⟨16, [⟨1, 10⟩]⟩).set 2 ⟨16, [⟨2, 20⟩]⟩, 2, 16⟩ 1 :=
    ⟨⟨16, [⟨1, 10⟩]⟩, by decide, ⟨1, 10⟩, by decide, by decide⟩
  obtain ⟨m1, h1, _, h2, h3, h4⟩ := C3_erase_stored charIntCaps charIntCaps_lawful _
    (Reachable.of_insertAll [⟨1, 10⟩, ⟨2, 20⟩] _ _ [1, 1] (Reachable.fresh charIntCaps)
      (by decide)) 1 hs
  refine ⟨hs, m1, h1, h2, h3, ?_⟩
  rw [h4 2 (by decide)]
  decide

/-- C4: on a reachable map, `HashMapErase` of a key that is not stored
returns 0 and returns the map as it was (same `size`, `capacity` and
buckets), without consuming any allocation request: no shrink is attempted. -/
theorem C4_erase_absent {K V : Type} (c : Caps K V) (hc : c.Lawful) (m : HashMap K V)
    (hr : Reachable c m) (k : K) (hs : ¬ StoredKey c m k) (al : Alloc) :
    HashMapErase c m (some k) al = some (0, m, al) := by
  have hinv := hr.inv hc
  exact HashMapErase_absent hinv.1 k ((lookup_eq_none_iff hc hinv.1 k).mpr hs) al

/-- Witness of C4: a fresh map, whose load factor `0` is below `0.25`, and
the key `7`. -/
theorem C4_erase_absent_witness :
    ¬ StoredKey charIntCaps ⟨List.replicate 16 ⟨16, []⟩, 0, 16⟩ 7
      ∧ HashMapErase charIntCaps ⟨List.replicate 16 ⟨16, []⟩, 0, 16⟩ (some 7) [true]
          = some (0, ⟨List.replicate 16 ⟨16, []⟩, 0, 16⟩, [true]) := by
  have hs : ¬ StoredKey charIntCaps ⟨List.replicate 16 ⟨16, []⟩, 0, 16⟩ 7 := by
    rintro ⟨b, hb, p, hp, _⟩
    simp only at hb
    rw [List.eq_of_mem_replicate hb] at hp
    simp at hp
  exact ⟨hs, C4_erase_absent charIntCaps charIntCaps_lawful _ (Reachable.fresh charIntCaps)
    7 hs [true]⟩

theorem insertAll_append {K V : Type} (c : Caps K V) (xs ys : List (Pair K V)) :
    ∀ (m m1 m2 : HashMap K V) (rs1 rs2 : List Int),
      insertAll c m xs = some (rs1, m1) → insertAll c m1 ys = some (rs2, m2) →
      insertAll c m (xs ++ ys) = some (rs1 ++ rs2, m2) := by
  induction xs with
  | nil =>
    intro m m1 m2 rs1 rs2 h1 h2
    simp only [insertAll, Option.some.injEq, Prod.mk.injEq] at h1
    obtain ⟨e1, e2⟩ := h1
    subst e1 e2
    simpa using h2
  | cons x xs ih =>
    intro m m1 m2 rs1 rs2 h1 h2
    unfold insertAll at h1
    rw [List.cons_append]
    unfold insertAll
    cases hx : HashMapInsert c m (some x) [] with
    | none => rw [hx] at h1; simp at h1
    | some r =>
      rw [hx] at h1
      simp only at h1 ⊢
      cases hr : insertAll c r.2.1 xs with
      | none => rw [hr] at h1; simp at h1
      | some q =>
        rw [hr] at h1
        simp only [Option.some.injEq, Prod.mk.injEq] at h1
        have hq : insertAll c r.2.1 xs = some (q.1, q.2) := hr
        rw [← h1.2] at h2
        rw [ih r.2.1 q.2 m2 q.1 rs2 hq h2, ← h1.1]
        rfl

theorem insertAll_no_growth {K V : Type} {c : Caps K V} (hc : c.Lawful)
    (ps : List (Pair K V)) :
    ∀ (m : HashMap K V), Inv c m →
      ps.Pairwise (fun a b => c.key_cmp a.key b.key ≠ 1) →
      (∀ p ∈ ps, lookup c m p.key = none) →
      (m.size + ps.length) * 4 ≤ m.capacity * 3 →
      ∃ m1, insertAll c m ps = some (List.replicate ps.length 1, m1)
        ∧ Inv c m1
        ∧ m1.size = m.size + ps.length
        ∧ m1.capacity = m.capacity
        ∧ (∀ k, (∀ r ∈ ps, c.key_cmp r.key k ≠ 1) → lookup c m1 k = lookup c m k) := by
  induction ps with
  | nil =>
    intro m hinv _ _ _
    exact ⟨m, rfl, hinv, rfl, rfl, fun k _ => rfl⟩
  | cons p ps ih =>
    intro m hinv hpw hnone hload
    obtain ⟨hp, hpw1⟩ := List.pairwise_cons.mp hpw
    have hpn : lookup c m p.key = none := hnone p (List.mem_cons_self _ _)
    obtain ⟨m1, a1, a2, a3, a4, a5⟩ := HashMapInsert_spec hc hinv p
    rw [hpn] at a4 a5
    simp only [Option.isSome_none, Bool.false_eq_true, if_false] at a4 a5
    rw [List.length_cons] at hload
    have hex : ¬ exceedsMaxLoad m.capacity m.size = true := by
      unfold exceedsMaxLoad
      simp only [decide_eq_true_eq]
      omega
    rw [if_neg hex] at a5
    obtain ⟨m2, b1, b2, b3, b4, b5⟩ := ih m1 a2 hpw1
      (by
        intro r hr
        rw [a3 r.key, if_neg (hp r hr)]
        exact hnone r (List.mem_cons_of_mem _ hr))
      (by rw [a4, a5]; omega)
    refine ⟨m2, ?_, b2, ?_, ?_, ?_⟩
    · rw [List.length_cons, List.replicate_succ]
      exact insertAll_cons_of a1 b1
    · rw [b3, a4, List.length_cons]; omega
    · rw [b4, a5]
    · intro k hk
      rw [b5 k (fun r hr => hk r (List.mem_cons_of_mem _ hr)), a3 k,
        if_neg (hk p (List.mem_cons_self _ _))]

theorem eraseAll_spec {K V : Type} {c : Caps K V} (hc : c.Lawful) (ks : List K) :
    ∀ (m : HashMap K V), Inv c m →
      ks.Pairwise (fun a b => c.key_cmp a b ≠ 1) →
      (∀ k ∈ ks, (lookup c m k).isSome = true) →
      ∃ m1, eraseAll c m ks = some (List.replicate ks.length 1, m1)
        ∧ Inv c m1
        ∧ ks.length ≤ m.size
        ∧ m1.size = m.size - ks.length
        ∧ m1.capacity = eraseCapacity m.capacity m.size ks.length := by
  induction ks with
  | nil =>
    intro m hinv _ _
    exact ⟨m, rfl, hinv, by simp, rfl, rfl⟩
  | cons k ks ih =>
    intro m hinv hpw hs
    obtain ⟨hk, hpw1⟩ := List.pairwise_cons.mp hpw
    obtain ⟨m1, a1, a2, a3, a4, a5, a6⟩ :=
      HashMapErase_spec hc hinv k (hs k (List.mem_cons_self _ _))
    obtain ⟨m2, b1, b2, b3, b4, b5⟩ := ih m1 a2 hpw1
      (by
        intro r hr
        rw [a4 r, if_neg (hk r hr)]
        exact hs r (List.mem_cons_of_mem _ hr))
    refine ⟨m2, ?_, b2, ?_, ?_, ?_⟩
    · rw [List.length_cons, List.replicate_succ]
      exact eraseAll_cons_of a1 b1
    · rw [List.length_cons]; omega
    · rw [b4, a5, List.length_cons]; omega
    · rw [b5, a5, a6, List.length_cons]
      rfl

/-- C5: from a freshly allocated map (capacity 16), in any run of 13 inserts
with pairwise distinct keys (no allocation failure) every call returns 1, the
capacity is still 16 after each of the first 12 inserts (size `n` after `n`
inserts) and is 32 after the 13th (size 13). -/
theorem C5_thirteen_inserts {K V : Type} (c : Caps K V) (hc : c.Lawful)
    (m0 : HashMap K V) (al0 : Alloc)
    (halloc : HashMapAlloc (some c.hash_func) (some c.pair_cpy) (some c.pair_cmp)
      (some c.pair_free) [] = (some m0, al0))
    (ps : List (Pair K V)) (hlen : ps.length = 13)
    (hdist : ps.Pairwise (fun a b => c.key_cmp a.key b.key ≠ 1)) :
    m0.capacity = 16
      ∧ (∀ n, n ≤ 12 → ∃ m, insertAll c m0 (ps.take n) = some (List.replicate n 1, m)
          ∧ m.size = n ∧ m.capacity = 16)
      ∧ ∃ m, insertAll c m0 ps = some (List.replicate 13 1, m)
          ∧ m.size = 13 ∧ m.capacity = 32 := by
  rw [HashMapAlloc_nil] at halloc
  simp only [Prod.mk.injEq, Option.some.injEq] at halloc
  rw [← halloc.1]
  have hfirst : ∀ n, n ≤ 12 →
      ∃ m, insertAll c ⟨List.replicate 16 ⟨16, []⟩, 0, 16⟩ (ps.take n)
            = some (List.replicate n 1, m)
        ∧ Inv c m ∧ m.size = n ∧ m.capacity = 16
        ∧ (∀ k, (∀ r ∈ ps.take n, c.key_cmp r.key k ≠ 1) → lookup c m k = none) := by
    intro n hn
    have hl : (ps.take n).length = n := by
      rw [List.length_take]; omega
    obtain ⟨m, h1, h2, h3, h4, h5⟩ :=
      insertAll_no_growth hc (ps.take n) ⟨List.replicate 16 ⟨16, []⟩, 0, 16⟩ (Inv_alloc c)
        (List.Pairwise.sublist (List.take_sublist n ps) hdist)
        (fun p _ => lookup_fresh c p.key)
        (by simp only [hl]; omega)
    rw [hl] at h1 h3
    refine ⟨m, h1, h2, by simpa using h3, h4, ?_⟩
    intro k hk
    rw [h5 k hk, lookup_fresh]
  refine ⟨rfl, ?_, ?_⟩
  · intro n hn
    obtain ⟨m, h1, _, h3, h4, _⟩ := hfirst n hn
    exact ⟨m, h1, h3, h4⟩
  · obtain ⟨m, h1, h2, h3, h4, h5⟩ := hfirst 12 (by omega)
    have hsplit : ps = ps.take 12 ++ [ps[12]] := by
      have h12 : 12 < ps.length := by omega
      have hd : ps.drop 12 = [ps[12]] := by
        rw [List.drop_eq_getElem_cons h12]
        have : ps.drop 13 = [] := List.drop_eq_nil_of_le (by omega)
        rw [this]
      rw [← hd, List.take_append_drop]
    have hcross : ∀ r ∈ ps.take 12, c.key_cmp r.key (ps[12]).key ≠ 1 := by
      have hpw := hdist
      rw [hsplit] at hpw
      have := (List.pairwise_append.mp hpw).2.2
      intro r hr
      exact this r hr ps[12] (by simp)
    have hnone : lookup c m (ps[12]).key = none := h5 _ hcross
    obtain ⟨m1, a1, a2, a3, a4, a5⟩ := HashMapInsert_spec hc h2 ps[12]
    rw [hnone] at a4 a5
    simp only [Option.isSome_none, Bool.false_eq_true, if_false] at a4 a5
    rw [h3] at a4
    rw [h3, h4] at a5
    have hone : insertAll c m [ps[12]] = some ([1], m1) :=
      insertAll_cons_of a1 rfl
    have := insertAll_append c (ps.take 12) [ps[12]] _ m m1 _ _ h1 hone
    rw [← hsplit] at this
    refine ⟨m1, this, a4, ?_⟩
    rw [a5]
    decide

/-- Witness of C5: the keys 0 to 12 inserted in a fresh `char`-to-`int` map. -/
theorem C5_thirteen_inserts_witness :
    thirteenPairs.length = 13
      ∧ thirteenPairs.Pairwise (fun a b => charIntCaps.key_cmp a.key b.key ≠ 1)
      ∧ (∃ m, insertAll charIntCaps freshMap (thirteenPairs.take 12)
            = some (List.replicate 12 1, m) ∧ m.size = 12 ∧ m.capacity = 16)
      ∧ ∃ m, insertAll charIntCaps freshMap thirteenPairs = some (List.replicate 13 1, m)
          ∧ m.size = 13 ∧ m.capacity = 32 := by
  have hl : thirteenPairs.length = 13 := by decide
  have hd : thirteenPairs.Pairwise (fun a b => charIntCaps.key_cmp a.key b.key ≠ 1) := by
    decide
  have h := C5_thirteen_inserts charIntCaps charIntCaps_lawful freshMap []
    (HashMapAlloc_nil charIntCaps) thirteenPairs hl hd
  exact ⟨hl, hd, h.2.1 12 (by decide), h.2.2⟩

theorem Reachable.of_runOps {K V : Type} {c : Caps K V} (ops : List (Op K V)) :
    ∀ (m m1 : HashMap K V) (rs : List Int), Reachable c m →
      runOps c m ops = some (rs, m1) → Reachable c m1 := by
  induction ops with
  | nil =>
    intro m m1 rs hr h
    simp only [runOps, Option.some.injEq, Prod.mk.injEq] at h
    rw [← h.2]; exact hr
  | cons op ops ih =>
    intro m m1 rs hr h
    cases op with
    | insert p =>
      unfold runOps at h
      cases h1 : HashMapInsert c m (some p) [] with
      | none => rw [h1] at h; simp at h
      | some r =>
        rw [h1] at h
        simp only at h
        cases h2 : runOps c r.2.1 ops with
        | none => rw [h2] at h; simp at h
        | some q =>
          rw [h2] at h
          simp only [Option.some.injEq, Prod.mk.injEq] at h
          have hr1 : Reachable c r.2.1 :=
            Reachable.insert m (some p) r.1 r.2.1 r.2.2 hr h1
          rw [← h.2]
          exact ih r.2.1 q.2 q.1 hr1 h2
    | erase k =>
      unfold runOps at h
      cases h1 : HashMapErase c m (some k) [] with
      | none => rw [h1] at h; simp at h
      | some r =>
        rw [h1] at h
        simp only at h
        cases h2 : runOps c r.2.1 ops with
        | none => rw [h2] at h; simp at h
        | some q =>
          rw [h2] at h
          simp only [Option.some.injEq, Prod.mk.injEq] at h
          have hr1 : Reachable c r.2.1 :=
            Reachable.erase m (some k) r.1 r.2.1 r.2.2 hr h1
          rw [← h.2]
          exact ih r.2.1 q.2 q.1 hr1 h2

theorem reachable_eightOf32 : Reachable charIntCaps eightOf32 := by
  have h1 : Reachable charIntCaps
      (mapOf (insertAll charIntCaps freshMap thirteenPairs) freshMap) :=
    Reachable.of_insertAll thirteenPairs freshMap _ (List.replicate 13 1)
      (Reachable.fresh charIntCaps) (by decide)
  exact Reachable.of_eraseAll [0, 1, 2, 3, 4] _ _ (List.replicate 5 1) h1 (by decide)

theorem reachable_topFour : Reachable charIntCaps topFour :=
  Reachable.of_insertAll [⟨12, 120⟩, ⟨13, 130⟩, ⟨14, 140⟩, ⟨15, 150⟩] freshMap _
    (List.replicate 4 1) (Reachable.fresh charIntCaps) (by decide)

theorem reachable_shrunkBucket : Reachable charIntCaps shrunkBucket :=
  Reachable.of_runOps shrunkBucketOps freshMap _ (List.replicate 12 1) (Reachable.fresh charIntCaps)
    (by decide)

/-- C6, as stated, fails: `eightOf32` is a reachable map of capacity 32
holding 8 pairs, the keys 5 to 9 are stored in it, and after erasing them the
map holds 3 pairs but its capacity is 8, not 16. -/
theorem C6_counterexample :
    Reachable charIntCaps eightOf32 ∧ eightOf32.capacity = 32 ∧ eightOf32.size = 8
      ∧ (∀ k ∈ [5, 6, 7, 8, 9], StoredKey charIntCaps eightOf32 k)
      ∧ (eraseAll charIntCaps eightOf32 [5, 6, 7, 8, 9]).map
          (fun r => (r.1, r.2.size, r.2.capacity)) = some ([1, 1, 1, 1, 1], 3, 8)
      ∧ ¬ ∃ rs m1, eraseAll charIntCaps eightOf32 [5, 6, 7, 8, 9] = some (rs, m1)
          ∧ m1.size = 3 ∧ m1.capacity = 16 := by
  have hrun : (eraseAll charIntCaps eightOf32 [5, 6, 7, 8, 9]).map
      (fun r => (r.1, r.2.size, r.2.capacity)) = some ([1, 1, 1, 1, 1], 3, 8) := by
    decide
  refine ⟨reachable_eightOf32, by decide, by decide, by decide, hrun, ?_⟩
  rintro ⟨rs, m1, h1, _, h3⟩
  rw [h1] at hrun
  simp only [Option.map_some', Option.some.injEq, Prod.mk.injEq] at hrun
  omega

/-- C6, amended: on a reachable map of capacity 32 holding 8 pairs, erasing 5
stored keys, pairwise distinct (no allocation failure), returns 1 five times
and leaves 3 pairs in a table of capacity 8: the table is halved when the
size drops to 7 and again when it drops to 3. -/
theorem C6_erase_five {K V : Type} (c : Caps K V) (hc : c.Lawful) (m : HashMap K V)
    (hr : Reachable c m) (hcap : m.capacity = 32) (hsize : m.size = 8)
    (ks : List K) (hlen : ks.length = 5)
    (hdist : ks.Pairwise (fun a b => c.key_cmp a b ≠ 1))
    (hs : ∀ k ∈ ks, StoredKey c m k) :
    ∃ m1, eraseAll c m ks = some ([1, 1, 1, 1, 1], m1) ∧ m1.size = 3 ∧ m1.capacity = 8 := by
  have hinv := hr.inv hc
  obtain ⟨m1, h1, _, _, h4, h5⟩ := eraseAll_spec hc ks m hinv hdist
    (fun k hk => (lookup_isSome_iff hc hinv.1 k).mpr (hs k hk))
  rw [hlen] at h1 h4 h5
  rw [hsize] at h4 h5
  rw [hcap] at h5
  exact ⟨m1, h1, h4, by rw [h5]; decide⟩

/-- Witness of the amended C6: the keys 5 to 9 erased from `eightOf32`. -/
theorem C6_erase_five_witness :
    eightOf32.capacity = 32 ∧ eightOf32.size = 8
      ∧ ∃ m1, eraseAll charIntCaps eightOf32 [5, 6, 7, 8, 9] = some ([1, 1, 1, 1, 1], m1)
          ∧ m1.size = 3 ∧ m1.capacity = 8 :=
  ⟨by decide, by decide,
   C6_erase_five charIntCaps charIntCaps_lawful eightOf32 reachable_eightOf32
    (by decide) (by decide) [5, 6, 7, 8, 9] (by decide) (by decide) (by decide)⟩

/-- C7: on a reachable map of capacity `c` holding `s` pairs, `HashMapErase`
of a stored key returns 1 when no allocation fails, and after every call
that returns a non-zero code, whatever the allocator does, the capacity is
`c / 2` if `(s - 1) / c < 0.25` and `c` otherwise; from capacity 16 with 4
pairs the capacity becomes 8. -/
theorem C7_erase_capacity {K V : Type} (c : Caps K V) (hc : c.Lawful) (m : HashMap K V)
    (hr : Reachable c m) (k : K) (hs : StoredKey c m k) :
    (∃ m1, HashMapErase c m (some k) [] = some (1, m1, []))
      ∧ ∀ al r m1 al1, HashMapErase c m (some k) al = some (r, m1, al1) → r ≠ 0 →
          m1.capacity = (if (m.size - 1) * 4 < m.capacity then m.capacity / 2
            else m.capacity)
          ∧ (m.capacity = 16 → m.size = 4 → m1.capacity = 8) := by
  have hinv := hr.inv hc
  have hsome := (lookup_isSome_iff hc hinv.1 k).mpr hs
  obtain ⟨m1, a1, _, _, _, _, a6⟩ := HashMapErase_spec hc hinv k hsome
  refine ⟨⟨m1, a1⟩, ?_⟩
  intro al r m2 al2 h hr0
  have h1 := HashMapErase_success c m m2 (some k) al al2 r h hr0
  rw [a1] at h1
  simp only [Option.some.injEq, Prod.mk.injEq, and_true] at h1
  rw [← h1.2]
  refine ⟨a6, ?_⟩
  intro h16 h4
  rw [a6, h16, h4]
  decide

/-- Witness of C7: the key 12 erased from `topFour` (capacity 16, 4 pairs),
the one allocation request of the rehash succeeding. -/
theorem C7_erase_capacity_witness :
    StoredKey charIntCaps topFour 12 ∧ topFour.capacity = 16 ∧ topFour.size = 4
      ∧ (mapOf ((HashMapErase charIntCaps topFour (some 12) [true]).map
            (fun r => ([r.1], r.2.1))) freshMap).capacity = 8 := by
  have h := (C7_erase_capacity charIntCaps charIntCaps_lawful topFour
    reachable_topFour 12 (by decide)).2 [true] 1
      (mapOf ((HashMapErase charIntCaps topFour (some 12) [true]).map
        (fun r => ([r.1], r.2.1))) freshMap) []
      (by decide) (by decide)
  exact ⟨by decide, by decide, by decide, h.2 (by decide) (by decide)⟩

/-- C8 fails on the code at `topFour`, a reachable map of capacity 16 whose
4 pairs are in the buckets 12 to 15.  The first round of `HashMapClear`
erases key 15; the table is rehashed into 8 buckets while the loop goes on
to index 14, so the next read `hash_map->buckets[14]` is outside the bucket
array: the behaviour is undefined, with 3 pairs still stored. -/
theorem C8_clear_reads_outside :
    Reachable charIntCaps topFour ∧ topFour.size = 4
      ∧ (∃ m1, HashMapClear.inner charIntCaps 15 1 topFour [] = some (true, m1, [])
          ∧ m1.capacity = 8 ∧ m1.buckets.length = 8 ∧ m1.size = 3
          ∧ m1.buckets[14]? = none
          ∧ StoredKey charIntCaps m1 12)
      ∧ HashMapClear charIntCaps topFour [] = none := by
  refine ⟨reachable_topFour, by decide, ?_, by decide⟩
  refine ⟨mapOf (eraseAll charIntCaps topFour [15]) freshMap, ?_⟩
  decide

theorem containsValue_inner_iff {K V : Type} (c : Caps K V) (v : V)
    (l : List (Pair K V)) :
    HashMapContainsValue.inner c v l = true ↔ ∃ p ∈ l, c.value_cmp p.value v = 1 := by
  induction l with
  | nil => simp [HashMapContainsValue.inner]
  | cons a as ih =>
    unfold HashMapContainsValue.inner
    by_cases h : c.value_cmp a.value v = 1
    · simp [h]
    · simp [h, ih]

theorem containsValue_outer_eq {K V : Type} (c : Caps K V) (m : HashMap K V) (v : V)
    (cnt : Nat) :
    ∀ i, i + cnt ≤ m.buckets.length →
      HashMapContainsValue.outer c m v cnt i =
        some (if ∃ b ∈ (m.buckets.drop i).take cnt, ∃ p ∈ b.data, c.value_cmp p.value v = 1
              then 1 else 0) := by
  induction cnt with
  | zero =>
    intro i _
    simp [HashMapContainsValue.outer]
  | succ cnt ih =>
    intro i hi
    have hlt : i < m.buckets.length := by omega
    have hget : m.buckets[i]? = some m.buckets[i] := List.getElem?_eq_getElem hlt
    have hdrop : (m.buckets.drop i).take (cnt + 1)
        = m.buckets[i] :: (m.buckets.drop (i + 1)).take cnt := by
      rw [List.drop_eq_getElem_cons hlt, List.take_succ_cons]
    unfold HashMapContainsValue.outer
    simp only [hget, hdrop]
    by_cases hin : HashMapContainsValue.inner c v m.buckets[i].data = true
    · have := (containsValue_inner_iff c v _).mp hin
      rw [if_pos hin, if_pos ⟨m.buckets[i], List.mem_cons_self _ _, this⟩]
    · rw [if_neg hin, ih (i + 1) (by omega)]
      have hno : ¬ ∃ p ∈ m.buckets[i].data, c.value_cmp p.value v = 1 :=
        fun h => hin ((containsValue_inner_iff c v _).mpr h)
      congr 1
      by_cases hrest : ∃ b ∈ (m.buckets.drop (i + 1)).take cnt,
          ∃ p ∈ b.data, c.value_cmp p.value v = 1
      · rw [if_pos hrest, if_pos]
        obtain ⟨b, hb, hp⟩ := hrest
        exact ⟨b, List.mem_cons_of_mem _ hb, hp⟩
      · rw [if_neg hrest, if_neg]
        rintro ⟨b, hb, hp⟩
        rcases List.mem_cons.mp hb with hb1 | hb1
        · subst hb1; exact hno hp
        · exact hrest ⟨b, hb1, hp⟩

/-- C9: on a reachable map, `HashMapContainsValue` of a non-null value
returns 1 when some pair of some bucket has a value that compares equal to
it under the value comparator, and 0 otherwise. -/
theorem C9_contains_value {K V : Type} (c : Caps K V) (hc : c.Lawful) (m : HashMap K V)
    (hr : Reachable c m) (v : V) :
    (StoredValue c m v → HashMapContainsValue c m (some v) = some 1)
      ∧ (¬ StoredValue c m v → HashMapContainsValue c m (some v) = some 0) := by
  have hwf := (hr.inv hc).1
  have hall : (m.buckets.drop 0).take m.capacity = m.buckets := by
    rw [List.drop_zero, ← hwf.len, List.take_length]
  have houter := containsValue_outer_eq c m v m.capacity 0 (by rw [hwf.len]; omega)
  rw [hall] at houter
  have hzero : m.size = 0 → ¬ StoredValue c m v := by
    rintro h0 ⟨b, hb, p, hp, _⟩
    obtain ⟨i, hi⟩ := List.mem_iff_getElem?.mp hb
    have := bucket_size_le hwf i b hi
    have hpos : 0 < b.size := List.length_pos_of_mem hp
    omega
  constructor
  · intro hs
    have hne : m.size ≠ 0 := fun h0 => hzero h0 hs
    unfold HashMapContainsValue
    simp only [hne, if_false, houter]
    unfold StoredValue at hs
    rw [if_pos hs]
  · intro hs
    unfold HashMapContainsValue
    by_cases h0 : m.size = 0
    · simp only [h0, if_true]
    · simp only [h0, if_false, houter]
      unfold StoredValue at hs
      rw [if_neg hs]

/-- Witness of C9: in `topFour` the value 140 is stored (with key 14, in
bucket 14) and the value 7 is not. -/
theorem C9_contains_value_witness :
    StoredValue charIntCaps topFour 140 ∧ ¬ StoredValue charIntCaps topFour 7
      ∧ HashMapContainsValue charIntCaps topFour (some 140) = some 1
      ∧ HashMapContainsValue charIntCaps topFour (some 7) = some 0 :=
  ⟨by decide, by decide,
   (C9_contains_value charIntCaps charIntCaps_lawful topFour reachable_topFour 140).1
     (by decide),
   (C9_contains_value charIntCaps charIntCaps_lawful topFour reachable_topFour 7).2
     (by decide)⟩

/-- C10 fails on the code at `shrunkBucket`, a reachable map whose bucket 0
is an empty vector of capacity 1, for the pair `(0, 7)` when the next
allocation request fails: `VectorPushBack` doubles the capacity of the
bucket before it calls `realloc`, `HashMapInsert` returns 0, and the bucket
is left with capacity 2. -/
theorem C10_failed_insert_changes_bucket :
    Reachable charIntCaps shrunkBucket
      ∧ shrunkBucket.buckets[0]? = some ⟨1, []⟩
      ∧ ∃ m1, HashMapInsert charIntCaps shrunkBucket (some ⟨0, 7⟩) [false] = some (0, m1, [])
          ∧ m1.buckets[0]? = some ⟨2, []⟩
          ∧ m1 ≠ shrunkBucket := by
  refine ⟨reachable_shrunkBucket, by decide, ?_⟩
  refine ⟨⟨shrunkBucket.buckets.set 0 ⟨2, []⟩, 4, 16⟩, ?_⟩
  decide

/-! ## Lemmas: what a call returns, whatever the allocator does -/

theorem VectorPushBack_result {α : Type} (cpy : α → α) (v v1 : Vector α) (x : Option α)
    (al al1 : Alloc) (r : Int) (h : VectorPushBack cpy v x al = (r, v1, al1)) :
    (r = 0 ∧ v1.data = v.data)
      ∨ (r = 1 ∧ ∃ a, x = some a ∧ v1.data = v.data ++ [cpy a]
          ∧ v1.capacity = (if exceedsMaxLoad v.capacity v.size then v.capacity * 2
              else v.capacity)) := by
  by_cases hr : r = 0
  · subst hr
    exact Or.inl ⟨rfl, VectorPushBack_failure cpy v v1 x al al1 h⟩
  · right
    have h1 := VectorPushBack_success cpy v v1 x al al1 r h hr
    cases x with
    | none =>
      simp only [VectorPushBack, Prod.mk.injEq] at h1
      exact absurd h1.1.symm hr
    | some a =>
      rw [VectorPushBack_nil] at h1
      simp only [Prod.mk.injEq, and_true] at h1
      obtain ⟨e1, e2⟩ := h1
      subst e1 e2
      exact ⟨rfl, a, rfl, rfl, rfl⟩

theorem VectorErase_result {α : Type} (v v1 : Vector α) (i : Nat) (hi : i < v.size)
    (al al1 : Alloc) (r : Int) (h : VectorErase v i al = some (r, v1, al1)) :
    v1.data = v.data.eraseIdx i
      ∧ v1.capacity = (if VectorLoadBelowMin (⟨v.capacity, v.data.eraseIdx i⟩ : Vector α)
          then v.capacity / 2 else v.capacity)
      ∧ (r = 1 ∨ (r = 0
          ∧ VectorLoadBelowMin (⟨v.capacity, v.data.eraseIdx i⟩ : Vector α) = true
          ∧ al.request.1 = false)) := by
  unfold VectorErase at h
  have h1 : ¬ i > sizeSubOne v.size := by
    rw [sizeSubOne_pos (by omega)]; omega
  rw [if_neg h1, if_pos hi] at h
  simp only at h
  by_cases h3 : VectorLoadBelowMin (⟨v.capacity, v.data.eraseIdx i⟩ : Vector α) = true
  · rw [if_pos h3] at h
    rw [if_pos h3]
    by_cases hq : al.request.1 = false
    · rw [if_pos hq] at h
      simp only [Option.some.injEq, Prod.mk.injEq] at h
      obtain ⟨e1, e2, _⟩ := h
      subst e1 e2
      exact ⟨rfl, rfl, Or.inr ⟨rfl, h3, hq⟩⟩
    · rw [if_neg hq] at h
      simp only [Option.some.injEq, Prod.mk.injEq] at h
      obtain ⟨e1, e2, _⟩ := h
      subst e1 e2
      exact ⟨rfl, rfl, Or.inl rfl⟩
  · rw [if_neg h3] at h
    rw [if_neg h3]
    simp only [Option.some.injEq, Prod.mk.injEq] at h
    obtain ⟨e1, e2, _⟩ := h
    subst e1 e2
    exact ⟨rfl, rfl, Or.inl rfl⟩

theorem InitBuckets_result {α : Type} (f : α → α) (g : α → α → Int) (u : α → Unit)
    (n : Nat) (al al1 : Alloc) (t : List (Vector α))
    (h : InitBuckets n (some f) (some g) (some u) al = (some t, al1)) :
    t = List.replicate n ⟨16, []⟩ := by
  have h1 := InitBuckets_success (some f) (some g) (some u) n al al1 t h
  rw [InitBuckets_nil] at h1
  simp only [Prod.mk.injEq, Option.some.injEq, and_true] at h1
  exact h1.symm

theorem ReHashing_inner_count {K V : Type} (c : Caps K V) (n : Nat)
    (ps : List (Pair K V)) :
    ∀ (temp t : List (Vector (Pair K V))) (al1 : Alloc),
      ReHashing.inner c n ps temp [] = some (some t, al1) →
      t.length = temp.length
        ∧ (t.map Vector.size).sum = (temp.map Vector.size).sum + ps.length := by
  induction ps with
  | nil =>
    intro temp t al1 h
    simp only [ReHashing.inner, Option.some.injEq, Prod.mk.injEq] at h
    obtain ⟨e1, _⟩ := h
    subst e1
    exact ⟨rfl, by simp⟩
  | cons p ps ih =>
    intro temp t al1 h
    unfold ReHashing.inner at h
    simp only at h
    cases hb : temp[HASH c.hash_func p.key n]? with
    | none => rw [hb] at h; simp at h
    | some b =>
      rw [hb] at h
      simp only [VectorPushBack_nil] at h
      rw [if_neg (by decide)] at h
      obtain ⟨hlt, hbe⟩ := List.getElem?_eq_some.mp hb
      obtain ⟨a1, a2⟩ := ih _ t al1 h
      refine ⟨by rw [a1, List.length_set], ?_⟩
      rw [a2]
      have key := set_sum Vector.size temp (HASH c.hash_func p.key n)
        ⟨if exceedsMaxLoad b.capacity b.size then b.capacity * 2 else b.capacity,
          b.data ++ [c.pair_cpy p]⟩ hlt
      rw [hbe] at key
      have e1 : Vector.size (⟨if exceedsMaxLoad b.capacity b.size then b.capacity * 2
          else b.capacity, b.data ++ [c.pair_cpy p]⟩ : Vector (Pair K V))
          = b.size + 1 := by simp [Vector.size]
      rw [e1] at key
      rw [List.length_cons]
      omega

theorem ReHashing_outer_count {K V : Type} (c : Caps K V) (m : HashMap K V) (n : Nat)
    (cnt : Nat) :
    ∀ (i : Nat) (temp t : List (Vector (Pair K V))) (al1 : Alloc),
      ReHashing.outer c m n cnt i temp [] = some (some t, al1) →
      t.length = temp.length
        ∧ (t.map Vector.size).sum = (temp.map Vector.size).sum
            + (((m.buckets.drop i).take cnt).map Vector.size).sum := by
  induction cnt with
  | zero =>
    intro i temp t al1 h
    simp only [ReHashing.outer, Option.some.injEq, Prod.mk.injEq] at h
    obtain ⟨e1, _⟩ := h
    subst e1
    exact ⟨rfl, by simp⟩
  | succ cnt ih =>
    intro i temp t al1 h
    unfold ReHashing.outer at h
    cases hb : m.buckets[i]? with
    | none => rw [hb] at h; simp at h
    | some b =>
      rw [hb] at h
      simp only at h
      obtain ⟨hlt, hbe⟩ := List.getElem?_eq_some.mp hb
      cases hin : ReHashing.inner c n b.data temp [] with
      | none => rw [hin] at h; simp at h
      | some res =>
        cases res with
        | mk ot al2 =>
          rw [hin] at h
          cases ot with
          | none => simp at h
          | some t1 =>
            simp only at h
            have hal2 : ReHashing.inner c n b.data temp [] = some (some t1, []) :=
              ReHashing_inner_success c n b.data temp t1 [] al2 hin
            rw [hin] at hal2
            simp only [Option.some.injEq, Prod.mk.injEq, true_and] at hal2
            subst hal2
            obtain ⟨a1, a2⟩ := ReHashing_inner_count c n b.data temp t1 [] hin
            obtain ⟨b1, b2⟩ := ih (i + 1) t1 t al1 h
            have hdrop : (m.buckets.drop i).take (cnt + 1)
                = b :: (m.buckets.drop (i + 1)).take cnt := by
              rw [List.drop_eq_getElem_cons hlt, List.take_succ_cons, hbe]
            refine ⟨by rw [b1, a1], ?_⟩
            rw [b2, a2, hdrop]
            simp only [List.map_cons, List.sum_cons, Vector.size]
            omega

theorem ReHashing_count {K V : Type} (c : Caps K V) (m : HashMap K V)
    (hlen : m.buckets.length = m.capacity) (n : Nat)
    (t : List (Vector (Pair K V))) (al al1 : Alloc)
    (h : ReHashing c m n al = some (some t, al1)) :
    t.length = n ∧ (t.map Vector.size).sum = (m.buckets.map Vector.size).sum := by
  have h0 := ReHashing_success c m n t al al1 h
  unfold ReHashing at h0
  rw [InitBuckets_nil] at h0
  simp only at h0
  obtain ⟨a1, a2⟩ := ReHashing_outer_count c m n m.capacity 0 _ t [] h0
  have hall : (m.buckets.drop 0).take m.capacity = m.buckets := by
    rw [List.drop_zero, ← hlen, List.take_length]
  rw [hall] at a2
  refine ⟨by rw [a1, List.length_replicate], ?_⟩
  rw [a2]
  have : ((List.replicate n (⟨16, []⟩ : Vector (Pair K V))).map Vector.size).sum = 0 := by
    simp [Vector.size]
  omega

theorem sizes_eq_of_data_eq {α : Type} (l1 l2 : List (Vector α))
    (h : l1.map Vector.data = l2.map Vector.data) :
    l1.length = l2.length ∧ (l1.map Vector.size).sum = (l2.map Vector.size).sum := by
  constructor
  · have := congrArg List.length h
    simpa using this
  · have e : ∀ l : List (Vector α),
        l.map Vector.size = (l.map Vector.data).map List.length := by
      intro l; rw [List.map_map]; rfl
    rw [e l1, e l2, h]

theorem Shape.capacity_pos {K V : Type} {m : HashMap K V} (h : Shape m) : 0 < m.capacity := by
  obtain ⟨e, he⟩ := h.pow
  rw [he]; exact Nat.pos_pow_of_pos e (by decide)

theorem IncreaseTable_result {K V : Type} (c : Caps K V) (m m1 : HashMap K V)
    (hlen : m.buckets.length = m.capacity) (n : Nat)
    (p : Pair K V) (al al1 : Alloc) (r : Int)
    (h : IncreaseTable c m n p al = some (r, m1, al1)) (hr : r ≠ 0) :
    r = 1 ∧ m1.size = m.size ∧ m1.capacity = n ∧ m1.buckets.length = n
      ∧ (m1.buckets.map Vector.size).sum = (m.buckets.map Vector.size).sum + 1 := by
  unfold IncreaseTable at h
  cases hre : ReHashing c m n al with
  | none => rw [hre] at h; simp at h
  | some res =>
    cases res with
    | mk ot al2 =>
      rw [hre] at h
      cases ot with
      | none =>
        simp only [Option.some.injEq, Prod.mk.injEq] at h
        exact absurd h.1.symm hr
      | some t =>
        obtain ⟨t1, t2⟩ := ReHashing_count c m hlen n t al al2 hre
        simp only at h
        cases hb : t[HASH c.hash_func p.key n]? with
        | none => rw [hb] at h; simp at h
        | some b =>
          rw [hb] at h
          simp only at h
          obtain ⟨hlt, hbe⟩ := List.getElem?_eq_some.mp hb
          cases hp : VectorPushBack c.pair_cpy b (some p) al2 with
          | mk r1 rest =>
            cases rest with
            | mk b1 al3 =>
              rw [hp] at h
              simp only at h
              rcases VectorPushBack_result c.pair_cpy b b1 (some p) al2 al3 r1 hp with
                ⟨hr0, _⟩ | ⟨hr1, a, _, hd, _⟩
              · rw [if_pos hr0] at h
                simp only [Option.some.injEq, Prod.mk.injEq] at h
                exact absurd h.1.symm hr
              · rw [if_neg (by rw [hr1]; decide)] at h
                simp only [Option.some.injEq, Prod.mk.injEq] at h
                obtain ⟨e1, e2, _⟩ := h
                subst e1 e2
                refine ⟨rfl, rfl, rfl, by simp [t1], ?_⟩
                simp only
                have key := set_sum Vector.size t (HASH c.hash_func p.key n) b1 hlt
                rw [hbe] at key
                have e3 : b1.size = b.size + 1 := by
                  simp [Vector.size, hd]
                omega

theorem DecreaseTable_result {K V : Type} (c : Caps K V) (m m1 : HashMap K V)
    (hlen : m.buckets.length = m.capacity) (n : Nat) (al al1 : Alloc) (r : Int)
    (h : DecreaseTable c m n al = some (r, m1, al1)) :
    (m1 = m ∧ (r = 0 ∨ (r = 1 ∧ HashMapLoadAtLeastMin m = true)))
      ∨ (r = 1 ∧ HashMapLoadAtLeastMin m = false ∧ m1.size = m.size ∧ m1.capacity = n
          ∧ m1.buckets.length = n
          ∧ (m1.buckets.map Vector.size).sum = (m.buckets.map Vector.size).sum) := by
  unfold DecreaseTable at h
  by_cases hl : HashMapLoadAtLeastMin m = true
  · rw [if_pos hl] at h
    simp only [Option.some.injEq, Prod.mk.injEq] at h
    obtain ⟨e1, e2, _⟩ := h
    subst e1 e2
    exact Or.inl ⟨rfl, Or.inr ⟨rfl, hl⟩⟩
  · rw [if_neg hl] at h
    cases hre : ReHashing c m n al with
    | none => rw [hre] at h; simp at h
    | some res =>
      cases res with
      | mk ot al2 =>
        rw [hre] at h
        cases ot with
        | none =>
          simp only [Option.some.injEq, Prod.mk.injEq] at h
          obtain ⟨e1, e2, _⟩ := h
          subst e1 e2
          exact Or.inl ⟨rfl, Or.inl rfl⟩
        | some t =>
          obtain ⟨t1, t2⟩ := ReHashing_count c m hlen n t al al2 hre
          simp only [Option.some.injEq, Prod.mk.injEq] at h
          obtain ⟨e1, e2, _⟩ := h
          subst e1 e2
          exact Or.inr ⟨rfl, by simpa using hl, rfl, rfl, t1, t2⟩

/-- The effect of `HashMapInsert` on the shape of a map, whatever the
arguments, the capability functions and the allocator. -/
theorem HashMapInsert_shape {K V : Type} (c : Caps K V) (m m1 : HashMap K V)
    (hs : Shape m) (pair : Option (Pair K V)) (al al1 : Alloc) (r : Int)
    (h : HashMapInsert c m pair al = some (r, m1, al1)) :
    Shape m1
      ∧ (r = 0 ∨ r = 1)
      ∧ (r = 0 → m1.size = m.size ∧ m1.capacity = m.capacity)
      ∧ (r ≠ 0 → (m1.size = m.size ∧ m1.capacity = m.capacity)
          ∨ (m1.size = m.size + 1
              ∧ m1.capacity = (if exceedsMaxLoad m.capacity m.size then m.capacity * 2
                  else m.capacity))) := by
  by_cases hr : r = 0
  · subst hr
    obtain ⟨f1, f2, f3, _⟩ := HashMapInsert_failure c m m1 pair al al1 h
    obtain ⟨g1, g2⟩ := sizes_eq_of_data_eq _ _ f3
    refine ⟨⟨by rw [g1, f2]; exact hs.len, by rw [f2]; exact hs.pow,
      by rw [g2, f1]; exact hs.sum_le, by rw [f1, f2]; exact hs.load⟩,
      Or.inl rfl, fun _ => ⟨f1, f2⟩, fun h0 => absurd rfl h0⟩
  · have hpos := hs.capacity_pos
    cases pair with
    | none =>
      simp only [HashMapInsert, Option.some.injEq, Prod.mk.injEq] at h
      exact absurd h.1.symm hr
    | some p =>
      unfold HashMapInsert at h
      simp only at h
      cases hb : m.buckets[HASH c.hash_func p.key m.capacity]? with
      | none => rw [hb] at h; simp at h
      | some b =>
        rw [hb] at h
        simp only at h
        obtain ⟨hlt, hbe⟩ := List.getElem?_eq_some.mp hb
        by_cases hi : GetPairIndexByKey c b (some p.key) ≠ -1
        · rw [if_pos hi] at h
          simp only [Option.some.injEq, Prod.mk.injEq] at h
          obtain ⟨e1, e2, _⟩ := h
          subst e1 e2
          have key := set_sum Vector.size m.buckets (HASH c.hash_func p.key m.capacity)
            ⟨b.capacity, b.data.set (GetPairIndexByKey c b (some p.key)).toNat
              (c.pair_cpy p)⟩ hlt
          rw [hbe] at key
          have e3 : Vector.size (⟨b.capacity,
              b.data.set (GetPairIndexByKey c b (some p.key)).toNat (c.pair_cpy p)⟩ :
                Vector (Pair K V)) = b.size := by
            simp [Vector.size]
          rw [e3] at key
          have hsum := hs.sum_le
          refine ⟨⟨by simp [hs.len], hs.pow, ?_, hs.load⟩, Or.inr rfl,
            fun h0 => absurd h0 (by decide), fun _ => Or.inl ⟨rfl, rfl⟩⟩
          simp only
          omega
        · rw [if_neg hi] at h
          by_cases hex : exceedsMaxLoad m.capacity m.size = true
          · rw [if_pos hex] at h
            cases hinc : IncreaseTable c m (m.capacity * HASH_MAP_GROWTH_FACTOR) p al with
            | none => rw [hinc] at h; simp at h
            | some res =>
              cases res with
              | mk r1 rest =>
                cases rest with
                | mk m2 al2 =>
                  rw [hinc] at h
                  simp only at h
                  by_cases hr1 : r1 = 0
                  · rw [if_pos hr1] at h
                    simp only [Option.some.injEq, Prod.mk.injEq] at h
                    exact absurd h.1.symm hr
                  · rw [if_neg hr1] at h
                    simp only [Option.some.injEq, Prod.mk.injEq] at h
                    obtain ⟨e1, e2, _⟩ := h
                    subst e1 e2
                    obtain ⟨_, i2, i3, i4, i5⟩ :=
                      IncreaseTable_result c m m2 hs.len _ p al al2 r1 hinc hr1
                    obtain ⟨e, he⟩ := hs.pow
                    have hsum := hs.sum_le
                    have hload := hs.load
                    simp only [HASH_MAP_GROWTH_FACTOR] at i3 i4
                    refine ⟨⟨by simp only; rw [i4, i3],
                      ⟨e + 1, by simp only; rw [i3, he, pow_succ]⟩,
                      by simp only; omega, by simp only; omega⟩, Or.inr rfl,
                      fun h0 => absurd h0 (by decide), fun _ => Or.inr ⟨?_, ?_⟩⟩
                    · simp only; omega
                    · simp only; rw [if_pos hex, i3]
          · rw [if_neg hex] at h
            cases hp : VectorPushBack c.pair_cpy b (some p) al with
            | mk r1 rest =>
              cases rest with
              | mk b1 al2 =>
                rw [hp] at h
                simp only at h
                rcases VectorPushBack_result c.pair_cpy b b1 (some p) al al2 r1 hp with
                  ⟨hr0, _⟩ | ⟨hr1, a, _, hd, _⟩
                · rw [if_pos hr0] at h
                  simp only [Option.some.injEq, Prod.mk.injEq] at h
                  exact absurd h.1.symm hr
                · rw [if_neg (by rw [hr1]; decide)] at h
                  simp only [Option.some.injEq, Prod.mk.injEq] at h
                  obtain ⟨e1, e2, _⟩ := h
                  subst e1 e2
                  have key := set_sum Vector.size m.buckets
                    (HASH c.hash_func p.key m.capacity) b1 hlt
                  rw [hbe] at key
                  have e3 : b1.size = b.size + 1 := by simp [Vector.size, hd]
                  have hsum := hs.sum_le
                  have hload := hs.load
                  have hex1 : ¬ m.capacity * 3 < (m.size + 1) * 4 := by
                    unfold exceedsMaxLoad at hex
                    simpa using hex
                  refine ⟨⟨by simp [hs.len], hs.pow, by simp only; omega,
                    by simp only; omega⟩, Or.inr rfl,
                    fun h0 => absurd h0 (by decide), fun _ => Or.inr ⟨rfl, ?_⟩⟩
                  simp only
                  rw [if_neg hex]

theorem GetPairIndexByKey_found {K V : Type} (c : Caps K V) (b : Vector (Pair K V))
    (k : K) (h : GetPairIndexByKey c b (some k) ≠ -1) :
    (GetPairIndexByKey c b (some k)).toNat < b.size := by
  rw [GetPairIndexByKey_eq] at h ⊢
  by_cases hlt : b.data.findIdx (keyTest c k) < b.data.length
  · rw [if_pos hlt, Int.toNat_ofNat]
    exact hlt
  · rw [if_neg hlt] at h
    exact absurd rfl h

/-- The effect of `HashMapErase` on the shape of a map, whatever the
arguments, the capability functions and the allocator. -/
theorem HashMapErase_shape {K V : Type} (c : Caps K V) (m m1 : HashMap K V)
    (hs : Shape m) (key : Option K) (al al1 : Alloc) (r : Int)
    (h : HashMapErase c m key al = some (r, m1, al1)) :
    Shape m1
      ∧ (r = 0 ∨ r = 1)
      ∧ (r ≠ 0 → 1 ≤ m.size ∧ m1.size = m.size - 1
          ∧ m1.capacity = (if (m.size - 1) * 4 < m.capacity then m.capacity / 2
              else m.capacity)) := by
  have hpos := hs.capacity_pos
  cases key with
  | none =>
    simp only [HashMapErase, Option.some.injEq, Prod.mk.injEq] at h
    obtain ⟨e1, e2, _⟩ := h
    subst e1 e2
    exact ⟨hs, Or.inl rfl, fun h0 => absurd rfl h0⟩
  | some k =>
    unfold HashMapErase at h
    simp only at h
    cases hck : HashMapContainsKey c m (some k) with
    | none => rw [hck] at h; simp at h
    | some found =>
      rw [hck] at h
      simp only at h
      by_cases hf : found = 0
      · rw [if_pos hf] at h
        simp only [Option.some.injEq, Prod.mk.injEq] at h
        obtain ⟨e1, e2, _⟩ := h
        subst e1 e2
        exact ⟨hs, Or.inl rfl, fun h0 => absurd rfl h0⟩
      · rw [if_neg hf] at h
        cases hb : m.buckets[HASH c.hash_func k m.capacity]? with
        | none => rw [hb] at h; simp at h
        | some b =>
          rw [hb] at h
          simp only at h
          obtain ⟨hlt, hbe⟩ := List.getElem?_eq_some.mp hb
          by_cases hi : GetPairIndexByKey c b (some k) = -1
          · rw [if_pos hi] at h
            simp only [Option.some.injEq, Prod.mk.injEq] at h
            obtain ⟨e1, e2, _⟩ := h
            subst e1 e2
            exact ⟨hs, Or.inl rfl, fun h0 => absurd rfl h0⟩
          · rw [if_neg hi] at h
            have hidx := GetPairIndexByKey_found c b k hi
            cases hve : VectorErase b (GetPairIndexByKey c b (some k)).toNat al with
            | none => rw [hve] at h; simp at h
            | some res =>
              cases res with
              | mk r1 rest =>
                cases rest with
                | mk b1 al2 =>
                  rw [hve] at h
                  simp only at h
                  obtain ⟨v1, _, v3⟩ := VectorErase_result b b1 _ hidx al al2 r1 hve
                  have hb1 : b1.size + 1 = b.size := by
                    unfold Vector.size at hidx ⊢
                    rw [v1, List.length_eraseIdx, if_pos hidx]
                    omega
                  have key := set_sum Vector.size m.buckets
                    (HASH c.hash_func k m.capacity) b1 hlt
                  rw [hbe] at key
                  have hsum := hs.sum_le
                  have hload := hs.load
                  by_cases hr1 : r1 = 0
                  · rw [if_pos hr1] at h
                    simp only [Option.some.injEq, Prod.mk.injEq] at h
                    obtain ⟨e1, e2, _⟩ := h
                    subst e1 e2
                    refine ⟨⟨by simp [hs.len], hs.pow, by simp only; omega, hload⟩,
                      Or.inl rfl, fun h0 => absurd rfl h0⟩
                  · rw [if_neg hr1] at h
                    have hsz : 1 ≤ m.size := by omega
                    rw [sizeSubOne_pos hsz] at h
                    have hs1 : Shape (⟨m.buckets.set (HASH c.hash_func k m.capacity) b1,
                        m.size - 1, m.capacity⟩ : HashMap K V) :=
                      ⟨by simp [hs.len], hs.pow, by simp only; omega, by simp only; omega⟩
                    rcases DecreaseTable_result c _ m1 hs1.len _ al2 al1 r h with
                      ⟨e1, hcode⟩ | ⟨e1, hmin, d1, d2, d3, d4⟩
                    · subst e1
                      refine ⟨hs1, ?_, ?_⟩
                      · rcases hcode with h0 | ⟨h1, _⟩
                        · exact Or.inl h0
                        · exact Or.inr h1
                      · intro hr0
                        rcases hcode with h0 | ⟨_, hmin⟩
                        · exact absurd h0 hr0
                        · refine ⟨hsz, rfl, ?_⟩
                          simp only
                          unfold HashMapLoadAtLeastMin at hmin
                          simp only at hmin
                          rw [if_neg (by omega)] at hmin
                          have : m.capacity ≤ (m.size - 1) * 4 := by simpa using hmin
                          rw [if_neg (by omega)]
                    · subst e1
                      unfold HashMapLoadAtLeastMin at hmin
                      simp only at hmin d1 d2 d4
                      rw [if_neg (by omega)] at hmin
                      have hlt4 : (m.size - 1) * 4 < m.capacity := by simpa using hmin
                      obtain ⟨e, he⟩ := hs.pow
                      have he1 : 1 ≤ e := by
                        rcases Nat.eq_zero_or_pos e with h0 | h0
                        · rw [h0] at he
                          simp only [pow_zero] at he
                          omega
                        · exact h0
                      have hhalf : m.capacity / HASH_MAP_GROWTH_FACTOR = 2 ^ (e - 1) := by
                        rw [he]
                        obtain ⟨e2, rfl⟩ : ∃ e2, e = e2 + 1 := ⟨e - 1, by omega⟩
                        rw [pow_succ]
                        simp [HASH_MAP_GROWTH_FACTOR]
                      have hdouble : m.capacity = 2 * 2 ^ (e - 1) := by
                        rw [he]
                        obtain ⟨e2, rfl⟩ : ∃ e2, e = e2 + 1 := ⟨e - 1, by omega⟩
                        rw [pow_succ]
                        simp [Nat.mul_comm]
                      refine ⟨⟨by rw [d3, d2], ⟨e - 1, by rw [d2, hhalf]⟩,
                        by rw [d4, d1]; omega, ?_⟩, Or.inr rfl, ?_⟩
                      · rw [d1, d2, hhalf]
                        omega
                      · intro _
                        refine ⟨hsz, d1, ?_⟩
                        rw [d2, if_pos hlt4]
                        rfl

theorem Shape_fresh {K V : Type} :
    Shape (⟨List.replicate 16 ⟨16, []⟩, 0, 16⟩ : HashMap K V) :=
  ⟨by simp, ⟨4, by norm_num⟩, by simp [Vector.size], by norm_num⟩

theorem HashMapAlloc_result {K V : Type} (c : Caps K V) (al al1 : Alloc)
    (m : HashMap K V)
    (h : HashMapAlloc (some c.hash_func) (some c.pair_cpy) (some c.pair_cmp)
      (some c.pair_free) al = (some m, al1)) :
    m = ⟨List.replicate 16 ⟨16, []⟩, 0, 16⟩ := by
  unfold HashMapAlloc at h
  simp only [Option.isNone_some, Bool.or_self, Bool.false_eq_true, if_false] at h
  by_cases hq : al.request.1 = false
  · rw [if_pos hq] at h
    simp at h
  · rw [if_neg hq] at h
    cases hi : InitBuckets HASH_MAP_INITIAL_CAP (some c.pair_cpy) (some c.pair_cmp)
        (some c.pair_free) al.request.2 with
    | mk ot al2 =>
      rw [hi] at h
      cases ot with
      | none => simp at h
      | some t =>
        have := InitBuckets_result _ _ _ _ _ _ t hi
        simp only [Prod.mk.injEq, Option.some.injEq] at h
        rw [← h.1, this]
        rfl

/-- Every map reachable under any allocator has the shape invariant. -/
theorem ReachableAny.shape {K V : Type} {c : Caps K V} {m : HashMap K V}
    (h : ReachableAny c m) : Shape m := by
  induction h with
  | alloc m al0 al h =>
    rw [HashMapAlloc_result c al0 al m h]
    exact Shape_fresh
  | insert m pair al0 r m1 al _ hstep ih =>
    exact (HashMapInsert_shape c m m1 ih pair al0 al r hstep).1
  | erase m key al0 r m1 al _ hstep ih =>
    exact (HashMapErase_shape c m m1 ih key al0 al r hstep).1

theorem ReachableOk.toAny {K V : Type} {c : Caps K V} {m : HashMap K V}
    (h : ReachableOk c m) : ReachableAny c m := by
  induction h with
  | alloc m al0 al h => exact ReachableAny.alloc m al0 al h
  | insert m pair al0 r m1 al _ hstep _ ih =>
    exact ReachableAny.insert m pair al0 r m1 al ih hstep
  | erase m key al0 r m1 al _ hstep _ ih =>
    exact ReachableAny.erase m key al0 r m1 al ih hstep

theorem Reachable.anyAlloc {K V : Type} {c : Caps K V} {m : HashMap K V}
    (h : Reachable c m) : ReachableAny c m := by
  induction h with
  | alloc m al h => exact ReachableAny.alloc m [] al h
  | insert m pair r m1 al _ hstep ih =>
    exact ReachableAny.insert m pair [] r m1 al ih hstep
  | erase m key r m1 al _ hstep ih =>
    exact ReachableAny.erase m key [] r m1 al ih hstep

theorem ReachableOk.reachable {K V : Type} {c : Caps K V} {m : HashMap K V}
    (h : ReachableOk c m) : Reachable c m := by
  induction h with
  | alloc m al0 al h =>
    rw [HashMapAlloc_result c al0 al m h]
    exact Reachable.fresh c
  | insert m pair al0 r m1 al _ hstep hr ih =>
    exact Reachable.insert m pair r m1 [] ih
      (HashMapInsert_success c m m1 pair al0 al r hstep hr)
  | erase m key al0 r m1 al _ hstep hr ih =>
    exact Reachable.erase m key r m1 [] ih
      (HashMapErase_success c m m1 key al0 al r hstep hr)

/-! ## The claims on the invariants of the map -/

theorem ReachableOk.runOps_ok {K V : Type} {c : Caps K V} (ops : List (Op K V)) :
    ∀ (m m1 : HashMap K V) (rs : List Int), ReachableOk c m →
      runOps c m ops = some (rs, m1) → (∀ r ∈ rs, r ≠ 0) → ReachableOk c m1 := by
  induction ops with
  | nil =>
    intro m m1 rs hr h _
    simp only [runOps, Option.some.injEq, Prod.mk.injEq] at h
    rw [← h.2]; exact hr
  | cons op ops ih =>
    intro m m1 rs hr h hrs
    cases op with
    | insert p =>
      unfold runOps at h
      cases h1 : HashMapInsert c m (some p) [] with
      | none => rw [h1] at h; simp at h
      | some r =>
        rw [h1] at h
        simp only at h
        cases h2 : runOps c r.2.1 ops with
        | none => rw [h2] at h; simp at h
        | some q =>
          rw [h2] at h
          simp only [Option.some.injEq, Prod.mk.injEq] at h
          obtain ⟨e1, e2⟩ := h
          subst e1 e2
          have hr1 : ReachableOk c r.2.1 :=
            ReachableOk.insert m (some p) [] r.1 r.2.1 r.2.2 hr h1
              (hrs r.1 (List.mem_cons_self _ _))
          exact ih r.2.1 q.2 q.1 hr1 h2 (fun x hx => hrs x (List.mem_cons_of_mem _ hx))
    | erase k =>
      unfold runOps at h
      cases h1 : HashMapErase c m (some k) [] with
      | none => rw [h1] at h; simp at h
      | some r =>
        rw [h1] at h
        simp only at h
        cases h2 : runOps c r.2.1 ops with
        | none => rw [h2] at h; simp at h
        | some q =>
          rw [h2] at h
          simp only [Option.some.injEq, Prod.mk.injEq] at h
          obtain ⟨e1, e2⟩ := h
          subst e1 e2
          have hr1 : ReachableOk c r.2.1 :=
            ReachableOk.erase m (some k) [] r.1 r.2.1 r.2.2 hr h1
              (hrs r.1 (List.mem_cons_self _ _))
          exact ih r.2.1 q.2 q.1 hr1 h2 (fun x hx => hrs x (List.mem_cons_of_mem _ hx))

theorem ReachableOk.insertAll_ok {K V : Type} {c : Caps K V} (ps : List (Pair K V)) :
    ∀ (m m1 : HashMap K V) (rs : List Int), ReachableOk c m →
      insertAll c m ps = some (rs, m1) → (∀ r ∈ rs, r ≠ 0) → ReachableOk c m1 := by
  induction ps with
  | nil =>
    intro m m1 rs hr h _
    simp only [insertAll, Option.some.injEq, Prod.mk.injEq] at h
    rw [← h.2]; exact hr
  | cons p ps ih =>
    intro m m1 rs hr h hrs
    unfold insertAll at h
    cases h1 : HashMapInsert c m (some p) [] with
    | none => rw [h1] at h; simp at h
    | some r =>
      rw [h1] at h
      simp only at h
      cases h2 : insertAll c r.2.1 ps with
      | none => rw [h2] at h; simp at h
      | some q =>
        rw [h2] at h
        simp only [Option.some.injEq, Prod.mk.injEq] at h
        obtain ⟨e1, e2⟩ := h
        subst e1 e2
        have hr1 : ReachableOk c r.2.1 :=
          ReachableOk.insert m (some p) [] r.1 r.2.1 r.2.2 hr h1
            (hrs r.1 (List.mem_cons_self _ _))
        exact ih r.2.1 q.2 q.1 hr1 h2 (fun x hx => hrs x (List.mem_cons_of_mem _ hx))

theorem ReachableOk.eraseAll_ok {K V : Type} {c : Caps K V} (ks : List K) :
    ∀ (m m1 : HashMap K V) (rs : List Int), ReachableOk c m →
      eraseAll c m ks = some (rs, m1) → (∀ r ∈ rs, r ≠ 0) → ReachableOk c m1 := by
  induction ks with
  | nil =>
    intro m m1 rs hr h _
    simp only [eraseAll, Option.some.injEq, Prod.mk.injEq] at h
    rw [← h.2]; exact hr
  | cons k ks ih =>
    intro m m1 rs hr h hrs
    unfold eraseAll at h
    cases h1 : HashMapErase c m (some k) [] with
    | none => rw [h1] at h; simp at h
    | some r =>
      rw [h1] at h
      simp only at h
      cases h2 : eraseAll c r.2.1 ks with
      | none => rw [h2] at h; simp at h
      | some q =>
        rw [h2] at h
        simp only [Option.some.injEq, Prod.mk.injEq] at h
        obtain ⟨e1, e2⟩ := h
        subst e1 e2
        have hr1 : ReachableOk c r.2.1 :=
          ReachableOk.erase m (some k) [] r.1 r.2.1 r.2.2 hr h1
            (hrs r.1 (List.mem_cons_self _ _))
        exact ih r.2.1 q.2 q.1 hr1 h2 (fun x hx => hrs x (List.mem_cons_of_mem _ hx))

theorem ReachableOk.freshOk {K V : Type} (c : Caps K V) :
    ReachableOk c ⟨List.replicate 16 ⟨16, []⟩, 0, 16⟩ :=
  ReachableOk.alloc _ [] [] (HashMapAlloc_nil c)

theorem reachableOk_twelveOf16 : ReachableOk charIntCaps twelveOf16 :=
  ReachableOk.insertAll_ok (thirteenPairs.take 12) freshMap _ (List.replicate 12 1)
    (ReachableOk.freshOk charIntCaps) (by decide) (by decide)

theorem reachableOk_eightOf32 : ReachableOk charIntCaps eightOf32 := by
  have h1 : ReachableOk charIntCaps
      (mapOf (insertAll charIntCaps freshMap thirteenPairs) freshMap) :=
    ReachableOk.insertAll_ok thirteenPairs freshMap _ (List.replicate 13 1)
      (ReachableOk.freshOk charIntCaps) (by decide) (by decide)
  exact ReachableOk.eraseAll_ok [0, 1, 2, 3, 4] _ _ (List.replicate 5 1) h1 (by decide)
    (by decide)

theorem reachableOk_emptiedMap : ReachableOk charIntCaps emptiedMap :=
  ReachableOk.runOps_ok [Op.insert ⟨1, 10⟩, Op.erase 1] freshMap _ [1, 1]
    (ReachableOk.freshOk charIntCaps) (by decide) (by decide)

theorem reachableAny_topFourFailedErase : ReachableAny charIntCaps topFourFailedErase :=
  ReachableAny.erase topFour (some 12) [false] 0 _ [] reachable_topFour.anyAlloc (by decide)

/-- C11: in every map reachable from `HashMapAlloc` by any calls of
`HashMapInsert` and `HashMapErase`, with any capability functions, whatever
the allocator does and whatever the calls return, the capacity is a power of
two and equals the number of buckets, and for every key the index
`hash(key) & (capacity-1)` is below the capacity. -/
theorem C11_capacity_power_of_two {K V : Type} (c : Caps K V) (m : HashMap K V)
    (hr : ReachableAny c m) :
    (∃ e : Nat, m.capacity = 2 ^ e) ∧ m.buckets.length = m.capacity
      ∧ ∀ k : K, HASH c.hash_func k m.capacity < m.capacity :=
  ⟨hr.shape.pow, hr.shape.len, fun k => HASH_lt c.hash_func k hr.shape.capacity_pos⟩

/-- Witness of C11: the map `topFourFailedErase`, reached through a call of
`HashMapErase` in which the allocator fails. -/
theorem C11_capacity_power_of_two_witness :
    ReachableAny charIntCaps topFourFailedErase
      ∧ (∃ e : Nat, topFourFailedErase.capacity = 2 ^ e)
      ∧ topFourFailedErase.buckets.length = topFourFailedErase.capacity
      ∧ ∀ k : Int, HASH charIntCaps.hash_func k topFourFailedErase.capacity
          < topFourFailedErase.capacity :=
  ⟨reachableAny_topFourFailedErase,
   C11_capacity_power_of_two charIntCaps topFourFailedErase reachableAny_topFourFailedErase⟩

/-- C12: in every map reachable from `HashMapAlloc` by successful calls of
`HashMapInsert` and `HashMapErase`, the load factor is at most `0.75`:
`4 * size <= 3 * capacity`. -/
theorem C12_max_load {K V : Type} (c : Caps K V) (m : HashMap K V)
    (hr : ReachableOk c m) : 4 * m.size ≤ 3 * m.capacity := by
  have := hr.toAny.shape.load
  omega

/-- Witness of C12: `twelveOf16`, twelve pairs in sixteen buckets, where the
bound is attained. -/
theorem C12_max_load_witness :
    ReachableOk charIntCaps twelveOf16 ∧ twelveOf16.size = 12 ∧ twelveOf16.capacity = 16
      ∧ 4 * twelveOf16.size ≤ 3 * twelveOf16.capacity :=
  ⟨reachableOk_twelveOf16, by decide, by decide,
   C12_max_load charIntCaps twelveOf16 reachableOk_twelveOf16⟩

/-- C13, as stated, fails: `emptiedMap` is reached from a fresh map by one
successful insert and one successful erase; it holds no pair in 8 buckets,
so its load factor `0` is below `0.25` and its capacity is not 16. -/
theorem C13_counterexample :
    ReachableOk charIntCaps emptiedMap
      ∧ emptiedMap.size = 0 ∧ emptiedMap.capacity = 8
      ∧ ¬ (emptiedMap.capacity ≤ 4 * emptiedMap.size ∨ emptiedMap.capacity = 16) :=
  ⟨reachableOk_emptiedMap, by decide, by decide, by decide⟩

/-- C13, amended: in every map reachable from `HashMapAlloc` by successful
calls of `HashMapInsert` and `HashMapErase`, the load factor is at least
`0.25` (`4 * size >= capacity`) unless the capacity is at most the initial
capacity 16. -/
theorem C13_min_load_above_initial {K V : Type} (c : Caps K V) (m : HashMap K V)
    (hr : ReachableOk c m) : m.capacity ≤ 4 * m.size ∨ m.capacity ≤ 16 := by
  induction hr with
  | alloc m al0 al h =>
    rw [HashMapAlloc_result c al0 al m h]
    exact Or.inr (Nat.le_refl 16)
  | insert m pair al0 r m1 al hm hstep hr0 ih =>
    obtain ⟨_, _, _, h4⟩ := HashMapInsert_shape c m m1 hm.toAny.shape pair al0 al r hstep
    rcases h4 hr0 with ⟨e1, e2⟩ | ⟨e1, e2⟩
    · rw [e1, e2]; exact ih
    · by_cases hex : exceedsMaxLoad m.capacity m.size = true
      · rw [if_pos hex] at e2
        unfold exceedsMaxLoad at hex
        simp only [decide_eq_true_eq] at hex
        left; omega
      · rw [if_neg hex] at e2
        rw [e1, e2]
        rcases ih with h | h
        · left; omega
        · right; exact h
  | erase m key al0 r m1 al hm hstep hr0 ih =>
    obtain ⟨_, _, h3⟩ := HashMapErase_shape c m m1 hm.toAny.shape key al0 al r hstep
    obtain ⟨e0, e1, e2⟩ := h3 hr0
    by_cases hlt : (m.size - 1) * 4 < m.capacity
    · rw [if_pos hlt] at e2
      rw [e1, e2]
      rcases ih with h | h
      · by_cases h32 : m.capacity ≤ 32
        · right; omega
        · left; omega
      · right; omega
    · rw [if_neg hlt] at e2
      rw [e1, e2]
      left; omega

/-- Witness of the amended C13: `eightOf32`, eight pairs in 32 buckets, where
the bound is attained. -/
theorem C13_min_load_above_initial_witness :
    ReachableOk charIntCaps eightOf32 ∧ eightOf32.size = 8 ∧ eightOf32.capacity = 32
      ∧ (eightOf32.capacity ≤ 4 * eightOf32.size ∨ eightOf32.capacity ≤ 16) :=
  ⟨reachableOk_eightOf32, by decide, by decide,
   C13_min_load_above_initial charIntCaps eightOf32 reachableOk_eightOf32⟩

/-- What holds of C14 when no allocation fails: in every map reachable from
`HashMapAlloc` by calls of `HashMapInsert` and `HashMapErase` in which every
allocation request succeeds, no two stored pairs of the whole map have keys
that compare equal, and `size` is the sum of the sizes of the buckets. -/
theorem Reachable.distinct_keys_and_size {K V : Type} {c : Caps K V} (hc : c.Lawful)
    {m : HashMap K V} (hr : Reachable c m) :
    (entries m).Pairwise (fun p q => c.key_cmp p.key q.key ≠ 1)
      ∧ m.size = (m.buckets.map Vector.size).sum :=
  ⟨entries_pairwise hc (hr.inv hc).1, (hr.inv hc).1.size_eq⟩

/-- C14 fails on the code at `topFour` (a reachable map with 4 pairs) for
`HashMapErase` of the stored key 12 when the `realloc` of `VectorErase`
fails: `VectorErase` has already removed the pair when it returns 0, and
`HashMapErase` returns 0 without decrementing `size`.  The map returned
has `size` 4 and 3 stored pairs. -/
theorem C14_failed_erase_breaks_size :
    Reachable charIntCaps topFour
      ∧ topFour.size = 4 ∧ (topFour.buckets.map Vector.size).sum = 4
      ∧ HashMapErase charIntCaps topFour (some 12) [false]
          = some (0, topFourFailedErase, [])
      ∧ ReachableAny charIntCaps topFourFailedErase
      ∧ topFourFailedErase.size = 4
      ∧ (topFourFailedErase.buckets.map Vector.size).sum = 3
      ∧ ¬ StoredKey charIntCaps topFourFailedErase 12 :=
  ⟨reachable_topFour, by decide, by decide, by decide, reachableAny_topFourFailedErase,
   by decide, by decide, by decide⟩

/-! ## The claims on `HashMapAlloc` and on the vector -/

theorem HashMapAlloc_missing {K V : Type} (hash_func : Option (K → Nat))
    (pair_cpy : Option (Pair K V → Pair K V))
    (pair_cmp : Option (Pair K V → Pair K V → Int))
    (pair_free : Option (Pair K V → Unit))
    (h : hash_func = none ∨ pair_cpy = none ∨ pair_cmp = none ∨ pair_free = none)
    (al : Alloc) :
    HashMapAlloc hash_func pair_cpy pair_cmp pair_free al = (none, al) := by
  unfold HashMapAlloc
  rcases h with h | h | h | h <;> subst h <;> simp

theorem containsKey_fresh {K V : Type} (c : Caps K V) (key : Option K) :
    HashMapContainsKey c ⟨List.replicate 16 ⟨16, []⟩, 0, 16⟩ key = some 0 := by
  cases key with
  | none => rfl
  | some k =>
    unfold HashMapContainsKey
    have hlt : HASH c.hash_func k 16 < 16 := HASH_lt c.hash_func k (by decide)
    have hb : (List.replicate 16 (⟨16, []⟩ : Vector (Pair K V)))[HASH c.hash_func k 16]?
        = some ⟨16, []⟩ := by
      rw [List.getElem?_replicate]
      simp [hlt]
    simp only [hb]
    simp [GetPairIndexByKey, GetPairIndexByKey.loop]

theorem containsValue_fresh {K V : Type} (c : Caps K V) (value : Option V) :
    HashMapContainsValue c ⟨List.replicate 16 ⟨16, []⟩, 0, 16⟩ value = some 0 := by
  cases value with
  | none => rfl
  | some v => simp [HashMapContainsValue]

/-- C15: `HashMapAlloc` returns `NULL` whenever one of its four function
pointers is missing, whatever the allocator does.  With the four functions
and no allocation failing it returns a map (the only map it ever returns for
them) with `size` 0, `capacity` 16 and exactly 16 buckets, each of size 0;
on that map `HashMapContainsKey` and `HashMapContainsValue` return 0 for
every argument, `NULL` included, and every choice of comparators. -/
theorem C15_alloc {K V : Type} (hash_func : Option (K → Nat))
    (pair_cpy : Option (Pair K V → Pair K V))
    (pair_cmp : Option (Pair K V → Pair K V → Int))
    (pair_free : Option (Pair K V → Unit)) :
    ((hash_func = none ∨ pair_cpy = none ∨ pair_cmp = none ∨ pair_free = none) →
        ∀ al, HashMapAlloc hash_func pair_cpy pair_cmp pair_free al = (none, al))
      ∧ ((hash_func ≠ none ∧ pair_cpy ≠ none ∧ pair_cmp ≠ none ∧ pair_free ≠ none) →
        ∃ m, HashMapAlloc hash_func pair_cpy pair_cmp pair_free [] = (some m, [])
          ∧ (∀ al m1 al1,
              HashMapAlloc hash_func pair_cpy pair_cmp pair_free al = (some m1, al1) → m1 = m)
          ∧ m.size = 0 ∧ m.capacity = 16 ∧ m.buckets.length = 16
          ∧ (∀ b ∈ m.buckets, b.size = 0)
          ∧ ∀ c : Caps K V,
              (∀ key, HashMapContainsKey c m key = some 0)
                ∧ ∀ value, HashMapContainsValue c m value = some 0) := by
  refine ⟨fun h al => HashMapAlloc_missing _ _ _ _ h al, ?_⟩
  rintro ⟨h1, h2, h3, h4⟩
  obtain ⟨h, rfl⟩ := Option.ne_none_iff_exists'.mp h1
  obtain ⟨f, rfl⟩ := Option.ne_none_iff_exists'.mp h2
  obtain ⟨g, rfl⟩ := Option.ne_none_iff_exists'.mp h3
  obtain ⟨u, rfl⟩ := Option.ne_none_iff_exists'.mp h4
  refine ⟨⟨List.replicate 16 ⟨16, []⟩, 0, 16⟩,
    HashMapAlloc_nil ⟨h, f, g, u, fun _ _ => 0, fun _ _ => 0⟩, ?_, rfl, rfl,
    List.length_replicate _ _, ?_, ?_⟩
  · intro al m1 al1 hm
    exact HashMapAlloc_result ⟨h, f, g, u, fun _ _ => 0, fun _ _ => 0⟩ al al1 m1 hm
  · intro b hb
    rw [List.eq_of_mem_replicate hb]
    rfl
  · intro c
    exact ⟨containsKey_fresh c, containsValue_fresh c⟩

theorem VectorAt_ge {α : Type} (v : Vector α) (i : Nat) (h1 : 1 ≤ v.size)
    (h : v.size ≤ i) : VectorAt v i = some none := by
  unfold VectorAt
  have : i > sizeSubOne v.size := by
    rw [sizeSubOne_pos h1]; omega
  rw [if_pos this]

theorem VectorAt_empty {α : Type} (v : Vector α) (i : Nat) (h0 : v.size = 0)
    (h : i < 2 ^ 64) : VectorAt v i = none := by
  unfold VectorAt
  have h1 : ¬ i > sizeSubOne v.size := by
    rw [h0]
    unfold sizeSubOne
    simp only [if_true]
    omega
  rw [if_neg h1]
  have hd : v.data = [] := List.length_eq_zero.mp h0
  rw [hd]
  rfl

theorem VectorErase_ge {α : Type} (v : Vector α) (i : Nat) (h1 : 1 ≤ v.size)
    (h : v.size ≤ i) (al : Alloc) : VectorErase v i al = some (0, v, al) := by
  unfold VectorErase
  have : i > sizeSubOne v.size := by
    rw [sizeSubOne_pos h1]; omega
  rw [if_pos this]

theorem VectorErase_empty {α : Type} (v : Vector α) (i : Nat) (h0 : v.size = 0)
    (h : i < 2 ^ 64) (al : Alloc) : VectorErase v i al = none := by
  unfold VectorErase
  have h1 : ¬ i > sizeSubOne v.size := by
    rw [h0]
    unfold sizeSubOne
    simp only [if_true]
    omega
  have h2 : ¬ i < v.size := by omega
  rw [if_neg h1, if_neg h2]

/-- What holds of C16 on a vector that is not empty: `VectorAt` returns the
stored element itself for an index below `size`, and `NULL` for every
index from `size` on. -/
theorem VectorAt_nonempty {α : Type} (v : Vector α) (i : Nat) (h1 : 1 ≤ v.size) :
    VectorAt v i = some (v.data[i]?) := by
  by_cases h : i < v.data.length
  · rw [VectorAt_lt v i h, List.getElem?_eq_getElem h]
  · have h2 : v.size ≤ i := by unfold Vector.size; omega
    rw [VectorAt_ge v i h1 h2, List.getElem?_eq_none (by omega)]

/-- C16 fails on the code for the empty vector: on the vector `VectorAlloc`
returns (size 0) the guard `ind > vector->size - 1` of `VectorAt` compares
with `SIZE_MAX` and never holds, so `VectorAt` returns `data[ind]`, a slot
that holds no element, and not `NULL`: for the indices 0 and 20 and, on
every empty vector, for every index. -/
theorem C16_at_on_empty_vector :
    VectorAlloc (some (fun x : Int => x)) (some (fun _ _ => 0)) (some (fun _ => ())) []
        = (some freshVector, [])
      ∧ freshVector.size = 0
      ∧ VectorAt freshVector 0 = none
      ∧ VectorAt freshVector 0 ≠ some none
      ∧ VectorAt freshVector 20 = none
      ∧ ∀ (v : Vector Int) (ind : Nat), v.size = 0 → ind < 2 ^ 64 → VectorAt v ind = none :=
  ⟨rfl, rfl, by decide, by decide, by decide, fun v ind h0 h => VectorAt_empty v ind h0 h⟩

/-- C17 fails on the code for the empty vector: on the vector `VectorAlloc`
returns (size 0) the guard `ind > vector->size - 1` of `VectorErase` never
holds, so the call does not return 0 with the vector unchanged but goes
on to free and shift slots that hold no element; on a vector that is not
empty every index from `size` on does return 0 and the same vector. -/
theorem C17_erase_on_empty_vector :
    VectorAlloc (some (fun x : Int => x)) (some (fun _ _ => 0)) (some (fun _ => ())) []
        = (some freshVector, [])
      ∧ freshVector.size = 0
      ∧ VectorErase freshVector 0 [] = none
      ∧ VectorErase freshVector 0 [] ≠ some (0, freshVector, [])
      ∧ (∀ (v : Vector Int) (ind : Nat) (al : Alloc), v.size = 0 → ind < 2 ^ 64 →
          VectorErase v ind al = none)
      ∧ ∀ (v : Vector Int) (ind : Nat) (al : Alloc), 1 ≤ v.size → v.size ≤ ind →
          VectorErase v ind al = some (0, v, al) :=
  ⟨rfl, rfl, by decide, by decide, fun v ind al h0 h => VectorErase_empty v ind h0 h al,
   fun v ind al h1 h => VectorErase_ge v ind h1 h al⟩

theorem shrink_capacity_eq {α : Type} (cap : Nat) (d : List α) :
    (if VectorLoadBelowMin (⟨cap, d⟩ : Vector α) = true then cap / 2 else cap)
      = if d.length * 4 < cap then cap / 2 else cap := by
  unfold VectorLoadBelowMin Vector.size
  by_cases h0 : cap = 0
  · subst h0
    simp
  · simp [h0]

/-- C18: for an index `i < size`, `VectorErase` is defined under every
behaviour of the allocator and leaves the vector with the elements `xs`
without the `i`-th one, the others in their order (position `j < i` keeps
its element, position `j >= i` gets the element of `j + 1`), `size`
decremented by one and capacity `c / 2` if `4 * (size - 1) < c` (the test
`(size-1)/c < 0.25` on the size after the removal) and `c` otherwise; it
returns 1 when no allocation fails, and under any allocator it returns 1
unless the `realloc` of the shrink (made when the capacity is 0 or the
test holds) fails. -/
theorem C18_erase_in_range {α : Type} (v : Vector α) (i : Nat) (hi : i < v.size) :
    VectorErase v i [] =
        some (1, ⟨if (v.size - 1) * 4 < v.capacity then v.capacity / 2 else v.capacity,
                  v.data.eraseIdx i⟩, [])
      ∧ (∀ al : Alloc, ∃ r al1,
          VectorErase v i al =
              some (r, ⟨if (v.size - 1) * 4 < v.capacity then v.capacity / 2
                          else v.capacity, v.data.eraseIdx i⟩, al1)
            ∧ (r = 1 ∨ (r = 0 ∧ (v.capacity = 0 ∨ (v.size - 1) * 4 < v.capacity)
                ∧ al.request.1 = false)))
      ∧ (v.data.eraseIdx i).length = v.size - 1
      ∧ ∀ j, (v.data.eraseIdx i)[j]? = if j < i then v.data[j]? else v.data[j + 1]? := by
  have hlen : (v.data.eraseIdx i).length = v.size - 1 := by
    unfold Vector.size at hi ⊢
    rw [List.length_eraseIdx, if_pos hi]
  have hcap := shrink_capacity_eq v.capacity (v.data.eraseIdx i)
  rw [hlen] at hcap
  refine ⟨?_, ?_, hlen, fun j => List.getElem?_eraseIdx v.data i j⟩
  · rw [VectorErase_nil v i hi, hcap]
  · intro al
    cases hres : VectorErase v i al with
    | none =>
      exfalso
      unfold VectorErase at hres
      have h1 : ¬ i > sizeSubOne v.size := by
        rw [sizeSubOne_pos (by omega)]; omega
      rw [if_neg h1, if_pos hi] at hres
      simp only at hres
      split at hres
      · split at hres <;> simp at hres
      · simp at hres
    | some res =>
      obtain ⟨r, v1, al1⟩ := res
      obtain ⟨e1, e2, e3⟩ := VectorErase_result v v1 i hi al al1 r hres
      rw [hcap] at e2
      refine ⟨r, al1, ?_, ?_⟩
      · have hv : v1 = ⟨if (v.size - 1) * 4 < v.capacity then v.capacity / 2
            else v.capacity, v.data.eraseIdx i⟩ := by
          cases v1 with
          | mk c1 d1 =>
            simp only at e1 e2
            rw [e1, e2]
        rw [hv]
      · rcases e3 with e3 | ⟨e3, e4, e5⟩
        · exact Or.inl e3
        · refine Or.inr ⟨e3, ?_, e5⟩
          unfold VectorLoadBelowMin Vector.size at e4
          simp only at e4
          by_cases h0 : v.capacity = 0
          · exact Or.inl h0
          · simp only [h0, if_false, decide_eq_true_eq] at e4
            rw [hlen] at e4
            exact Or.inr e4


/-- Witness of C18: the middle one of three elements is erased from a vector
of capacity 16, which shrinks to 8. -/
theorem C18_erase_in_range_witness :
    1 < (⟨16, [5, 6, 7]⟩ : Vector Int).size
      ∧ VectorErase (⟨16, [5, 6, 7]⟩ : Vector Int) 1 [] = some (1, ⟨8, [5, 7]⟩, []) :=
  ⟨by decide, (C18_erase_in_range (⟨16, [5, 6, 7]⟩ : Vector Int) 1 (by decide)).1⟩

theorem pushAll_keep {α : Type} (cpy : α → α) (xs : List α) :
    ∀ d : List α, d.length + xs.length ≤ 12 →
      pushAll cpy ⟨16, d⟩ xs = (List.replicate xs.length 1, ⟨16, d ++ xs.map cpy⟩) := by
  induction xs with
  | nil => intro d _; simp [pushAll]
  | cons x xs ih =>
    intro d h
    simp only [List.length_cons] at h
    have hex : exceedsMaxLoad 16 d.length = false := by
      unfold exceedsMaxLoad
      simp only [decide_eq_false_iff_not]
      omega
    have hp : VectorPushBack cpy ⟨16, d⟩ (some x) [] = (1, ⟨16, d ++ [cpy x]⟩, []) := by
      rw [VectorPushBack_nil]
      simp [Vector.size, hex]
    unfold pushAll
    rw [hp]
    simp only
    rw [ih (d ++ [cpy x]) (by simp; omega)]
    simp [List.replicate_succ]

theorem pushAll_append {α : Type} (cpy : α → α) (xs ys : List α) :
    ∀ v : Vector α, pushAll cpy v (xs ++ ys) =
      ((pushAll cpy v xs).1 ++ (pushAll cpy (pushAll cpy v xs).2 ys).1,
        (pushAll cpy (pushAll cpy v xs).2 ys).2) := by
  induction xs with
  | nil => intro v; simp [pushAll]
  | cons x xs ih =>
    intro v
    have e : x :: xs ++ ys = x :: (xs ++ ys) := rfl
    rw [e]
    simp only [pushAll]
    rw [ih]
    simp

theorem pushAll_thirteen {α : Type} (cpy : α → α) (xs : List α) (h : xs.length = 13) :
    pushAll cpy ⟨16, []⟩ xs = (List.replicate 13 1, ⟨32, xs.map cpy⟩) := by
  have hsplit : xs = xs.take 12 ++ xs.drop 12 := (List.take_append_drop 12 xs).symm
  have hd : (xs.drop 12).length = 1 := by rw [List.length_drop, h]
  obtain ⟨y, hy⟩ := List.length_eq_one.mp hd
  have ht : (xs.take 12).length = 12 := by rw [List.length_take, h]; rfl
  have hk := pushAll_keep cpy (xs.take 12) [] (by rw [ht]; simp)
  rw [ht] at hk
  have hmap : xs.map cpy = (xs.take 12).map cpy ++ [cpy y] := by
    conv_lhs => rw [hsplit, hy]
    simp
  conv_lhs => rw [hsplit, hy]
  rw [pushAll_append, hk]
  simp only [pushAll, List.nil_append]
  rw [VectorPushBack_nil]
  have hex : exceedsMaxLoad 16 (⟨16, List.map cpy (List.take 12 xs)⟩ : Vector α).size = true := by
    unfold exceedsMaxLoad Vector.size
    simp only [List.length_map, ht]
    decide
  simp only [hex, if_true, hmap]
  rfl

/-- C19: for a non-null value, `VectorPushBack` returns 1 when no allocation
fails, and every call that returns a non-zero code, whatever the allocator
does, returns 1 and the same vector: the elements `xs` followed by
`copy(value)` at index `s`, size `s + 1`, and capacity `2 * c` if
`3 * c < 4 * (s + 1)` (the test `c * 0.75 < s + 1` on the size before the
insertion) and `c` otherwise.  A fresh vector keeps capacity 16 through 12
pushes and has capacity 32 after the 13th. -/
theorem C19_push_back {α : Type} (cpy : α → α) (v : Vector α) (x : α) :
    VectorPushBack cpy v (some x) [] =
        (1, ⟨if v.capacity * 3 < (v.size + 1) * 4 then v.capacity * 2 else v.capacity,
              v.data ++ [cpy x]⟩, [])
      ∧ (∀ al r v1 al1, VectorPushBack cpy v (some x) al = (r, v1, al1) → r ≠ 0 →
          r = 1 ∧ v1 = ⟨if v.capacity * 3 < (v.size + 1) * 4 then v.capacity * 2
                          else v.capacity, v.data ++ [cpy x]⟩)
      ∧ (v.data ++ [cpy x])[v.size]? = some (cpy x)
      ∧ (∀ j, j < v.size → (v.data ++ [cpy x])[j]? = v.data[j]?)
      ∧ (v.data ++ [cpy x]).length = v.size + 1
      ∧ ∀ xs : List α, xs.length = 13 →
          (∀ n, n ≤ 12 →
            pushAll cpy ⟨16, []⟩ (xs.take n) = (List.replicate n 1, ⟨16, (xs.take n).map cpy⟩))
          ∧ pushAll cpy ⟨16, []⟩ xs = (List.replicate 13 1, ⟨32, xs.map cpy⟩) := by
  have h0 : VectorPushBack cpy v (some x) [] =
        (1, ⟨if v.capacity * 3 < (v.size + 1) * 4 then v.capacity * 2 else v.capacity,
              v.data ++ [cpy x]⟩, []) := by
    rw [VectorPushBack_nil]
    unfold exceedsMaxLoad
    simp
  refine ⟨h0, ?_, ?_, ?_, ?_, ?_⟩
  · intro al r v1 al1 h hr
    have h1 := VectorPushBack_success cpy v v1 (some x) al al1 r h hr
    rw [h0] at h1
    simp only [Prod.mk.injEq, and_true] at h1
    exact ⟨h1.1.symm, h1.2.symm⟩
  · unfold Vector.size
    simp
  · intro j hj
    unfold Vector.size at hj
    rw [List.getElem?_append_left hj]
  · unfold Vector.size
    simp
  · intro xs hxs
    refine ⟨?_, pushAll_thirteen cpy xs hxs⟩
    intro n hn
    have hl : (xs.take n).length = n := by rw [List.length_take]; omega
    have hk := pushAll_keep cpy (xs.take n) [] (by rw [hl]; simpa using hn)
    rw [hl] at hk
    simpa using hk

theorem VectorErase_in_range {α : Type} (v v1 : Vector α) (i : Nat) (al al1 : Alloc)
    (r : Int) (h : VectorErase v i al = some (r, v1, al1)) (hr : r ≠ 0) : i < v.size := by
  by_contra hi
  unfold VectorErase at h
  by_cases h1 : i > sizeSubOne v.size
  · rw [if_pos h1] at h
    simp only [Option.some.injEq, Prod.mk.injEq] at h
    exact hr h.1.symm
  · rw [if_neg h1, if_neg hi] at h
    simp at h

theorem VectorReachable.of_pushAll {α : Type} (cpy : α → α) (xs : List α) :
    ∀ v : Vector α, VectorReachable cpy v → VectorReachable cpy (pushAll cpy v xs).2 := by
  induction xs with
  | nil => intro v hv; exact hv
  | cons x xs ih =>
    intro v hv
    unfold pushAll
    simp only
    apply ih
    exact VectorReachable.push v (some x) [] 1 _ [] hv
      (by rw [VectorPushBack_nil cpy v x]) (by decide)

theorem VectorReachable.freshVec {α : Type} (cpy : α → α) (cmp : α → α → Int)
    (free : α → Unit) : VectorReachable cpy (⟨16, []⟩ : Vector α) :=
  VectorReachable.alloc cmp free [] _ [] (VectorAlloc_nil cpy cmp free)

theorem vectorReachable_emptiedVector : VectorReachable (fun x : Int => x) emptiedVector :=
  VectorReachable.erase ⟨16, [7]⟩ 0 [] 1 _ []
    (VectorReachable.push freshVector (some 7) [] 1 _ []
      (VectorReachable.freshVec _ (fun _ _ => 0) (fun _ => ())) (by decide) (by decide))
    (by decide) (by decide)

theorem vectorReachable_thirteenPushed :
    VectorReachable (fun x : Int => x) thirteenPushed :=
  VectorReachable.of_pushAll _ _ _ (VectorReachable.freshVec _ (fun _ _ => 0) (fun _ => ()))

/-- C20, as stated, fails: `emptiedVector` is reached from the vector
`VectorAlloc` returns by one successful push and one successful erase; its
capacity is 8, below the initial capacity 16, and it holds no element, so
its load factor `0` is below `0.25`. -/
theorem C20_counterexample :
    VectorReachable (fun x : Int => x) emptiedVector
      ∧ VectorPushBack (fun x : Int => x) freshVector (some 7) [] = (1, ⟨16, [7]⟩, [])
      ∧ VectorErase (⟨16, [7]⟩ : Vector Int) 0 [] = some (1, emptiedVector, [])
      ∧ emptiedVector.capacity = 8 ∧ emptiedVector.size = 0
      ∧ ¬ 16 ≤ emptiedVector.capacity
      ∧ ¬ (emptiedVector.capacity = 16
            ∨ (emptiedVector.capacity ≤ 4 * emptiedVector.size
                ∧ 4 * emptiedVector.size ≤ 3 * emptiedVector.capacity)) :=
  ⟨vectorReachable_emptiedVector, by decide, by decide, by decide, by decide, by decide,
   by decide⟩

/-- C20, amended: in every vector reachable from `VectorAlloc` by successful
calls of `VectorPushBack` and `VectorErase`, the capacity is at least 1 (and
not at least 16), `size / capacity <= 0.75`, and either the capacity is at
most 16 or `0.25 <= size / capacity`. -/
theorem C20_vector_load {α : Type} (cpy : α → α) (v : Vector α)
    (hr : VectorReachable cpy v) :
    1 ≤ v.capacity ∧ 4 * v.size ≤ 3 * v.capacity
      ∧ (v.capacity ≤ 16 ∨ v.capacity ≤ 4 * v.size) := by
  induction hr with
  | alloc cmp free al0 v al h =>
    have h1 := VectorAlloc_success _ _ _ al0 al v h
    rw [VectorAlloc_nil] at h1
    simp only [Prod.mk.injEq, Option.some.injEq, and_true] at h1
    rw [← h1]
    simp [Vector.size]
  | push v value al0 r v1 al hv hstep hr0 ih =>
    obtain ⟨i1, i2, i3⟩ := ih
    rcases VectorPushBack_result cpy v v1 value al0 al r hstep with ⟨e, _⟩ | ⟨_, a, _, e1, e2⟩
    · exact absurd e hr0
    · have hs : v1.size = v.size + 1 := by
        unfold Vector.size
        rw [e1]
        simp
      rw [hs, e2]
      by_cases hex : exceedsMaxLoad v.capacity v.size = true
      · rw [if_pos hex]
        unfold exceedsMaxLoad at hex
        simp only [decide_eq_true_eq] at hex
        refine ⟨by omega, by omega, Or.inr (by omega)⟩
      · rw [if_neg hex]
        unfold exceedsMaxLoad at hex
        simp only [decide_eq_true_eq] at hex
        refine ⟨i1, by omega, ?_⟩
        rcases i3 with h | h
        · exact Or.inl h
        · exact Or.inr (by omega)
  | erase v ind al0 r v1 al hv hstep hr0 ih =>
    obtain ⟨i1, i2, i3⟩ := ih
    have hi := VectorErase_in_range v v1 ind al0 al r hstep hr0
    obtain ⟨e1, e2, _⟩ := VectorErase_result v v1 ind hi al0 al r hstep
    have hlen : (v.data.eraseIdx ind).length = v.size - 1 := by
      unfold Vector.size at hi ⊢
      rw [List.length_eraseIdx, if_pos hi]
    have hs : v1.size = v.size - 1 := by
      unfold Vector.size at hlen ⊢
      rw [e1, hlen]
    rw [shrink_capacity_eq, hlen] at e2
    rw [hs, e2]
    by_cases hlt : (v.size - 1) * 4 < v.capacity
    · rw [if_pos hlt]
      refine ⟨by omega, by omega, ?_⟩
      by_cases h32 : v.capacity ≤ 33
      · exact Or.inl (by omega)
      · rcases i3 with h | h
        · exact Or.inl (by omega)
        · exact Or.inr (by omega)
    · rw [if_neg hlt]
      exact ⟨i1, by omega, Or.inr (by omega)⟩

/-- Witness of the amended C20: `thirteenPushed`, 13 elements in a vector of
capacity 32. -/
theorem C20_vector_load_witness :
    VectorReachable (fun x : Int => x) thirteenPushed
      ∧ thirteenPushed.capacity = 32 ∧ thirteenPushed.size = 13
      ∧ 1 ≤ thirteenPushed.capacity ∧ 4 * thirteenPushed.size ≤ 3 * thirteenPushed.capacity
      ∧ (thirteenPushed.capacity ≤ 16 ∨ thirteenPushed.capacity ≤ 4 * thirteenPushed.size) :=
  ⟨vectorReachable_thirteenPushed, by decide, by decide,
   C20_vector_load (fun x : Int => x) thirteenPushed vectorReachable_thirteenPushed⟩

/-! ## Lemmas: every pair stays in the bucket of its key -/

theorem Placed_set {K V : Type} (c : Caps K V) (n : Nat) (bs : List (Vector (Pair K V)))
    (idx : Nat) (b1 : Vector (Pair K V)) (h : Placed c n bs)
    (h1 : ∀ p ∈ b1.data, HASH c.hash_func p.key n = idx) :
    Placed c n (bs.set idx b1) := by
  intro i b hb p hp
  rw [List.getElem?_set] at hb
  by_cases hi : idx = i
  · rw [if_pos hi] at hb
    by_cases hl : idx < bs.length
    · rw [if_pos hl] at hb
      simp only [Option.some.injEq] at hb
      subst hb
      rw [← hi]
      exact h1 p hp
    · rw [if_neg hl] at hb
      simp at hb
  · rw [if_neg hi] at hb
    exact h i b hb p hp

theorem Placed_replicate {K V : Type} (c : Caps K V) (n k : Nat) :
    Placed c n (List.replicate k (⟨16, []⟩ : Vector (Pair K V))) := by
  intro i b hb p hp
  have hmem : b ∈ List.replicate k (⟨16, []⟩ : Vector (Pair K V)) :=
    List.mem_iff_getElem?.mpr ⟨i, hb⟩
  rw [List.eq_of_mem_replicate hmem] at hp
  simp at hp

theorem ReHashing_inner_placed {K V : Type} (c : Caps K V)
    (hcpy : ∀ p, (c.pair_cpy p).key = p.key) (n : Nat) (ps : List (Pair K V)) :
    ∀ (temp t : List (Vector (Pair K V))) (al al1 : Alloc), Placed c n temp →
      ReHashing.inner c n ps temp al = some (some t, al1) → Placed c n t := by
  induction ps with
  | nil =>
    intro temp t al al1 hp h
    simp only [ReHashing.inner, Option.some.injEq, Prod.mk.injEq] at h
    rw [← h.1]
    exact hp
  | cons p ps ih =>
    intro temp t al al1 hp h
    unfold ReHashing.inner at h
    simp only at h
    cases hb : temp[HASH c.hash_func p.key n]? with
    | none => rw [hb] at h; simp at h
    | some b =>
      rw [hb] at h
      simp only at h
      cases hpb : VectorPushBack c.pair_cpy b (some p) al with
      | mk r1 rest =>
        cases rest with
        | mk b1 al2 =>
          rw [hpb] at h
          simp only at h
          rcases VectorPushBack_result c.pair_cpy b b1 (some p) al al2 r1 hpb with
            ⟨hr0, _⟩ | ⟨hr1, a, ha, hd, _⟩
          · rw [if_pos hr0] at h
            simp at h
          · rw [if_neg (by rw [hr1]; decide)] at h
            simp only [Option.some.injEq] at ha
            subst ha
            refine ih _ t al2 al1 (Placed_set c n temp _ b1 hp ?_) h
            intro q hq
            rw [hd, List.mem_append, List.mem_singleton] at hq
            rcases hq with hq | hq
            · exact hp _ b hb q hq
            · rw [hq]
              unfold HASH
              rw [hcpy]

theorem ReHashing_outer_placed {K V : Type} (c : Caps K V)
    (hcpy : ∀ p, (c.pair_cpy p).key = p.key) (m : HashMap K V) (n : Nat) (cnt : Nat) :
    ∀ (i : Nat) (temp t : List (Vector (Pair K V))) (al al1 : Alloc), Placed c n temp →
      ReHashing.outer c m n cnt i temp al = some (some t, al1) → Placed c n t := by
  induction cnt with
  | zero =>
    intro i temp t al al1 hp h
    simp only [ReHashing.outer, Option.some.injEq, Prod.mk.injEq] at h
    rw [← h.1]
    exact hp
  | succ cnt ih =>
    intro i temp t al al1 hp h
    unfold ReHashing.outer at h
    cases hb : m.buckets[i]? with
    | none => rw [hb] at h; simp at h
    | some b =>
      rw [hb] at h
      simp only at h
      cases hin : ReHashing.inner c n b.data temp al with
      | none => rw [hin] at h; simp at h
      | some res =>
        cases res with
        | mk ot al2 =>
          rw [hin] at h
          cases ot with
          | none => simp at h
          | some t1 =>
            simp only at h
            exact ih (i + 1) t1 t al2 al1
              (ReHashing_inner_placed c hcpy n b.data temp t1 al al2 hp hin) h

theorem ReHashing_placed {K V : Type} (c : Caps K V)
    (hcpy : ∀ p, (c.pair_cpy p).key = p.key) (m : HashMap K V) (n : Nat)
    (t : List (Vector (Pair K V))) (al al1 : Alloc)
    (h : ReHashing c m n al = some (some t, al1)) : Placed c n t := by
  unfold ReHashing at h
  cases hi : InitBuckets n (some c.pair_cpy) (some c.pair_cmp) (some c.pair_free) al with
  | mk ot al2 =>
    rw [hi] at h
    cases ot with
    | none => simp at h
    | some temp =>
      simp only at h
      have ht := InitBuckets_result _ _ _ n al al2 temp hi
      subst ht
      exact ReHashing_outer_placed c hcpy m n m.capacity 0 _ t al2 al1
        (Placed_replicate c n n) h

theorem IncreaseTable_placed {K V : Type} (c : Caps K V)
    (hcpy : ∀ p, (c.pair_cpy p).key = p.key) (m m1 : HashMap K V)
    (hp : Placed c m.capacity m.buckets) (n : Nat) (p : Pair K V) (al al1 : Alloc) (r : Int)
    (h : IncreaseTable c m n p al = some (r, m1, al1)) :
    Placed c m1.capacity m1.buckets := by
  unfold IncreaseTable at h
  cases hre : ReHashing c m n al with
  | none => rw [hre] at h; simp at h
  | some res =>
    cases res with
    | mk ot al2 =>
      rw [hre] at h
      cases ot with
      | none =>
        simp only [Option.some.injEq, Prod.mk.injEq] at h
        rw [← h.2.1]
        exact hp
      | some t =>
        have ht := ReHashing_placed c hcpy m n t al al2 hre
        simp only at h
        cases hb : t[HASH c.hash_func p.key n]? with
        | none => rw [hb] at h; simp at h
        | some b =>
          rw [hb] at h
          simp only at h
          cases hpb : VectorPushBack c.pair_cpy b (some p) al2 with
          | mk r1 rest =>
            cases rest with
            | mk b1 al3 =>
              rw [hpb] at h
              simp only at h
              rcases VectorPushBack_result c.pair_cpy b b1 (some p) al2 al3 r1 hpb with
                ⟨hr0, _⟩ | ⟨hr1, a, ha, hd, _⟩
              · rw [if_pos hr0] at h
                simp only [Option.some.injEq, Prod.mk.injEq] at h
                rw [← h.2.1]
                exact hp
              · rw [if_neg (by rw [hr1]; decide)] at h
                simp only [Option.some.injEq, Prod.mk.injEq] at h
                rw [← h.2.1]
                simp only [Option.some.injEq] at ha
                subst ha
                refine Placed_set c n t _ b1 ht ?_
                intro q hq
                rw [hd, List.mem_append, List.mem_singleton] at hq
                rcases hq with hq | hq
                · exact ht _ b hb q hq
                · rw [hq]
                  unfold HASH
                  rw [hcpy]

theorem DecreaseTable_placed {K V : Type} (c : Caps K V)
    (hcpy : ∀ p, (c.pair_cpy p).key = p.key) (m m1 : HashMap K V)
    (hp : Placed c m.capacity m.buckets) (n : Nat) (al al1 : Alloc) (r : Int)
    (h : DecreaseTable c m n al = some (r, m1, al1)) :
    Placed c m1.capacity m1.buckets := by
  unfold DecreaseTable at h
  by_cases hl : HashMapLoadAtLeastMin m = true
  · rw [if_pos hl] at h
    simp only [Option.some.injEq, Prod.mk.injEq] at h
    rw [← h.2.1]
    exact hp
  · rw [if_neg hl] at h
    cases hre : ReHashing c m n al with
    | none => rw [hre] at h; simp at h
    | some res =>
      cases res with
      | mk ot al2 =>
        rw [hre] at h
        cases ot with
        | none =>
          simp only [Option.some.injEq, Prod.mk.injEq] at h
          rw [← h.2.1]
          exact hp
        | some t =>
          simp only [Option.some.injEq, Prod.mk.injEq] at h
          rw [← h.2.1]
          exact ReHashing_placed c hcpy m n t al al2 hre

theorem HashMapInsert_placed {K V : Type} (c : Caps K V)
    (hcpy : ∀ p, (c.pair_cpy p).key = p.key) (m m1 : HashMap K V)
    (hp : Placed c m.capacity m.buckets) (pair : Option (Pair K V)) (al al1 : Alloc)
    (r : Int) (h : HashMapInsert c m pair al = some (r, m1, al1)) :
    Placed c m1.capacity m1.buckets := by
  cases pair with
  | none =>
    simp only [HashMapInsert, Option.some.injEq, Prod.mk.injEq] at h
    rw [← h.2.1]
    exact hp
  | some p =>
    unfold HashMapInsert at h
    simp only at h
    cases hb : m.buckets[HASH c.hash_func p.key m.capacity]? with
    | none => rw [hb] at h; simp at h
    | some b =>
      rw [hb] at h
      simp only at h
      by_cases hi : GetPairIndexByKey c b (some p.key) ≠ -1
      · rw [if_pos hi] at h
        simp only [Option.some.injEq, Prod.mk.injEq] at h
        rw [← h.2.1]
        refine Placed_set c m.capacity m.buckets _ _ hp ?_
        intro q hq
        rcases List.mem_or_eq_of_mem_set hq with hq | hq
        · exact hp _ b hb q hq
        · rw [hq]
          unfold HASH
          rw [hcpy]
      · rw [if_neg hi] at h
        by_cases hex : exceedsMaxLoad m.capacity m.size = true
        · rw [if_pos hex] at h
          cases hinc : IncreaseTable c m (m.capacity * HASH_MAP_GROWTH_FACTOR) p al with
          | none => rw [hinc] at h; simp at h
          | some res =>
            cases res with
            | mk r1 rest =>
              cases rest with
              | mk m2 al2 =>
                rw [hinc] at h
                simp only at h
                have hp2 := IncreaseTable_placed c hcpy m m2 hp _ p al al2 r1 hinc
                by_cases hr1 : r1 = 0
                · rw [if_pos hr1] at h
                  simp only [Option.some.injEq, Prod.mk.injEq] at h
                  rw [← h.2.1]
                  exact hp2
                · rw [if_neg hr1] at h
                  simp only [Option.some.injEq, Prod.mk.injEq] at h
                  rw [← h.2.1]
                  exact hp2
        · rw [if_neg hex] at h
          cases hpb : VectorPushBack c.pair_cpy b (some p) al with
          | mk r1 rest =>
            cases rest with
            | mk b1 al2 =>
              rw [hpb] at h
              simp only at h
              have hb1 : ∀ q ∈ b1.data, HASH c.hash_func q.key m.capacity
                  = HASH c.hash_func p.key m.capacity := by
                intro q hq
                rcases VectorPushBack_result c.pair_cpy b b1 (some p) al al2 r1 hpb with
                  ⟨_, hd⟩ | ⟨_, a, ha, hd, _⟩
                · rw [hd] at hq
                  exact hp _ b hb q hq
                · simp only [Option.some.injEq] at ha
                  subst ha
                  rw [hd, List.mem_append, List.mem_singleton] at hq
                  rcases hq with hq | hq
                  · exact hp _ b hb q hq
                  · rw [hq]
                    unfold HASH
                    rw [hcpy]
              by_cases hr1 : r1 = 0
              · rw [if_pos hr1] at h
                simp only [Option.some.injEq, Prod.mk.injEq] at h
                rw [← h.2.1]
                exact Placed_set c m.capacity m.buckets _ b1 hp hb1
              · rw [if_neg hr1] at h
                simp only [Option.some.injEq, Prod.mk.injEq] at h
                rw [← h.2.1]
                exact Placed_set c m.capacity m.buckets _ b1 hp hb1

theorem HashMapErase_placed {K V : Type} (c : Caps K V)
    (hcpy : ∀ p, (c.pair_cpy p).key = p.key) (m m1 : HashMap K V)
    (hp : Placed c m.capacity m.buckets) (key : Option K) (al al1 : Alloc)
    (r : Int) (h : HashMapErase c m key al = some (r, m1, al1)) :
    Placed c m1.capacity m1.buckets := by
  cases key with
  | none =>
    simp only [HashMapErase, Option.some.injEq, Prod.mk.injEq] at h
    rw [← h.2.1]
    exact hp
  | some k =>
    unfold HashMapErase at h
    simp only at h
    cases hck : HashMapContainsKey c m (some k) with
    | none => rw [hck] at h; simp at h
    | some found =>
      rw [hck] at h
      simp only at h
      by_cases hf : found = 0
      · rw [if_pos hf] at h
        simp only [Option.some.injEq, Prod.mk.injEq] at h
        rw [← h.2.1]
        exact hp
      · rw [if_neg hf] at h
        cases hb : m.buckets[HASH c.hash_func k m.capacity]? with
        | none => rw [hb] at h; simp at h
        | some b =>
          rw [hb] at h
          simp only at h
          by_cases hi : GetPairIndexByKey c b (some k) = -1
          · rw [if_pos hi] at h
            simp only [Option.some.injEq, Prod.mk.injEq] at h
            rw [← h.2.1]
            exact hp
          · rw [if_neg hi] at h
            have hidx := GetPairIndexByKey_found c b k hi
            cases hve : VectorErase b (GetPairIndexByKey c b (some k)).toNat al with
            | none => rw [hve] at h; simp at h
            | some res =>
              cases res with
              | mk r1 rest =>
                cases rest with
                | mk b1 al2 =>
                  rw [hve] at h
                  simp only at h
                  obtain ⟨v1, _, _⟩ := VectorErase_result b b1 _ hidx al al2 r1 hve
                  have hb1 : ∀ q ∈ b1.data, HASH c.hash_func q.key m.capacity
                      = HASH c.hash_func k m.capacity := by
                    intro q hq
                    rw [v1] at hq
                    exact hp _ b hb q (List.mem_of_mem_eraseIdx hq)
                  have hset := Placed_set c m.capacity m.buckets _ b1 hp hb1
                  by_cases hr1 : r1 = 0
                  · rw [if_pos hr1] at h
                    simp only [Option.some.injEq, Prod.mk.injEq] at h
                    rw [← h.2.1]
                    exact hset
                  · rw [if_neg hr1] at h
                    exact DecreaseTable_placed c hcpy
                      ⟨m.buckets.set (HASH c.hash_func k m.capacity) b1,
                        sizeSubOne m.size, m.capacity⟩ m1 hset _ al2 al1 r h

/-- Every map reachable under any allocator keeps every pair in the bucket
of its key, when the copy of a pair has the key of the original. -/
theorem ReachableAny.placed {K V : Type} {c : Caps K V}
    (hcpy : ∀ p, (c.pair_cpy p).key = p.key) {m : HashMap K V}
    (h : ReachableAny c m) : Placed c m.capacity m.buckets := by
  induction h with
  | alloc m al0 al h =>
    rw [HashMapAlloc_result c al0 al m h]
    exact Placed_replicate c 16 16
  | insert m pair al0 r m1 al _ hstep ih =>
    exact HashMapInsert_placed c hcpy m m1 ih pair al0 al r hstep
  | erase m key al0 r m1 al _ hstep ih =>
    exact HashMapErase_placed c hcpy m m1 ih key al0 al r hstep

theorem containsKey_of_placed {K V : Type} (c : Caps K V) (m : HashMap K V)
    (hp : Placed c m.capacity m.buckets) (k : K)
    (hs : ∃ b ∈ m.buckets, ∃ p ∈ b.data,
      c.key_cmp p.key k = 1 ∧ c.hash_func p.key = c.hash_func k) :
    HashMapContainsKey c m (some k) = some 1 := by
  obtain ⟨b, hb, p, hpb, hcmp, hhash⟩ := hs
  obtain ⟨i, hi⟩ := List.mem_iff_getElem?.mp hb
  have hidx : HASH c.hash_func k m.capacity = i := by
    rw [← hp i b hi p hpb]
    unfold HASH
    rw [hhash]
  unfold HashMapContainsKey
  simp only [hidx, hi]
  have hfind : (b.data.find? (keyTest c k)).isSome = true := by
    rw [List.find?_isSome]
    exact ⟨p, hpb, by simp [keyTest, hcmp]⟩
  have hlt := (findIdx_lt_iff (keyTest c k) b.data).mpr hfind
  rw [GetPairIndexByKey_eq, if_pos hlt]
  simp

/-! ## The claims on the buffer of the vector and on the reads of `HashMapClear` -/

theorem VectorReachable.inRange {α : Type} {cpy : α → α} {v : Vector α}
    (h : VectorReachable cpy v) : VectorReachableIn cpy v := by
  induction h with
  | alloc cmp free al0 v al h => exact VectorReachableIn.alloc cmp free al0 v al h
  | push v value al0 r v1 al _ hstep hr ih =>
    exact VectorReachableIn.push v value al0 r v1 al ih hstep hr
  | erase v ind al0 r v1 al _ hstep hr ih =>
    exact VectorReachableIn.erase v ind al0 r v1 al ih
      (VectorErase_in_range v v1 ind al0 al r hstep hr) hstep

theorem vectorReachableIn_failedShrinkVector :
    VectorReachableIn (fun x : Int => x) failedShrinkVector :=
  VectorReachableIn.erase (pushAll (fun x => x) freshVector [7, 8, 9]).2 1 [false] 0 _ []
    (VectorReachable.of_pushAll _ _ _
      (VectorReachable.freshVec _ (fun _ _ => 0) (fun _ => ()))).inRange
    (by decide) (by decide)

/-- C21: in every vector reachable from `VectorAlloc` by calls of
`VectorPushBack` that return a non-zero code and calls of `VectorErase` with
an index below `size` (also those whose shrinking `realloc` fails),
`size <= capacity` holds and the capacity is at least 1; the invariant that
carries both is `size / capacity <= 0.75`. -/
theorem C21_size_le_capacity {α : Type} (cpy : α → α) (v : Vector α)
    (hr : VectorReachableIn cpy v) :
    v.size ≤ v.capacity ∧ 1 ≤ v.capacity ∧ 4 * v.size ≤ 3 * v.capacity := by
  induction hr with
  | alloc cmp free al0 v al h =>
    have h1 := VectorAlloc_success _ _ _ al0 al v h
    rw [VectorAlloc_nil] at h1
    simp only [Prod.mk.injEq, Option.some.injEq, and_true] at h1
    rw [← h1]
    simp [Vector.size]
  | push v value al0 r v1 al hv hstep hr0 ih =>
    obtain ⟨_, i1, i2⟩ := ih
    rcases VectorPushBack_result cpy v v1 value al0 al r hstep with ⟨e, _⟩ | ⟨_, a, _, e1, e2⟩
    · exact absurd e hr0
    · have hs : v1.size = v.size + 1 := by
        unfold Vector.size
        rw [e1]
        simp
      rw [hs, e2]
      by_cases hex : exceedsMaxLoad v.capacity v.size = true
      · rw [if_pos hex]
        refine ⟨by omega, by omega, by omega⟩
      · rw [if_neg hex]
        unfold exceedsMaxLoad at hex
        simp only [decide_eq_true_eq] at hex
        refine ⟨by omega, i1, by omega⟩
  | erase v ind al0 r v1 al hv hi hstep ih =>
    obtain ⟨_, i1, i2⟩ := ih
    obtain ⟨e1, e2, _⟩ := VectorErase_result v v1 ind hi al0 al r hstep
    have hlen : (v.data.eraseIdx ind).length = v.size - 1 := by
      unfold Vector.size at hi ⊢
      rw [List.length_eraseIdx, if_pos hi]
    have hs : v1.size = v.size - 1 := by
      unfold Vector.size at hlen ⊢
      rw [e1, hlen]
    rw [shrink_capacity_eq, hlen] at e2
    rw [hs, e2]
    by_cases hlt : (v.size - 1) * 4 < v.capacity
    · rw [if_pos hlt]
      refine ⟨by omega, by omega, by omega⟩
    · rw [if_neg hlt]
      exact ⟨by omega, i1, by omega⟩

/-- Witness of C21: `failedShrinkVector`, reached through a call of
`VectorErase` whose shrinking `realloc` fails: two elements, capacity 8. -/
theorem C21_size_le_capacity_witness :
    VectorReachableIn (fun x : Int => x) failedShrinkVector
      ∧ failedShrinkVector = ⟨8, [7, 9]⟩
      ∧ failedShrinkVector.size ≤ failedShrinkVector.capacity
      ∧ 1 ≤ failedShrinkVector.capacity
      ∧ 4 * failedShrinkVector.size ≤ 3 * failedShrinkVector.capacity :=
  ⟨vectorReachableIn_failedShrinkVector, by decide,
   C21_size_le_capacity (fun x : Int => x) failedShrinkVector
    vectorReachableIn_failedShrinkVector⟩

theorem innerReads_snd {K V : Type} (c : Caps K V) (i : Nat) (j : Nat) :
    ∀ (m : HashMap K V) (al : Alloc),
      (HashMapClear.innerReads c i j m al).2 = HashMapClear.inner c i j m al := by
  induction j with
  | zero => intro m al; rfl
  | succ j ih =>
    intro m al
    unfold HashMapClear.innerReads HashMapClear.inner
    cases hb : m.buckets[i]? with
    | none => rfl
    | some b =>
      simp only
      cases hd : b.data[j]? with
      | none => rfl
      | some pair =>
        simp only
        cases he : HashMapErase c m (some pair.key) al with
        | none => rfl
        | some r =>
          simp only
          by_cases hr : r.1 = 0
          · rw [if_pos hr, if_pos hr]
          · rw [if_neg hr, if_neg hr]
            exact ih r.2.1 r.2.2

theorem outerReads_snd {K V : Type} (c : Caps K V) (i : Nat) :
    ∀ (m : HashMap K V) (al : Alloc),
      (HashMapClear.outerReads c i m al).2 = HashMapClear.outer c i m al := by
  induction i with
  | zero => intro m al; rfl
  | succ i ih =>
    intro m al
    unfold HashMapClear.outerReads HashMapClear.outer
    cases hb : m.buckets[i]? with
    | none => rfl
    | some b =>
      simp only
      rw [← innerReads_snd]
      cases hin : (HashMapClear.innerReads c i b.size m al).2 with
      | none => rfl
      | some r =>
        simp only
        by_cases hr : r.1 = false
        · rw [if_pos hr, if_pos hr]
        · rw [if_neg hr, if_neg hr]
          exact ih r.2.1 r.2.2

/-- The function `HashMapClear.reads` runs `HashMapClear`: its second
component is the result of `HashMapClear`. -/
theorem reads_snd {K V : Type} (c : Caps K V) (m : HashMap K V) (al : Alloc) :
    (HashMapClear.reads c m al).2 = HashMapClear c m al := by
  unfold HashMapClear.reads HashMapClear
  by_cases h : m.size = 0
  · rw [if_pos h, if_pos h]
  · rw [if_neg h, if_neg h]
    exact outerReads_snd c m.capacity m al

theorem reachable_onlyFifteen : Reachable charIntCaps onlyFifteen :=
  Reachable.of_insertAll [⟨15, 150⟩] freshMap _ [1] (Reachable.fresh charIntCaps) (by decide)

/-- C22 fails on the code at `onlyFifteen`, the reachable map of capacity 16
whose single pair has key 15.  The loops of `HashMapClear` read
`buckets[15]` (capacity 16), `buckets[15]` and its `data[0]` (bucket size 1),
erase key 15, which shrinks the table to 8 buckets, and then read
`buckets[14]` while the capacity is 8: that bucket index is not below the
current capacity. -/
theorem C22_clear_reads_past_capacity :
    Reachable charIntCaps onlyFifteen
      ∧ onlyFifteen.size = 1 ∧ onlyFifteen.capacity = 16
      ∧ HashMapClear.reads charIntCaps onlyFifteen [] =
          ([ClearRead.bucket 15 16, ClearRead.bucket 15 16, ClearRead.slot 15 0 1,
            ClearRead.bucket 14 8], none)
      ∧ ClearRead.valid (ClearRead.bucket 14 8) = false
      ∧ (∃ m1, HashMapErase charIntCaps onlyFifteen (some 15) [] = some (1, m1, [])
          ∧ m1.capacity = 8 ∧ m1.buckets.length = 8 ∧ m1.buckets[14]? = none)
      ∧ HashMapClear charIntCaps onlyFifteen [] = none := by
  refine ⟨reachable_onlyFifteen, by decide, by decide, by decide, by decide, ?_, by decide⟩
  refine ⟨mapOf (eraseAll charIntCaps onlyFifteen [15]) freshMap, ?_⟩
  decide

/-! ## The claims on growth, on the bucket of a key and on the least capacity -/

/-- C23: on a reachable map with capacity `c` and size `s`, `HashMapInsert`
of a pair whose key is not stored returns 1 when no allocation fails, and
every call that returns a non-zero code, whatever the allocator does,
returns 1 and the same map: its size is `s + 1`, its capacity is `2 * c` if
`3 * c < 4 * (s + 1)` (that is `c * 0.75 < s + 1`) and `c` otherwise, every
key stored before is found by `HashMapAt` with the value it had, and the new
key is found with the new value. -/
theorem C23_insert_new_key {K V : Type} (c : Caps K V) (hc : c.Lawful) (m : HashMap K V)
    (hr : Reachable c m) (p : Pair K V) (hn : ¬ StoredKey c m p.key) :
    ∃ m1, HashMapInsert c m (some p) [] = some (1, m1, [])
      ∧ (∀ al r m2 al2, HashMapInsert c m (some p) al = some (r, m2, al2) → r ≠ 0 →
          r = 1 ∧ m2 = m1)
      ∧ m1.size = m.size + 1
      ∧ m1.capacity = (if m.capacity * 3 < (m.size + 1) * 4 then 2 * m.capacity
          else m.capacity)
      ∧ (∀ k, StoredKey c m k →
          HashMapAt c m1 (some k) = HashMapAt c m (some k)
            ∧ ∃ v, HashMapAt c m (some k) = some (some v))
      ∧ HashMapAt c m1 (some p.key) = some (some p.value) := by
  have hinv := hr.inv hc
  have hnone : lookup c m p.key = none := (lookup_eq_none_iff hc hinv.1 p.key).mpr hn
  obtain ⟨m1, a1, a2, a3, a4, a5⟩ := HashMapInsert_spec hc hinv p
  rw [hnone] at a4 a5
  simp only [Option.isSome_none, Bool.false_eq_true, if_false] at a4 a5
  refine ⟨m1, a1, ?_, a4, ?_, ?_, ?_⟩
  · intro al r m2 al2 h hr0
    have h1 := HashMapInsert_success c m m2 (some p) al al2 r h hr0
    rw [a1] at h1
    simp only [Option.some.injEq, Prod.mk.injEq, and_true] at h1
    exact ⟨h1.1.symm, h1.2.symm⟩
  · rw [a5]
    unfold exceedsMaxLoad
    by_cases hlt : m.capacity * 3 < (m.size + 1) * 4
    · simp only [hlt, decide_True, if_true]
      omega
    · simp [hlt]
  · intro k hk
    have hne : c.key_cmp p.key k ≠ 1 := by
      intro hpk
      apply hn
      obtain ⟨b, hb, q, hq, hqk⟩ := hk
      exact ⟨b, hb, q, hq, hc.cmp_trans _ _ _ hqk (hc.cmp_symm _ _ hpk)⟩
    refine ⟨?_, ?_⟩
    · rw [HashMapAt_eq_lookup a2.1, HashMapAt_eq_lookup hinv.1, a3 k, if_neg hne]
    · have hsome := (lookup_isSome_iff hc hinv.1 k).mpr hk
      obtain ⟨v, hv⟩ := Option.isSome_iff_exists.mp hsome
      exact ⟨v, by rw [HashMapAt_eq_lookup hinv.1, hv]⟩
  · rw [HashMapAt_eq_lookup a2.1, a3 p.key, if_pos (hc.cmp_refl _)]

/-- Witness of C23: the pair `(12, 120)` inserted into `twelveOf16`, where
`16 * 0.75 < 12 + 1`. -/
theorem C23_insert_new_key_witness :
    ¬ StoredKey charIntCaps twelveOf16 12
      ∧ twelveOf16.capacity = 16 ∧ twelveOf16.size = 12
      ∧ ∃ m1, HashMapInsert charIntCaps twelveOf16 (some ⟨12, 120⟩) [] = some (1, m1, [])
          ∧ m1.size = 13 ∧ m1.capacity = 32
          ∧ HashMapAt charIntCaps m1 (some 3) = some (some 30)
          ∧ HashMapAt charIntCaps m1 (some 12) = some (some 120) := by
  have hn : ¬ StoredKey charIntCaps twelveOf16 12 := by decide
  obtain ⟨m1, h1, _, h2, h3, h4, h5⟩ := C23_insert_new_key charIntCaps charIntCaps_lawful
    twelveOf16
    (Reachable.of_insertAll (thirteenPairs.take 12) freshMap _ (List.replicate 12 1)
      (Reachable.fresh charIntCaps) (by decide))
    ⟨12, 120⟩ hn
  refine ⟨hn, by decide, by decide, m1, h1, h2, h3, ?_, h5⟩
  rw [(h4 3 (by decide)).1]
  decide

/-- C24: in every map reachable from `HashMapAlloc` by any calls of
`HashMapInsert` and `HashMapErase`, whatever the allocator does and whatever
the calls return, with a copy function that keeps the key of a pair, every
pair stored in bucket `i` satisfies `hash(key) & (capacity-1) = i`; so for
every key `k`, if some stored pair has a key that compares equal to `k` and
has the hash of `k`, the scan of the bucket of `k` alone finds it:
`HashMapContainsKey` returns 1. -/
theorem C24_pairs_in_bucket_of_key {K V : Type} (c : Caps K V)
    (hcpy : ∀ p, (c.pair_cpy p).key = p.key) (m : HashMap K V) (hr : ReachableAny c m) :
    (∀ i b, m.buckets[i]? = some b →
        ∀ p ∈ b.data, HASH c.hash_func p.key m.capacity = i)
      ∧ ∀ k, (∃ b ∈ m.buckets, ∃ p ∈ b.data,
            c.key_cmp p.key k = 1 ∧ c.hash_func p.key = c.hash_func k) →
          HashMapContainsKey c m (some k) = some 1 :=
  ⟨hr.placed hcpy, fun k hk => containsKey_of_placed c m (hr.placed hcpy) k hk⟩

/-- Witness of C24: the map `shrunkBucket`, reached by twelve calls, and its
stored key 3. -/
theorem C24_pairs_in_bucket_of_key_witness :
    (∀ p, (charIntCaps.pair_cpy p).key = p.key)
      ∧ ReachableAny charIntCaps shrunkBucket
      ∧ (∀ i b, shrunkBucket.buckets[i]? = some b →
          ∀ p ∈ b.data, HASH charIntCaps.hash_func p.key shrunkBucket.capacity = i)
      ∧ HashMapContainsKey charIntCaps shrunkBucket (some 3) = some 1 := by
  have h := C24_pairs_in_bucket_of_key charIntCaps (fun _ => rfl) shrunkBucket
    reachable_shrunkBucket.anyAlloc
  exact ⟨fun _ => rfl, reachable_shrunkBucket.anyAlloc, h.1, by decide⟩

theorem containsKey_capacity_one {K V : Type} (c : Caps K V) (m : HashMap K V)
    (hs : Shape m) (h1 : m.capacity = 1) (key : Option K) :
    HashMapContainsKey c m key = some 0 := by
  cases key with
  | none => rfl
  | some k =>
    have hlt : HASH c.hash_func k m.capacity < m.capacity :=
      HASH_lt c.hash_func k hs.capacity_pos
    have h0 : HASH c.hash_func k m.capacity = 0 := by omega
    have hlen := hs.len
    have hl0 : 0 < m.buckets.length := by omega
    have hsum := hs.sum_le
    have hload := hs.load
    have key0 := set_sum Vector.size m.buckets 0 ⟨0, []⟩ hl0
    have hz : Vector.size (⟨0, []⟩ : Vector (Pair K V)) = 0 := rfl
    have hb0 : (m.buckets[0]).size = 0 := by omega
    have hd : (m.buckets[0]).data = [] := List.length_eq_zero.mp hb0
    unfold HashMapContainsKey
    simp only [h0, List.getElem?_eq_getElem hl0]
    simp [GetPairIndexByKey, hd, GetPairIndexByKey.loop]

theorem erase_capacity_one {K V : Type} (c : Caps K V) (m : HashMap K V)
    (hs : Shape m) (h1 : m.capacity = 1) (key : Option K) (al : Alloc) :
    HashMapErase c m key al = some (0, m, al) := by
  cases key with
  | none => rfl
  | some k =>
    unfold HashMapErase
    simp only [containsKey_capacity_one c m hs h1 (some k)]
    simp

theorem reachableOk_capacityOne : ReachableOk charIntCaps capacityOne :=
  ReachableOk.runOps_ok capacityOneOps freshMap _ (List.replicate 8 1)
    (ReachableOk.freshOk charIntCaps) (by decide) (by decide)

/-- C25: in every map reachable from `HashMapAlloc` by any calls of
`HashMapInsert` and `HashMapErase`, whatever the allocator does and whatever
the calls return, the capacity is at least 1.  `HashMapErase` reaches its
call `DecreaseTable(hash_map, capacity / 2)` only after `HashMapContainsKey`
has returned non-zero, and then `capacity / 2` is at least 1; when
`capacity / 2` is 0 every call of `HashMapErase` returns 0 with the map as it
was.  There is no floor at the initial capacity: `capacityOne`, reached by
four times an insert and an erase, has capacity 1. -/
theorem C25_capacity_at_least_one {K V : Type} (c : Caps K V) (m : HashMap K V)
    (hr : ReachableAny c m) :
    1 ≤ m.capacity
      ∧ (∀ k found, HashMapContainsKey c m (some k) = some found → found ≠ 0 →
          1 ≤ m.capacity / HASH_MAP_GROWTH_FACTOR)
      ∧ (m.capacity / HASH_MAP_GROWTH_FACTOR = 0 →
          ∀ key al, HashMapErase c m key al = some (0, m, al))
      ∧ (ReachableOk charIntCaps capacityOne ∧ capacityOne.capacity = 1) := by
  have hs := hr.shape
  have hpos := hs.capacity_pos
  have hone : m.capacity / HASH_MAP_GROWTH_FACTOR = 0 → m.capacity = 1 := by
    unfold HASH_MAP_GROWTH_FACTOR
    omega
  refine ⟨hpos, ?_, ?_, reachableOk_capacityOne, by decide⟩
  · intro k found hf hne
    by_contra hlt
    have h1 := hone (Nat.lt_one_iff.mp (Nat.lt_of_not_le hlt))
    rw [containsKey_capacity_one c m hs h1 (some k)] at hf
    simp only [Option.some.injEq] at hf
    exact hne hf.symm
  · intro h0 key al
    exact erase_capacity_one c m hs (hone h0) key al

/-- Witness of C25: the map `capacityOne`, where `capacity / 2` is 0 and
`HashMapErase` returns 0 without reaching `DecreaseTable`. -/
theorem C25_capacity_at_least_one_witness :
    ReachableAny charIntCaps capacityOne
      ∧ capacityOne.capacity = 1
      ∧ 1 ≤ capacityOne.capacity
      ∧ HashMapErase charIntCaps capacityOne (some 1) [] = some (0, capacityOne, []) := by
  have h := C25_capacity_at_least_one charIntCaps capacityOne reachableOk_capacityOne.toAny
  exact ⟨reachableOk_capacityOne.toAny, by decide, h.1, h.2.2.1 (by decide) (some 1) []⟩

end CVectorMap
